import Mathlib

/-!
# Per-doctor appointment scheduler (`src/backend/scheduler.c`)

A shallow embedding of the scheduling core: the chained hash map, the augmented
interval tree, the array-backed min-heap, the undo stack and the orchestration
functions `add_event` and `undo_last`.

Modelling conventions.

* A C `int` is a Lean `Int`; the additions and the multiplication the source performs
  on times, durations and the id counter go through `wrap32`, the 32-bit two's-complement
  wrap-around, so that a theorem which needs a sum to stay in range says so in a
  hypothesis. Positions in the heap array (at most `2 * size + 2` with `size ≤ 1000`)
  are natural numbers.
* The global arrays (`event_hash_map`, `interval_trees`, `upcoming_heaps`,
  `undo_stacks`) are functions of the `int` index; `a[i] = v` is `Function.update a i v`.
  An index outside the declared bounds addresses a cell of its own; the theorems that
  depend on the bounds carry them as hypotheses.
* An `Event*` is the `Event` record it points to; the intrusive `next_in_hash` link is
  the tail of the bucket's chain (a `List Event`), and a `StackNode*` list is a `List Int`.
* A `MinHeap` is the list of `events[0 .. size-1]`; `size` is the length of that list.
  Slots at index `size` and above are never read by the source.
-/

namespace Scheduler

/-! ## Constants -/

/-- The source's `MAX_EVENTS_TOTAL`. -/
def MAX_EVENTS_TOTAL : Nat := 1000

/-- The source's `MAX_EVENTS_DAILY_LIMIT`. -/
def MAX_EVENTS_DAILY_LIMIT : Nat := 7

/-- The source's `MAX_DOCTORS`. -/
def MAX_DOCTORS : Int := 100

/-- The source's `HASH_SIZE`. -/
def HASH_SIZE : Int := 1000

/-- Largest value of a 32-bit `int`. -/
def INT_MAX : Int := 2147483647

/-- Smallest value of a 32-bit `int`. -/
def INT_MIN : Int := -2147483648

/-- Two's-complement wrap-around of a mathematical integer into the 32-bit `int` range. -/
def wrap32 (x : Int) : Int := (x + 2147483648) % 4294967296 - 2147483648

/-! ## Data model -/

/-- The source's `struct Event` (without the intrusive `next_in_hash` link, which is
the tail of the chain the event sits in). `description` holds the characters before
the terminating NUL. -/
structure Event where
  id : Int
  doctor_id : Int
  start_time : Int
  duration : Int
  end_time : Int
  type : Int
  break_type : Int
  description : List Char
deriving DecidableEq, Repr, Inhabited

/-- The source's `struct ITNode`; `null` is the `NULL` pointer. -/
inductive ITNode where
  | null : ITNode
  | node (event : Event) (max : Int) (left right : ITNode) : ITNode
deriving DecidableEq, Repr, Inhabited

/-- The global variables of the program. -/
structure SchedulerState where
  global_event_id : Int
  event_hash_map : Int → Int → List Event
  interval_trees : Int → ITNode
  upcoming_heaps : Int → List Event
  undo_stacks : Int → List Int

/-- What a call of `add_event` leaves behind: the returned code, the values written
through `collision_start` and `collision_end` (`none` when nothing is written), and
the globals after the call. -/
structure AddResult where
  ret : Int
  collision_start : Option Int
  collision_end : Option Int
  state : SchedulerState

/-! ## Hash map -/

/-- The source's `hash_insert`: link `e` in front of its bucket's chain. -/
def hash_insert (m : Int → Int → List Event) (e : Event) : Int → Int → List Event :=
  let key := Int.tmod e.id HASH_SIZE
  Function.update m e.doctor_id
    (Function.update (m e.doctor_id) key (e :: m e.doctor_id key))

/-- The `while (curr)` loop of `hash_remove`: unlink the first event of the chain whose
id is `event_id`. -/
def chain_remove (event_id : Int) : List Event → List Event
  | [] => []
  | curr :: next_in_hash =>
    if curr.id = event_id then next_in_hash
    else curr :: chain_remove event_id next_in_hash

/-- The source's `hash_remove`. -/
def hash_remove (m : Int → Int → List Event) (doctor_id event_id : Int) :
    Int → Int → List Event :=
  let key := Int.tmod event_id HASH_SIZE
  Function.update m doctor_id
    (Function.update (m doctor_id) key (chain_remove event_id (m doctor_id key)))

/-- The `while (curr)` loop of `hash_get`: the first event of the chain whose id is
`event_id`, or `none` for `NULL`. -/
def chain_get (event_id : Int) : List Event → Option Event
  | [] => none
  | curr :: next_in_hash =>
    if curr.id = event_id then some curr else chain_get event_id next_in_hash

/-- The source's `hash_get`. -/
def hash_get (m : Int → Int → List Event) (doctor_id event_id : Int) : Option Event :=
  let key := Int.tmod event_id HASH_SIZE
  chain_get event_id (m doctor_id key)

/-! ## Interval tree -/

/-- The source's `create_it_node`. -/
def create_it_node (e : Event) : ITNode :=
  ITNode.node e e.end_time ITNode.null ITNode.null

/-- The source's `it_insert`. -/
def it_insert : ITNode → Event → ITNode
  | ITNode.null, e => create_it_node e
  | ITNode.node ev mx l r, e =>
    if e.start_time < ev.start_time then
      ITNode.node ev (if mx < e.end_time then e.end_time else mx) (it_insert l e) r
    else
      ITNode.node ev (if mx < e.end_time then e.end_time else mx) l (it_insert r e)

/-- The source's `check_collision`; the result is the node returned, `none` for `NULL`. -/
def check_collision : ITNode → Int → Int → Option ITNode
  | ITNode.null, _, _ => none
  | ITNode.node ev mx l r, start, end_ =>
    if ev.start_time < end_ ∧ ev.end_time > start then some (ITNode.node ev mx l r)
    else
      match l with
      | ITNode.null => check_collision r start end_
      | ITNode.node _ lmax _ _ =>
        if lmax > start then check_collision l start end_
        else check_collision r start end_

/-! ## Min-heap -/

/-- The value of `h->events[i]->start_time`. -/
def start_at (h : List Event) (i : Nat) : Int := (h.getD i default).start_time

/-- The source's `swap`, applied to `&h->events[i]` and `&h->events[j]`. -/
def swap (h : List Event) (i j : Nat) : List Event :=
  (h.set i (h.getD j default)).set j (h.getD i default)

/-- The source's `heap_ify`, with a bound on the depth of the recursion. -/
def heap_ify_fuel : Nat → List Event → Nat → List Event
  | 0, h, _ => h
  | fuel + 1, h, idx =>
    let left := 2 * idx + 1
    let right := 2 * idx + 2
    let smallest₁ :=
      if left < h.length ∧ start_at h left < start_at h idx then left else idx
    let smallest :=
      if right < h.length ∧ start_at h right < start_at h smallest₁ then right
      else smallest₁
    if smallest ≠ idx then heap_ify_fuel fuel (swap h smallest idx) smallest else h

/-- The source's `heap_ify`. Each recursive call moves to a child position, so the
recursion is at most `size` deep. -/
def heap_ify (h : List Event) (idx : Nat) : List Event :=
  heap_ify_fuel h.length h idx

/-- The `while` loop of `heap_insert`, with a bound on the number of iterations. -/
def heap_insert_loop : Nat → List Event → Nat → List Event
  | 0, h, _ => h
  | fuel + 1, h, i =>
    if i ≠ 0 ∧ start_at h ((i - 1) / 2) > start_at h i then
      heap_insert_loop fuel (swap h i ((i - 1) / 2)) ((i - 1) / 2)
    else h

/-- The source's `heap_insert`. The loop index at least halves in every iteration, so
`size + 1` iterations are never exhausted. -/
def heap_insert (h : List Event) (e : Event) : List Event :=
  if h.length ≥ MAX_EVENTS_TOTAL then h
  else heap_insert_loop (h.length + 1) (h ++ [e]) h.length

/-- The source's `heap_remove`. -/
def heap_remove (h : List Event) (event_id : Int) : List Event :=
  let i := h.findIdx (fun e => decide (e.id = event_id))
  if i = h.length then h
  else heap_ify ((h.set i (h.getD (h.length - 1) default)).take (h.length - 1)) i

/-! ## Undo stack -/

/-- The source's `stack_push`. -/
def stack_push (stk : Int → List Int) (doctor_id event_id : Int) : Int → List Int :=
  Function.update stk doctor_id (event_id :: stk doctor_id)

/-- The source's `stack_pop`: the returned id and the stacks afterwards. -/
def stack_pop (stk : Int → List Int) (doctor_id : Int) : Int × (Int → List Int) :=
  match stk doctor_id with
  | [] => (-1, stk)
  | event_id :: next => (event_id, Function.update stk doctor_id next)

/-! ## Logic -/

/-- The globals as the static initialisers leave them. -/
def static_init : SchedulerState where
  global_event_id := 1
  event_hash_map := fun _ _ => []
  interval_trees := fun _ => ITNode.null
  upcoming_heaps := fun _ => []
  undo_stacks := fun _ => []

/-- The source's `init_scheduler`. -/
def init_scheduler (s : SchedulerState) : SchedulerState where
  global_event_id := s.global_event_id
  event_hash_map := fun i j =>
    if 0 ≤ i ∧ i < MAX_DOCTORS ∧ 0 ≤ j ∧ j < HASH_SIZE then [] else s.event_hash_map i j
  interval_trees := fun i =>
    if 0 ≤ i ∧ i < MAX_DOCTORS then ITNode.null else s.interval_trees i
  upcoming_heaps := fun i =>
    if 0 ≤ i ∧ i < MAX_DOCTORS then [] else s.upcoming_heaps i
  undo_stacks := fun i =>
    if 0 ≤ i ∧ i < MAX_DOCTORS then [] else s.undo_stacks i

/-- The state `main` starts from: the static initialisers followed by `init_scheduler`. -/
def initial : SchedulerState := init_scheduler static_init

/-- The source's `count_events_on_day`. -/
def count_events_on_day (s : SchedulerState) (doctor_id day_start day_end : Int) : Nat :=
  (s.upcoming_heaps doctor_id).countP
    (fun e => decide (e.start_time ≥ day_start ∧ e.start_time < day_end))

/-- The event `add_event` creates. -/
def new_event (s : SchedulerState) (doctor_id start duration type break_type : Int)
    (desc : List Char) : Event where
  id := s.global_event_id
  doctor_id := doctor_id
  start_time := start
  duration := duration
  end_time := wrap32 (start + duration)
  type := type
  break_type := break_type
  description := desc.take 99

/-- The source's `add_event`. `check_collision` only ever returns a node of the tree,
so the branch for `some ITNode.null` is never taken (`check_collision_some`). -/
def add_event (s : SchedulerState) (doctor_id start duration type break_type : Int)
    (desc : List Char) : AddResult :=
  if (s.upcoming_heaps doctor_id).length ≥ MAX_EVENTS_TOTAL then ⟨2, none, none, s⟩
  else
    let day_start := wrap32 (Int.tdiv start 1440 * 1440)
    let day_end := wrap32 (day_start + 1440)
    if count_events_on_day s doctor_id day_start day_end ≥ MAX_EVENTS_DAILY_LIMIT then
      ⟨2, none, none, s⟩
    else
      let end_ := wrap32 (start + duration)
      match check_collision (s.interval_trees doctor_id) start end_ with
      | some (ITNode.node ev _ _ _) => ⟨1, some ev.start_time, some ev.end_time, s⟩
      | some ITNode.null => ⟨1, none, none, s⟩
      | none =>
        let e := new_event s doctor_id start duration type break_type desc
        ⟨0, none, none,
          { global_event_id := wrap32 (s.global_event_id + 1)
            event_hash_map := hash_insert s.event_hash_map e
            interval_trees := Function.update s.interval_trees doctor_id
              (it_insert (s.interval_trees doctor_id) e)
            upcoming_heaps := Function.update s.upcoming_heaps doctor_id
              (heap_insert (s.upcoming_heaps doctor_id) e)
            undo_stacks := stack_push s.undo_stacks doctor_id e.id }⟩

/-- The source's `undo_last`. -/
def undo_last (s : SchedulerState) (doctor_id : Int) : SchedulerState :=
  let popped := stack_pop s.undo_stacks doctor_id
  let id := popped.1
  let s₁ : SchedulerState := { s with undo_stacks := popped.2 }
  if id = -1 then s₁
  else
    match hash_get s₁.event_hash_map doctor_id id with
    | none => s₁
    | some _ =>
      let heap := heap_remove (s₁.upcoming_heaps doctor_id) id
      { s₁ with
        upcoming_heaps := Function.update s₁.upcoming_heaps doctor_id heap
        event_hash_map := hash_remove s₁.event_hash_map doctor_id id
        interval_trees := Function.update s₁.interval_trees doctor_id
          (heap.foldl it_insert ITNode.null) }


/-! ## Specification vocabulary -/

/-- The events stored in the nodes of an interval tree, in in-order. -/
def ITNode.events : ITNode → List Event
  | ITNode.null => []
  | ITNode.node ev _ l r => l.events ++ ev :: r.events

/-- The invariant `it_insert` maintains: at every node the start times of the left
subtree are below the node's, those of the right subtree are not, and `max` is the
largest `end_time` stored in the node's subtree. -/
def ITNode.WF : ITNode → Prop
  | ITNode.null => True
  | ITNode.node ev mx l r =>
    (∀ x ∈ l.events, x.start_time < ev.start_time) ∧
    (∀ x ∈ r.events, ev.start_time ≤ x.start_time) ∧
    (∀ x ∈ (ITNode.node ev mx l r).events, x.end_time ≤ mx) ∧
    (∃ x ∈ (ITNode.node ev mx l r).events, x.end_time = mx) ∧
    l.WF ∧ r.WF

/-- The event `x` overlaps the half-open query interval `[start, end_)`. -/
def Overlaps (x : Event) (start end_ : Int) : Prop :=
  x.start_time < end_ ∧ x.end_time > start

instance (x : Event) (start end_ : Int) : Decidable (Overlaps x start end_) := by
  unfold Overlaps; infer_instance

/-- Two events do not overlap (touching at a boundary is allowed). -/
def NonOverlap (a b : Event) : Prop :=
  a.start_time ≥ b.end_time ∨ b.start_time ≥ a.end_time

/-- The value of `smallest` that `heap_ify` computes before its final test. -/
def smallest_of (h : List Event) (idx : Nat) : Nat :=
  let left := 2 * idx + 1
  let right := 2 * idx + 2
  let smallest₁ :=
    if left < h.length ∧ start_at h left < start_at h idx then left else idx
  if right < h.length ∧ start_at h right < start_at h smallest₁ then right
  else smallest₁


/-- The value `add_event` computes for `day_start`. -/
def day_start_of (start : Int) : Int := wrap32 (Int.tdiv start 1440 * 1440)

/-- The value `add_event` computes for `day_end`. -/
def day_end_of (start : Int) : Int := wrap32 (day_start_of start + 1440)

/-- Valid arguments of `add_event`: a doctor in `[0, MAX_DOCTORS)`, `start >= 0`,
`duration > 0`, and `start + duration` within `int` range. -/
def ValidArgs (doctor_id start duration : Int) : Prop :=
  0 ≤ doctor_id ∧ doctor_id < MAX_DOCTORS ∧ 0 ≤ start ∧ 0 < duration ∧
    start + duration ≤ INT_MAX

instance (doctor_id start duration : Int) : Decidable (ValidArgs doctor_id start duration) := by
  unfold ValidArgs; infer_instance

/-- The weaker notion of valid arguments that only asks for a doctor in range and `int`
values with `start >= 0` and `duration > 0`. -/
def WeakArgs (doctor_id start duration : Int) : Prop :=
  0 ≤ doctor_id ∧ doctor_id < MAX_DOCTORS ∧ 0 ≤ start ∧ start ≤ INT_MAX ∧
    0 < duration ∧ duration ≤ INT_MAX

instance (doctor_id start duration : Int) : Decidable (WeakArgs doctor_id start duration) := by
  unfold WeakArgs; infer_instance

/-- The states reachable from the initial state by `add_event` calls that satisfy `V`
(a condition on the state before the call and on `doctor_id`, `start`, `duration`) and
by `undo_last` calls on a doctor in range. -/
inductive ReachableBy (V : SchedulerState → Int → Int → Int → Prop) : SchedulerState → Prop
  | init : ReachableBy V initial
  | add (s : SchedulerState) (doctor_id start duration type break_type : Int)
      (desc : List Char) :
      ReachableBy V s → V s doctor_id start duration →
      ReachableBy V (add_event s doctor_id start duration type break_type desc).state
  | undo (s : SchedulerState) (doctor_id : Int) :
      ReachableBy V s → 0 ≤ doctor_id → doctor_id < MAX_DOCTORS →
      ReachableBy V (undo_last s doctor_id)

/-- Reachable by `add_event` calls with valid arguments and `undo_last` calls. -/
def Reachable : SchedulerState → Prop :=
  ReachableBy (fun _ doctor_id start duration => ValidArgs doctor_id start duration)

/-- Reachable by `add_event` calls with `start >= 0`, `duration > 0` and `undo_last`
calls. -/
def ReachableWeak : SchedulerState → Prop :=
  ReachableBy (fun _ doctor_id start duration => WeakArgs doctor_id start duration)

/-- Reachable by `add_event` calls with valid arguments, none of which overflows the
`int` counter `global_event_id`, and `undo_last` calls. -/
def ReachableNoOverflow : SchedulerState → Prop :=
  ReachableBy (fun s doctor_id start duration =>
    ValidArgs doctor_id start duration ∧ s.global_event_id < INT_MAX)

/-- The state a successful `add_event` leaves. -/
def added (s : SchedulerState) (doctor_id : Int) (e : Event) : SchedulerState where
  global_event_id := wrap32 (s.global_event_id + 1)
  event_hash_map := hash_insert s.event_hash_map e
  interval_trees := Function.update s.interval_trees doctor_id
    (it_insert (s.interval_trees doctor_id) e)
  upcoming_heaps := Function.update s.upcoming_heaps doctor_id
    (heap_insert (s.upcoming_heaps doctor_id) e)
  undo_stacks := stack_push s.undo_stacks doctor_id e.id

/-- The state `undo_last` leaves when it finds the popped id in the hash map. -/
def undone (s : SchedulerState) (doctor_id id : Int) (rest : List Int) : SchedulerState where
  global_event_id := s.global_event_id
  event_hash_map := hash_remove s.event_hash_map doctor_id id
  interval_trees := Function.update s.interval_trees doctor_id
    ((heap_remove (s.upcoming_heaps doctor_id) id).foldl it_insert ITNode.null)
  upcoming_heaps := Function.update s.upcoming_heaps doctor_id
    (heap_remove (s.upcoming_heaps doctor_id) id)
  undo_stacks := Function.update s.undo_stacks doctor_id rest

/-- The state `undo_last` leaves when it pops an id and then returns early. -/
def popped_only (s : SchedulerState) (doctor_id : Int) (rest : List Int) : SchedulerState :=
  { s with undo_stacks := Function.update s.undo_stacks doctor_id rest }

/-- What holds in every state the program can be in, whatever the arguments of the
calls: each doctor's tree is well formed and stores exactly the events of the heap,
the heap's events are pairwise non-overlapping, and the heap holds at most
`MAX_EVENTS_TOTAL` events. -/
def BasicInv (s : SchedulerState) : Prop :=
  ∀ d : Int,
    (s.interval_trees d).WF ∧
    (s.interval_trees d).events.Perm (s.upcoming_heaps d) ∧
    (s.upcoming_heaps d).Pairwise NonOverlap ∧
    (s.upcoming_heaps d).length ≤ MAX_EVENTS_TOTAL


/-- The state after `ADD 0 600 30 0 3 checkup` on the initial state. -/
def after_checkup : SchedulerState :=
  (add_event initial 0 600 30 0 3 "checkup".toList).state

/-- The state after a second, touching appointment `ADD 0 630 30 0 3 next`. -/
def after_next : SchedulerState :=
  (add_event after_checkup 0 630 30 0 3 "next".toList).state

/-- The first minute of the last calendar day that starts within `int` range: the day
with index `1491308`, whose end `2147484960` is larger than `INT_MAX`. -/
def LAST_DAY_START : Int := 2147483520

/-- The state after `n` one-minute appointments of doctor `0`, the first at `start` and
each later one a minute after the one before. -/
def add_minutes : Nat → SchedulerState → Int → SchedulerState
  | 0, s, _ => s
  | n + 1, s, start => add_minutes n (add_event s 0 start 1 0 3 []).state (start + 1)

/-- The number of events of a heap that start on calendar day `k`. -/
def count_on_day (h : List Event) (k : Int) : Nat :=
  h.countP (fun x => decide (x.start_time / 1440 = k))

/-- For every doctor, each calendar day whose end is within `int` range holds at most
`MAX_EVENTS_DAILY_LIMIT` events. -/
def DailyInv (s : SchedulerState) : Prop :=
  ∀ d k : Int, 0 ≤ k → k < 1491308 →
    count_on_day (s.upcoming_heaps d) k ≤ MAX_EVENTS_DAILY_LIMIT


/-- A call of the core's mutating interface. -/
inductive Call where
  | add (doctor_id start duration type break_type : Int) (desc : List Char) : Call
  | undo (doctor_id : Int) : Call

/-- The globals after a call. -/
def after_call (s : SchedulerState) : Call → SchedulerState
  | Call.add d start duration type break_type desc =>
    (add_event s d start duration type break_type desc).state
  | Call.undo d => undo_last s d

/-- The ids stamped on the events created by the successful `add_event` calls of a run,
in the order of the calls. -/
def assigned_ids : SchedulerState → List Call → List Int
  | _, [] => []
  | s, Call.add d start duration type break_type desc :: calls =>
    if (add_event s d start duration type break_type desc).ret = 0 then
      (new_event s d start duration type break_type desc).id ::
        assigned_ids (add_event s d start duration type break_type desc).state calls
    else assigned_ids (add_event s d start duration type break_type desc).state calls
  | s, Call.undo d :: calls => assigned_ids (undo_last s d) calls


/-- The min-heap property of a heap array: no event starts before its parent. -/
def HeapOrdered (h : List Event) : Prop :=
  ∀ i, 0 < i → i < h.length → start_at h ((i - 1) / 2) ≤ start_at h i

/-- The heap property everywhere except between position `i` and its parent, with the
children of `i` already above the parent of `i`: the loop invariant of `heap_insert`. -/
def AlmostHeap (h : List Event) (i : Nat) : Prop :=
  (∀ k, 0 < k → k < h.length → k ≠ i → start_at h ((k - 1) / 2) ≤ start_at h k) ∧
  (∀ k, 0 < k → k < h.length → (k - 1) / 2 = i → 0 < i →
    start_at h ((i - 1) / 2) ≤ start_at h k)

/-- No two positions of the heap array hold the same start time. -/
def DistinctStarts (h : List Event) : Prop :=
  ∀ i j, i < h.length → j < h.length → i ≠ j → start_at h i ≠ start_at h j


/-- The array `heap_remove` hands to `heap_ify` when the event to remove sits at
position `i` of an array of `n + 1` events: position `i` holds the last event and the
size is `n`. -/
def hole (b : List Event) (i n : Nat) : List Event :=
  (b.set i (b.getD n default)).take n

/-- The loop invariant of `heap_insert` that makes an immediate `heap_remove` of the
inserted event return the heap `a` the insertion started from: `b` is the array during
the insertion of `e`, `i` the position of `e`. -/
def RoundTrip (a : List Event) (e : Event) (b : List Event) (i : Nat) : Prop :=
  b.length = a.length + 1 ∧ i ≤ a.length ∧ b.getD i default = e ∧
  (∀ k, k ≤ a.length → k ≠ i → (b.getD k default).id ≠ e.id) ∧
  heap_ify (hole b i a.length) i = a ∧
  (∀ k, k < i → k < a.length → b.getD k default = a.getD k default) ∧
  (i < a.length →
    (0 < i → i + 1 < a.length → b.getD (i + 1) default = a.getD (i + 1) default) ∧
    (0 < i → start_at a ((i - 1) / 2) < start_at b a.length))


/-- The heap array obtained by inserting the events of `es` one after the other into an
empty heap. -/
def build_heap (es : List Event) : List Event := es.foldl heap_insert []

/-- Doctor `d`'s timeline is the one obtained by adding the events `es` in this order
and nothing else: the heap array, the undo stack and the hash buckets are those the
insertions of `es` produce, the ids increase along `es` and lie in
`[1, global_event_id)`, and every event belongs to `d` and ends after it starts. -/
def Timeline (s : SchedulerState) (d : Int) (es : List Event) : Prop :=
  s.upcoming_heaps d = build_heap es ∧
  es.length ≤ MAX_EVENTS_TOTAL ∧
  s.undo_stacks d = (es.map Event.id).reverse ∧
  (∀ key : Int, s.event_hash_map d key =
    (es.filter (fun e => decide (Int.tmod e.id HASH_SIZE = key))).reverse) ∧
  es.Pairwise (fun a b => a.id < b.id) ∧
  (∀ e ∈ es, 1 ≤ e.id ∧ e.id < s.global_event_id ∧ e.doctor_id = d ∧
    e.start_time < e.end_time)

/-- Every doctor's timeline is the result of adding its live events in the order of
their ids, and the id counter is positive. -/
def HistInv (s : SchedulerState) : Prop :=
  1 ≤ s.global_event_id ∧ ∀ d : Int, ∃ es : List Event, Timeline s d es


/-- The `for` loop of `suggest_slot`, entered with loop variable `t`; `fuel` bounds the
number of iterations. -/
def suggest_slot_loop : Nat → SchedulerState → Int → Int → Int → Int → Int
  | 0, _, _, _, _, _ => -1
  | fuel + 1, s, doctor_id, duration, day_start_mins, t =>
    if t ≤ 1200 then
      let global_t := wrap32 (day_start_mins + t)
      match check_collision (s.interval_trees doctor_id) global_t
          (wrap32 (global_t + duration)) with
      | none => global_t
      | some _ => suggest_slot_loop fuel s doctor_id duration day_start_mins (t + 15)
    else -1

/-- The source's `suggest_slot`. The loop variable runs through `480, 495, ..., 1200`,
so 49 iterations are never exhausted. -/
def suggest_slot (s : SchedulerState) (doctor_id duration day_start_mins : Int) : Int :=
  suggest_slot_loop 49 s doctor_id duration day_start_mins 480

/-- The characters `%d` prints for an `int`. -/
def print_int (i : Int) : List Char :=
  if i < 0 then '-' :: Nat.toDigits 10 i.natAbs else Nat.toDigits 10 i.toNat

/-- The text `sprintf` writes into `entry` for one event of `get_events_json`. -/
def entry_text (e : Event) : List Char :=
  "\x7b\"id\":".toList ++ print_int e.id ++
  ", \"start\":".toList ++ print_int e.start_time ++
  ", \"duration\":".toList ++ print_int e.duration ++
  ", \"type\":".toList ++ print_int e.type ++
  ", \"break\":".toList ++ print_int e.break_type ++
  ", \"desc\":\"".toList ++ e.description ++ "\"\x7d".toList

/-- The text the `for` loop of `get_events_json` appends for the events from position
`i` on: each entry, followed by a comma unless it is the last one. -/
def json_entries : List Event → List Char
  | [] => []
  | [e] => entry_text e
  | e :: e' :: es => entry_text e ++ ',' :: json_entries (e' :: es)

/-- The text `get_events_json` builds for a heap array: the entries of the events at
the positions `0 .. size-1`, in this order, between brackets. -/
def json_text (h : List Event) : List Char :=
  '[' :: json_entries h ++ [']']

/-- The text of a heap array fits the buffers of `get_events_json`: every entry with its
terminating NUL fits `entry[256]` and the whole text with its NUL fits
`json_buffer[4096]`. -/
def json_fits (h : List Event) : Prop :=
  (∀ e ∈ h, (entry_text e).length < 256) ∧ (json_text h).length < 4096

instance (h : List Event) : Decidable (json_fits h) := by
  unfold json_fits; infer_instance

/-- The source's `get_events_json`: the text left in `json_buffer`. The source checks
no length; `none` stands for a run in which `sprintf` or `strcat` writes past the end of
its buffer. -/
def get_events_json (s : SchedulerState) (doctor_id : Int) : Option (List Char) :=
  if json_fits (s.upcoming_heaps doctor_id) then some (json_text (s.upcoming_heaps doctor_id))
  else none

/-- One iteration of the loop of `get_time_to_next_event` on the pair
`(min_diff, found)`. -/
def time_step (current_time_mins : Int) (acc : Int × Bool) (e : Event) : Int × Bool :=
  let diff := wrap32 (e.start_time - current_time_mins)
  if diff ≥ 0 ∧ diff < acc.1 then (diff, true) else acc

/-- The source's `get_time_to_next_event`. -/
def get_time_to_next_event (s : SchedulerState) (doctor_id current_time_mins : Int) : Int :=
  if (s.upcoming_heaps doctor_id).length = 0 then -1
  else
    let r := (s.upcoming_heaps doctor_id).foldl (time_step current_time_mins) (100000, false)
    if r.2 = false then -1 else r.1

/-- The number of events in the heaps of the doctors `0 .. MAX_DOCTORS - 1`. -/
def total_events (s : SchedulerState) : Nat :=
  ((List.range 100).map (fun d : Nat => (s.upcoming_heaps (d : Int)).length)).sum

/-- Reachable by `add_event` calls on a doctor in range, with any arguments otherwise,
and `undo_last` calls. -/
def ReachableAny : SchedulerState → Prop :=
  ReachableBy (fun _ doctor_id _ _ => 0 ≤ doctor_id ∧ doctor_id < MAX_DOCTORS)

/-- Reachable by `add_event` calls on a doctor in range, with any arguments otherwise,
none of which overflows the `int` counter `global_event_id`, and `undo_last` calls. -/
def ReachableAnyNoOverflow : SchedulerState → Prop :=
  ReachableBy (fun s doctor_id _ _ =>
    0 ≤ doctor_id ∧ doctor_id < MAX_DOCTORS ∧ s.global_event_id < INT_MAX)

/-- Doctor `d`'s indices describe the events `es`, listed in the order of their ids:
the heap holds exactly these events, the undo stack their ids with the latest on top,
bucket `key` of the hash map those whose id has remainder `key`, latest first, and the
ids increase along `es` and lie in `[1, global_event_id)`. -/
def Coherent (s : SchedulerState) (d : Int) (es : List Event) : Prop :=
  (s.upcoming_heaps d).Perm es ∧
  s.undo_stacks d = (es.map Event.id).reverse ∧
  (∀ key : Int, s.event_hash_map d key =
    (es.filter (fun e => decide (Int.tmod e.id HASH_SIZE = key))).reverse) ∧
  es.Pairwise (fun a b => a.id < b.id) ∧
  (∀ e ∈ es, 1 ≤ e.id ∧ e.id < s.global_event_id)

/-- Every doctor's indices are coherent and the id counter is positive. -/
def CohInv (s : SchedulerState) : Prop :=
  1 ≤ s.global_event_id ∧ ∀ d : Int, ∃ es : List Event, Coherent s d es

/-- Doctor 1 holding `[480, 510)` and `[540, 570)`. -/
def two_slots : SchedulerState :=
  (add_event (add_event initial 1 480 30 0 3 []).state 1 540 30 0 3 []).state

/-- Doctor 0 after the appointments `[10, 11)`, `[30, 31)` and `[20, 21)`, added in
this order. -/
def three_starts : SchedulerState :=
  (add_event (add_event (add_event initial 0 10 1 0 3 []).state 0 30 1 0 3 []).state
    0 20 1 0 3 []).state

/-- Doctor 0 with a single appointment `[200000, 200030)`. -/
def far_event : SchedulerState :=
  (add_event initial 0 200000 30 0 3 []).state

/-- Doctor 0 with a single appointment `[1000, 1030)`. -/
def one_event : SchedulerState :=
  (add_event initial 0 1000 30 0 3 []).state

/-- Doctor 0 after the appointments `[20, 30)` and then `[0, 10)`. -/
def late_first : SchedulerState :=
  (add_event (add_event initial 0 20 10 0 3 []).state 0 0 10 0 3 []).state

/-- The state after `j` one-minute appointments of doctor 0, the `i`-th of them at the
first minute of day `i`. -/
def fill : Nat → SchedulerState
  | 0 => initial
  | j + 1 => (add_event (fill j) 0 (1440 * (j : Int)) 1 0 3 []).state

/-- Doctor 0 holding 1000 events and doctor 1 holding one. -/
def overfull : SchedulerState :=
  after_call (fill 1000) (Call.add 1 0 1 0 3 [])


/-- The globals with the id counter advanced as by `n` successful `add_event` calls. -/
def advance (s : SchedulerState) (n : Nat) : SchedulerState :=
  { s with global_event_id := wrap32 (s.global_event_id + (n : Int)) }

/-- The state after `n` rounds of the valid calls `ADD 1 0 1 0 3` and `UNDO 1`. -/
def spin : Nat → SchedulerState → SchedulerState
  | 0, s => s
  | n + 1, s => after_call (after_call (spin n s) (Call.add 1 0 1 0 3 [])) (Call.undo 1)

/-- The state after 4294967294 rounds of `ADD 1 0 1 0 3` and `UNDO 1` on the initial
state: the id counter has gone through `INT_MAX` and `INT_MIN` and stands at -1. -/
def wrapped : SchedulerState := spin 4294967294 initial

/-- The state `wrapped` followed by `ADD 1 0 1 0 3`, which stamps the id -1. -/
def minus_one : SchedulerState := after_call wrapped (Call.add 1 0 1 0 3 [])

/-- The state `minus_one` followed by `UNDO 1`. -/
def orphan : SchedulerState := after_call minus_one (Call.undo 1)

/-- The state after the valid calls `ADD 0 1 1`, `ADD 0 10 1`, `ADD 0 2 1`, `ADD 0 11 1`
and `ADD 0 12 1` on the initial state: doctor 0 holds five one-minute appointments with
the ids 1 to 5, and the id counter stands at 6. -/
def five_events : SchedulerState :=
  (add_event (add_event (add_event (add_event (add_event initial 0 1 1 0 3 []).state
    0 10 1 0 3 []).state 0 2 1 0 3 []).state 0 11 1 0 3 []).state 0 12 1 0 3 []).state

/-- The state `five_events` followed by 4294967289 rounds of `ADD 1 0 1` and `UNDO 1`
(the id counter goes from 6 through `INT_MAX` and `INT_MIN` to -1), by `ADD 2 0 1` (which
takes the id -1) and by 5 more rounds (ids 0 to 4): the id counter stands at 5 again. -/
def full_turn : SchedulerState :=
  spin 5 (after_call (spin 4294967289 five_events) (Call.add 2 0 1 0 3 []))

/-- The state `full_turn` followed by `ADD 0 3 1`: a sixth appointment of doctor 0, with
the id 5 that the appointment at minute 12 already carries. -/
def twin_ids : SchedulerState := after_call full_turn (Call.add 0 3 1 0 3 [])

/-- The state `twin_ids` followed by `UNDO 0`. -/
def broken_heap : SchedulerState := after_call twin_ids (Call.undo 0)


/-! ## Machine integers -/

theorem wrap32_of_range {x : Int} (h₁ : INT_MIN ≤ x) (h₂ : x ≤ INT_MAX) : wrap32 x = x := by
  unfold INT_MIN at h₁
  unfold INT_MAX at h₂
  unfold wrap32
  omega

/-! ## Interval tree -/

theorem it_insert_events_perm (t : ITNode) (e : Event) :
    (it_insert t e).events.Perm (e :: t.events) := by
  induction t with
  | null => simp [it_insert, create_it_node, ITNode.events]
  | node ev mx l r ihl ihr =>
    unfold it_insert
    split
    · simp only [ITNode.events]
      exact (ihl.append_right _).trans (by simp)
    · simp only [ITNode.events]
      have h₁ : (l.events ++ ev :: (it_insert r e).events).Perm
          (l.events ++ ev :: e :: r.events) :=
        List.Perm.append_left _ (List.Perm.cons _ ihr)
      have h₂ : (l.events ++ ev :: e :: r.events).Perm (e :: (l.events ++ ev :: r.events)) := by
        have := @List.perm_middle _ e (l.events ++ [ev]) r.events
        simpa [List.append_assoc] using this
      exact h₁.trans h₂

theorem it_insert_mem (t : ITNode) (e x : Event) :
    x ∈ (it_insert t e).events ↔ x = e ∨ x ∈ t.events := by
  rw [(it_insert_events_perm t e).mem_iff]; simp

theorem it_insert_WF (t : ITNode) (e : Event) (h : t.WF) : (it_insert t e).WF := by
  induction t with
  | null =>
    simp [it_insert, create_it_node, ITNode.WF, ITNode.events]
  | node ev mx l r ihl ihr =>
    obtain ⟨hl, hr, hle, ⟨w, hw, hwmax⟩, wl, wr⟩ := h
    have hmem : ∀ x, x ∈ (ITNode.node ev mx l r).events ↔ x ∈ l.events ∨ x = ev ∨ x ∈ r.events := by
      intro x; simp [ITNode.events]
    unfold it_insert
    split
    · rename_i hlt
      refine ⟨?_, hr, ?_, ?_, ihl wl, wr⟩
      · intro x hx
        rcases (it_insert_mem l e x).1 hx with rfl | hx
        · exact hlt
        · exact hl x hx
      · intro x hx
        have hx' : x = e ∨ x ∈ (ITNode.node ev mx l r).events := by
          simp only [ITNode.events, List.mem_append, List.mem_cons, it_insert_mem] at hx ⊢
          tauto
        rcases hx' with rfl | hx'
        · split <;> omega
        · have := hle x hx'
          split <;> omega
      · by_cases hm : mx < e.end_time
        · refine ⟨e, ?_, by simp [hm]⟩
          simp [ITNode.events, it_insert_mem]
        · refine ⟨w, ?_, by simp [hm, hwmax]⟩
          simp only [ITNode.events, List.mem_append, List.mem_cons, it_insert_mem] at hw ⊢
          tauto
    · rename_i hlt
      refine ⟨hl, ?_, ?_, ?_, wl, ihr wr⟩
      · intro x hx
        rcases (it_insert_mem r e x).1 hx with rfl | hx
        · omega
        · exact hr x hx
      · intro x hx
        have hx' : x = e ∨ x ∈ (ITNode.node ev mx l r).events := by
          simp only [ITNode.events, List.mem_append, List.mem_cons, it_insert_mem] at hx ⊢
          tauto
        rcases hx' with rfl | hx'
        · split <;> omega
        · have := hle x hx'
          split <;> omega
      · by_cases hm : mx < e.end_time
        · refine ⟨e, ?_, by simp [hm]⟩
          simp [ITNode.events, it_insert_mem]
        · refine ⟨w, ?_, by simp [hm, hwmax]⟩
          simp only [ITNode.events, List.mem_append, List.mem_cons, it_insert_mem] at hw ⊢
          tauto

theorem foldl_it_insert_WF (es : List Event) (t : ITNode) (h : t.WF) :
    (es.foldl it_insert t).WF := by
  induction es generalizing t with
  | nil => exact h
  | cons e es ih => exact ih _ (it_insert_WF t e h)

theorem foldl_it_insert_perm (es : List Event) (t : ITNode) :
    (es.foldl it_insert t).events.Perm (es ++ t.events) := by
  induction es generalizing t with
  | nil => simp
  | cons e es ih =>
    refine (ih (it_insert t e)).trans ?_
    refine (List.Perm.append_left es (it_insert_events_perm t e)).trans ?_
    simp

theorem mem_events_node (x ev : Event) (mx : Int) (l r : ITNode) :
    x ∈ (ITNode.node ev mx l r).events ↔ x ∈ l.events ∨ x = ev ∨ x ∈ r.events := by
  simp [ITNode.events]

/-- A node returned by `check_collision` is a real node whose event is stored in the
tree and overlaps the query. -/
theorem check_collision_some (t : ITNode) (start end_ : Int) (n : ITNode)
    (h : check_collision t start end_ = some n) :
    ∃ ev mx l r, n = ITNode.node ev mx l r ∧ ev ∈ t.events ∧ Overlaps ev start end_ := by
  induction t with
  | null => simp [check_collision] at h
  | node ev mx l r ihl ihr =>
    by_cases hov : ev.start_time < end_ ∧ ev.end_time > start
    · simp only [check_collision, hov, and_self, if_true] at h
      injection h with h
      exact ⟨ev, mx, l, r, h.symm, (mem_events_node _ _ _ _ _).2 (Or.inr (Or.inl rfl)), hov⟩
    · have hr : check_collision r start end_ = some n →
          ∃ ev' mx' l' r', n = ITNode.node ev' mx' l' r' ∧
            ev' ∈ (ITNode.node ev mx l r).events ∧ Overlaps ev' start end_ := by
        intro h'
        obtain ⟨a, b, c, d, h₁, h₂, h₃⟩ := ihr h'
        exact ⟨a, b, c, d, h₁, (mem_events_node _ _ _ _ _).2 (Or.inr (Or.inr h₂)), h₃⟩
      cases l with
      | null =>
        simp only [check_collision, hov, if_false] at h
        exact hr h
      | node lev lmax ll lr =>
        by_cases hgt : lmax > start
        · rw [check_collision] at h
          simp only [hov, if_false, hgt, if_true] at h
          obtain ⟨a, b, c, d, h₁, h₂, h₃⟩ := ihl h
          exact ⟨a, b, c, d, h₁, (mem_events_node _ _ _ _ _).2 (Or.inl h₂), h₃⟩
        · rw [check_collision] at h
          simp only [hov, if_false, hgt] at h
          exact hr h

/-- On a well-formed tree the single-path descent of `check_collision` misses nothing:
it returns `NULL` only when no stored event overlaps the query. -/
theorem check_collision_none (t : ITNode) (start end_ : Int) (hwf : t.WF)
    (h : check_collision t start end_ = none) :
    ∀ x ∈ t.events, ¬ Overlaps x start end_ := by
  induction t with
  | null => simp [ITNode.events]
  | node ev mx l r ihl ihr =>
    obtain ⟨hl, hr, hle, _, wl, wr⟩ := hwf
    by_cases hov : ev.start_time < end_ ∧ ev.end_time > start
    · simp [check_collision, hov] at h
    · have hroot : ¬ Overlaps ev start end_ := hov
      intro x hx
      rw [mem_events_node] at hx
      cases l with
      | null =>
        simp only [check_collision, hov, if_false] at h
        rcases hx with hx | rfl | hx
        · simp [ITNode.events] at hx
        · exact hroot
        · exact ihr wr h x hx
      | node lev lmax ll lr =>
        obtain ⟨_, _, hlle, ⟨w, hw, hwmax⟩, _, _⟩ := id wl
        by_cases hgt : lmax > start
        · rw [check_collision] at h
          simp only [hov, if_false, hgt, if_true] at h
          have hnl := ihl wl h
          rcases hx with hx | rfl | hx
          · exact hnl x hx
          · exact hroot
          · have hw' := hnl w hw
            have h1 := hl w hw
            have h2 := hr x hx
            unfold Overlaps at hw' ⊢
            omega
        · rw [check_collision] at h
          simp only [hov, if_false, hgt] at h
          rcases hx with hx | rfl | hx
          · have := hlle x hx
            unfold Overlaps
            omega
          · exact hroot
          · exact ihr wr h x hx


/-! ## Arrays as lists -/

theorem getD_set_eq (l : List Event) (i k : Nat) (a d : Event) :
    (l.set i a).getD k d = if k = i ∧ i < l.length then a else l.getD k d := by
  simp only [List.getD_eq_getElem?_getD, List.getElem?_set]
  by_cases h : i = k
  · subst h
    by_cases h' : i < l.length
    · simp [h']
    · simp [h', List.getElem?_eq_none (Nat.le_of_not_lt h')]
  · have : ¬ k = i := fun h' => h h'.symm
    simp [h, this]

theorem getD_take_eq (l : List Event) (n k : Nat) (d : Event) :
    (l.take n).getD k d = if k < n then l.getD k d else d := by
  simp only [List.getD_eq_getElem?_getD, List.getElem?_take]
  split <;> simp

theorem getD_append_eq (l₁ l₂ : List Event) (k : Nat) (d : Event) :
    (l₁ ++ l₂).getD k d = if k < l₁.length then l₁.getD k d else l₂.getD (k - l₁.length) d := by
  simp only [List.getD_eq_getElem?_getD]
  split
  · rename_i h; rw [List.getElem?_append_left h]
  · rename_i h; rw [List.getElem?_append_right (Nat.le_of_not_lt h)]

theorem getD_mem (l : List Event) (k : Nat) (d : Event) (h : k < l.length) :
    l.getD k d ∈ l := by
  rw [List.getD_eq_getElem _ _ h]; exact List.getElem_mem _

theorem ext_getD (l₁ l₂ : List Event) (d : Event) (hlen : l₁.length = l₂.length)
    (h : ∀ k, k < l₁.length → l₁.getD k d = l₂.getD k d) : l₁ = l₂ := by
  apply List.ext_getElem hlen
  intro k h₁ h₂
  have := h k h₁
  rwa [List.getD_eq_getElem _ _ h₁, List.getD_eq_getElem _ _ h₂] at this

theorem set_perm (l : List Event) (i : Nat) (a d : Event) (h : i < l.length) :
    (l.getD i d :: l.set i a).Perm (a :: l) := by
  induction l generalizing i with
  | nil => simp at h
  | cons x xs ih =>
    cases i with
    | zero => simpa using List.Perm.swap a x xs
    | succ i =>
      have h' : i < xs.length := by simpa using h
      have := ih i h'
      simp only [List.set_cons_succ, List.getD_cons_succ]
      exact (List.Perm.swap x (xs.getD i d) (xs.set i a)).trans
        ((List.Perm.cons x this).trans (List.Perm.swap a x xs))

theorem swap_length (h : List Event) (i j : Nat) : (swap h i j).length = h.length := by
  simp [swap]

theorem swap_getD (h : List Event) (i j k : Nat) (hi : i < h.length) (hj : j < h.length) :
    (swap h i j).getD k default =
      if k = j then h.getD i default else if k = i then h.getD j default
      else h.getD k default := by
  unfold swap
  rw [getD_set_eq, getD_set_eq]
  simp only [List.length_set, hi, hj, and_true]

theorem start_at_swap (h : List Event) (i j k : Nat) (hi : i < h.length) (hj : j < h.length) :
    start_at (swap h i j) k =
      if k = j then start_at h i else if k = i then start_at h j else start_at h k := by
  unfold start_at
  rw [swap_getD h i j k hi hj]
  split
  · rfl
  · split <;> rfl

theorem swap_perm (h : List Event) (i j : Nat) (hi : i < h.length) (hj : j < h.length) :
    (swap h i j).Perm h := by
  unfold swap
  have h₁ := set_perm h i (h.getD j default) default hi
  have hj' : j < (h.set i (h.getD j default)).length := by simpa using hj
  have h₂ := set_perm (h.set i (h.getD j default)) j (h.getD i default) default hj'
  have h₃ : (h.set i (h.getD j default)).getD j default = h.getD j default := by
    rw [getD_set_eq]; split <;> simp_all
  rw [h₃] at h₂
  exact List.Perm.cons_inv (h₂.trans (h₁.trans (List.Perm.refl _)))

/-! ## Min-heap: sizes and contents -/

theorem heap_ify_fuel_succ (fuel : Nat) (h : List Event) (idx : Nat) :
    heap_ify_fuel (fuel + 1) h idx =
      if smallest_of h idx ≠ idx then
        heap_ify_fuel fuel (swap h (smallest_of h idx) idx) (smallest_of h idx)
      else h := rfl

theorem smallest_of_cases (h : List Event) (idx : Nat) :
    smallest_of h idx = idx ∨
      (smallest_of h idx = 2 * idx + 1 ∧ 2 * idx + 1 < h.length) ∨
      (smallest_of h idx = 2 * idx + 2 ∧ 2 * idx + 2 < h.length) := by
  unfold smallest_of
  simp only []
  by_cases h₁ : 2 * idx + 1 < h.length ∧ start_at h (2 * idx + 1) < start_at h idx
  · rw [if_pos h₁]
    by_cases h₂ : 2 * idx + 2 < h.length ∧ start_at h (2 * idx + 2) < start_at h (2 * idx + 1)
    · rw [if_pos h₂]; exact Or.inr (Or.inr ⟨rfl, h₂.1⟩)
    · rw [if_neg h₂]; exact Or.inr (Or.inl ⟨rfl, h₁.1⟩)
  · rw [if_neg h₁]
    by_cases h₂ : 2 * idx + 2 < h.length ∧ start_at h (2 * idx + 2) < start_at h idx
    · rw [if_pos h₂]; exact Or.inr (Or.inr ⟨rfl, h₂.1⟩)
    · rw [if_neg h₂]; exact Or.inl rfl

theorem smallest_of_lt (h : List Event) (idx : Nat) (hne : smallest_of h idx ≠ idx) :
    idx < smallest_of h idx ∧ smallest_of h idx < h.length := by
  rcases smallest_of_cases h idx with h₁ | ⟨h₁, h₂⟩ | ⟨h₁, h₂⟩
  · exact absurd h₁ hne
  · omega
  · omega

theorem heap_ify_fuel_length (fuel : Nat) (h : List Event) (idx : Nat) :
    (heap_ify_fuel fuel h idx).length = h.length := by
  induction fuel generalizing h idx with
  | zero => rfl
  | succ fuel ih =>
    rw [heap_ify_fuel_succ]
    split
    · rw [ih, swap_length]
    · rfl

theorem heap_ify_fuel_perm (fuel : Nat) (h : List Event) (idx : Nat) :
    (heap_ify_fuel fuel h idx).Perm h := by
  induction fuel generalizing h idx with
  | zero => exact List.Perm.refl _
  | succ fuel ih =>
    rw [heap_ify_fuel_succ]
    split
    · rename_i hne
      have := smallest_of_lt h idx hne
      exact (ih _ _).trans (swap_perm _ _ _ this.2 (by omega))
    · exact List.Perm.refl _

theorem heap_insert_loop_length (fuel : Nat) (h : List Event) (i : Nat) :
    (heap_insert_loop fuel h i).length = h.length := by
  induction fuel generalizing h i with
  | zero => rfl
  | succ fuel ih =>
    simp only [heap_insert_loop]
    split
    · rw [ih, swap_length]
    · rfl

theorem heap_insert_loop_perm (fuel : Nat) (h : List Event) (i : Nat) (hi : i < h.length) :
    (heap_insert_loop fuel h i).Perm h := by
  induction fuel generalizing h i with
  | zero => exact List.Perm.refl _
  | succ fuel ih =>
    simp only [heap_insert_loop]
    split
    · have hp : (i - 1) / 2 < h.length := by omega
      exact (ih _ _ (by rw [swap_length]; exact hp)).trans (swap_perm _ _ _ hi hp)
    · exact List.Perm.refl _

theorem heap_insert_perm (h : List Event) (e : Event) (hlen : h.length < MAX_EVENTS_TOTAL) :
    (heap_insert h e).Perm (e :: h) := by
  unfold heap_insert
  rw [if_neg (by omega)]
  refine (heap_insert_loop_perm _ _ _ (by simp)).trans ?_
  exact (List.perm_append_comm : (h ++ [e]).Perm ([e] ++ h))

theorem heap_insert_length (h : List Event) (e : Event) (hlen : h.length < MAX_EVENTS_TOTAL) :
    (heap_insert h e).length = h.length + 1 :=
  (heap_insert_perm h e hlen).length_eq

/-- When `heap_remove` finds the id, the heap afterwards is the heap before without the
first event carrying that id. -/
theorem heap_remove_perm (h : List Event) (event_id : Int)
    (hfound : h.findIdx (fun e => decide (e.id = event_id)) < h.length) :
    (h.getD (h.findIdx (fun e => decide (e.id = event_id))) default ::
      heap_remove h event_id).Perm h := by
  unfold heap_remove
  simp only []
  rw [if_neg (by omega)]
  generalize h.findIdx (fun e => decide (e.id = event_id)) = i at hfound
  unfold heap_ify
  refine (List.Perm.cons _ (heap_ify_fuel_perm _ _ _)).trans ?_
  obtain ⟨h₀, last, rfl⟩ : ∃ h₀ last, h = h₀ ++ [last] := by
    rcases List.eq_nil_or_concat h with hnil | ⟨L, b, hL⟩
    · subst hnil; simp at hfound
    · exact ⟨L, b, by simpa using hL⟩
  have hlast : (h₀ ++ [last]).getD ((h₀ ++ [last]).length - 1) default = last := by
    rw [getD_append_eq]; simp
  rw [hlast]
  simp only [List.length_append, List.length_singleton, Nat.add_sub_cancel] at hfound ⊢
  by_cases hi : i < h₀.length
  · have h1 : (h₀ ++ [last]).set i last = h₀.set i last ++ [last] := by
      rw [List.set_append_left _ _ hi]
    have h2 : (h₀ ++ [last]).getD i default = h₀.getD i default := by
      rw [getD_append_eq, if_pos hi]
    rw [h1, h2]
    have h3 : List.take h₀.length (h₀.set i last ++ [last]) = h₀.set i last := by
      rw [List.take_append_eq_append_take]; simp
    rw [h3]
    exact (set_perm h₀ i last default hi).trans
      (List.perm_append_comm : ([last] ++ h₀).Perm (h₀ ++ [last]))
  · have hi' : i = h₀.length := by omega
    subst hi'
    have h1 : (h₀ ++ [last]).set h₀.length last = h₀ ++ [last] := by
      apply ext_getD _ _ default (by simp)
      intro k hk
      rw [getD_set_eq]
      split
      · rename_i hc; rw [hc.1, getD_append_eq]; simp
      · rfl
    have h2 : (h₀ ++ [last]).getD h₀.length default = last := by
      rw [getD_append_eq]; simp
    rw [h1, h2]
    simp only [List.take_left']
    exact (List.perm_append_comm : ([last] ++ h₀).Perm (h₀ ++ [last]))

theorem heap_remove_not_found (h : List Event) (event_id : Int)
    (hnot : h.findIdx (fun e => decide (e.id = event_id)) = h.length) :
    heap_remove h event_id = h := by
  unfold heap_remove
  simp only []
  rw [if_pos hnot]


/-! ## Min-heap: the recursion of `heap_ify` and the loop of `heap_insert` terminate -/

theorem smallest_of_eq_self_of_length_le (h : List Event) (idx : Nat)
    (hlen : h.length ≤ 2 * idx + 1) : smallest_of h idx = idx := by
  rcases smallest_of_cases h idx with h₁ | ⟨_, h₂⟩ | ⟨_, h₂⟩
  · exact h₁
  · omega
  · omega

/-- The result of `heap_ify` does not depend on the recursion bound once the bound
covers the positions below `idx`. -/
theorem heap_ify_fuel_eq (f₁ f₂ : Nat) (h : List Event) (idx : Nat)
    (h₁ : h.length - idx ≤ f₁) (h₂ : h.length - idx ≤ f₂) :
    heap_ify_fuel f₁ h idx = heap_ify_fuel f₂ h idx := by
  induction f₁ generalizing f₂ h idx with
  | zero =>
    cases f₂ with
    | zero => rfl
    | succ f₂ =>
      rw [heap_ify_fuel_succ, smallest_of_eq_self_of_length_le h idx (by omega)]
      simp [heap_ify_fuel]
  | succ f₁ ih =>
    cases f₂ with
    | zero =>
      rw [heap_ify_fuel_succ, smallest_of_eq_self_of_length_le h idx (by omega)]
      simp [heap_ify_fuel]
    | succ f₂ =>
      rw [heap_ify_fuel_succ, heap_ify_fuel_succ]
      split
      · rename_i hne
        have := smallest_of_lt h idx hne
        apply ih
        · rw [swap_length]; omega
        · rw [swap_length]; omega
      · rfl

/-- The recursion of the source's `heap_ify`: the bound in `heap_ify_fuel` is never
exhausted. -/
theorem heap_ify_unfold (h : List Event) (idx : Nat) :
    heap_ify h idx =
      if smallest_of h idx ≠ idx then
        heap_ify (swap h (smallest_of h idx) idx) (smallest_of h idx)
      else h := by
  unfold heap_ify
  cases hl : h.length with
  | zero =>
    rw [smallest_of_eq_self_of_length_le h idx (by omega)]
    simp [heap_ify_fuel]
  | succ m =>
    rw [heap_ify_fuel_succ]
    split
    · rename_i hne
      have := smallest_of_lt h idx hne
      apply heap_ify_fuel_eq
      · rw [swap_length]; omega
      · rw [swap_length]; omega
    · rfl

/-- The result of the loop of `heap_insert` does not depend on the iteration bound once
the bound exceeds the loop index. -/
theorem heap_insert_loop_eq (f₁ f₂ : Nat) (h : List Event) (i : Nat)
    (h₁ : i < f₁) (h₂ : i < f₂) :
    heap_insert_loop f₁ h i = heap_insert_loop f₂ h i := by
  induction f₁ generalizing f₂ h i with
  | zero => omega
  | succ f₁ ih =>
    cases f₂ with
    | zero => omega
    | succ f₂ =>
      simp only [heap_insert_loop]
      split
      · rename_i hc
        exact ih f₂ _ _ (by omega) (by omega)
      · rfl

/-- The loop of the source's `heap_insert`: the bound in `heap_insert_loop` is never
exhausted. -/
theorem heap_insert_loop_unfold (fuel : Nat) (h : List Event) (i : Nat) (hf : i < fuel) :
    heap_insert_loop fuel h i =
      if i ≠ 0 ∧ start_at h ((i - 1) / 2) > start_at h i then
        heap_insert_loop fuel (swap h i ((i - 1) / 2)) ((i - 1) / 2)
      else h := by
  cases fuel with
  | zero => omega
  | succ f =>
    simp only [heap_insert_loop]
    split
    · rename_i hc
      have := hc.1
      exact heap_insert_loop_eq f (f + 1) _ _ (by omega) (by omega)
    · rfl

/-! ## Min-heap: `heap_insert` keeps the heap property -/

theorem smallest_of_eq_self (h : List Event) (idx : Nat)
    (hl : 2 * idx + 1 < h.length → start_at h idx ≤ start_at h (2 * idx + 1))
    (hr : 2 * idx + 2 < h.length → start_at h idx ≤ start_at h (2 * idx + 2)) :
    smallest_of h idx = idx := by
  have h₁ : ¬ (2 * idx + 1 < h.length ∧ start_at h (2 * idx + 1) < start_at h idx) := by
    rintro ⟨ha, hb⟩
    have := hl ha
    omega
  have h₂ : ¬ (2 * idx + 2 < h.length ∧ start_at h (2 * idx + 2) < start_at h idx) := by
    rintro ⟨ha, hb⟩
    have := hr ha
    omega
  simp only [smallest_of, h₁, h₂, if_false]

theorem smallest_of_eq_left (h : List Event) (idx : Nat) (hlen : 2 * idx + 1 < h.length)
    (hl : start_at h (2 * idx + 1) < start_at h idx)
    (hr : 2 * idx + 2 < h.length → start_at h (2 * idx + 1) ≤ start_at h (2 * idx + 2)) :
    smallest_of h idx = 2 * idx + 1 := by
  have h₁ : 2 * idx + 1 < h.length ∧ start_at h (2 * idx + 1) < start_at h idx := ⟨hlen, hl⟩
  have h₂ : ¬ (2 * idx + 2 < h.length ∧
      start_at h (2 * idx + 2) < start_at h (2 * idx + 1)) := by
    rintro ⟨ha, hb⟩
    have := hr ha
    omega
  simp only [smallest_of, h₁, h₂, if_false, and_self, if_true]

theorem smallest_of_eq_right (h : List Event) (idx : Nat) (hlen : 2 * idx + 2 < h.length)
    (hr : start_at h (2 * idx + 2) < start_at h idx)
    (hl : start_at h (2 * idx + 2) < start_at h (2 * idx + 1)) :
    smallest_of h idx = 2 * idx + 2 := by
  have h₂ : 2 * idx + 2 < h.length ∧ start_at h (2 * idx + 2) < start_at h idx := ⟨hlen, hr⟩
  have h₃ : 2 * idx + 2 < h.length ∧ start_at h (2 * idx + 2) < start_at h (2 * idx + 1) :=
    ⟨hlen, hl⟩
  by_cases h₁ : 2 * idx + 1 < h.length ∧ start_at h (2 * idx + 1) < start_at h idx
  · simp only [smallest_of, h₁, h₃, and_self, if_true]
  · simp only [smallest_of, h₁, h₂, if_false, and_self, if_true]

theorem heap_ify_of_heapOrdered (h : List Event) (idx : Nat) (ho : HeapOrdered h) :
    heap_ify h idx = h := by
  rw [heap_ify_unfold, smallest_of_eq_self]
  · simp
  · intro hl
    have := ho (2 * idx + 1) (by omega) hl
    have e : (2 * idx + 1 - 1) / 2 = idx := by omega
    rwa [e] at this
  · intro hr
    have := ho (2 * idx + 2) (by omega) hr
    have e : (2 * idx + 2 - 1) / 2 = idx := by omega
    rwa [e] at this

theorem almostHeap_swap (h : List Event) (i : Nat) (hi : i < h.length) (hi₀ : i ≠ 0)
    (hgt : start_at h ((i - 1) / 2) > start_at h i) (ha : AlmostHeap h i) :
    AlmostHeap (swap h i ((i - 1) / 2)) ((i - 1) / 2) := by
  have hp : (i - 1) / 2 < h.length := by omega
  have hpi : (i - 1) / 2 < i := by omega
  obtain ⟨ha₁, ha₂⟩ := ha
  constructor
  · intro k hk₀ hk hkp
    rw [swap_length] at hk
    rw [start_at_swap h i _ _ hi hp, start_at_swap h i _ _ hi hp]
    by_cases hki : k = i
    · subst hki
      simp only [if_true, if_neg hkp]
      omega
    · simp only [if_neg hkp, if_neg hki]
      by_cases hq : (k - 1) / 2 = (i - 1) / 2
      · rw [if_pos hq]
        have := ha₁ k hk₀ hk hki
        rw [hq] at this
        omega
      · rw [if_neg hq]
        by_cases hq' : (k - 1) / 2 = i
        · rw [if_pos hq']
          exact ha₂ k hk₀ hk hq' (by omega)
        · rw [if_neg hq']
          exact ha₁ k hk₀ hk hki
  · intro k hk₀ hk hkp hp₀
    rw [swap_length] at hk
    rw [start_at_swap h i _ _ hi hp, start_at_swap h i _ _ hi hp]
    have e₁ : ¬ ((i - 1) / 2 - 1) / 2 = (i - 1) / 2 := by omega
    have e₂ : ¬ ((i - 1) / 2 - 1) / 2 = i := by omega
    have e₃ : ¬ k = (i - 1) / 2 := by omega
    rw [if_neg e₁, if_neg e₂, if_neg e₃]
    have hpar := ha₁ ((i - 1) / 2) hp₀ hp (by omega)
    by_cases hki : k = i
    · rw [if_pos hki]; exact hpar
    · rw [if_neg hki]
      have := ha₁ k hk₀ hk hki
      rw [hkp] at this
      omega

theorem heap_insert_loop_heapOrdered (fuel : Nat) (h : List Event) (i : Nat)
    (hi : i < h.length) (hf : i < fuel) (ha : AlmostHeap h i) :
    HeapOrdered (heap_insert_loop fuel h i) := by
  induction fuel generalizing h i with
  | zero => omega
  | succ fuel ih =>
    simp only [heap_insert_loop]
    split
    · rename_i hc
      apply ih
      · rw [swap_length]; omega
      · omega
      · exact almostHeap_swap h i hi hc.1 hc.2 ha
    · rename_i hc
      intro k hk₀ hk
      by_cases hki : k = i
      · subst hki
        by_contra hcon
        exact hc ⟨by omega, by omega⟩
      · exact ha.1 k hk₀ hk hki

theorem start_at_append_left (a : List Event) (e : Event) (k : Nat) (hk : k < a.length) :
    start_at (a ++ [e]) k = start_at a k := by
  unfold start_at
  rw [getD_append_eq, if_pos hk]

/-- The source's `heap_insert` keeps the min-heap property. -/
theorem heap_insert_heapOrdered (a : List Event) (e : Event) (ho : HeapOrdered a) :
    HeapOrdered (heap_insert a e) := by
  unfold heap_insert
  split
  · exact ho
  · apply heap_insert_loop_heapOrdered
    · simp
    · omega
    · constructor
      · intro k hk₀ hk hkn
        simp only [List.length_append, List.length_singleton] at hk
        have hk' : k < a.length := by omega
        rw [start_at_append_left a e k hk', start_at_append_left a e _ (by omega)]
        exact ho k hk₀ hk'
      · intro k hk₀ hk hkp hn
        simp only [List.length_append, List.length_singleton] at hk
        omega


/-! ## Min-heap: removing the event just inserted restores the array -/

theorem hole_length (b : List Event) (i n : Nat) (hb : b.length = n + 1) :
    (hole b i n).length = n := by
  simp [hole, hb]

theorem hole_getD (b : List Event) (i n k : Nat) (hb : b.length = n + 1) (_hi : i ≤ n)
    (hk : k < n) :
    (hole b i n).getD k default =
      if k = i then b.getD n default else b.getD k default := by
  unfold hole
  rw [getD_take_eq, if_pos hk, getD_set_eq]
  by_cases hki : k = i
  · rw [if_pos ⟨hki, by omega⟩, if_pos hki]
  · rw [if_neg (fun h => hki h.1), if_neg hki]

theorem roundTrip_init (a : List Event) (e : Event) (ho : HeapOrdered a)
    (hid : ∀ x ∈ a, x.id ≠ e.id) : RoundTrip a e (a ++ [e]) a.length := by
  have hget : ∀ k, k < a.length → (a ++ [e]).getD k default = a.getD k default := by
    intro k hk
    rw [getD_append_eq, if_pos hk]
  have hlast : (a ++ [e]).getD a.length default = e := by
    rw [getD_append_eq]; simp
  refine ⟨by simp, le_refl _, hlast, ?_, ?_, fun k hk _ => hget k hk, fun h => absurd h (lt_irrefl _)⟩
  · intro k hk hne
    have hk' : k < a.length := by omega
    rw [hget k hk']
    exact hid _ (getD_mem a k default hk')
  · have : hole (a ++ [e]) a.length a.length = a := by
      apply ext_getD _ _ default (hole_length _ _ _ (by simp))
      intro k hk
      rw [hole_length _ _ _ (by simp)] at hk
      rw [hole_getD _ _ _ _ (by simp) (le_refl _) hk, if_neg (by omega), hget k hk]
    rw [this]
    exact heap_ify_of_heapOrdered a _ ho

theorem roundTrip_step (a : List Event) (e : Event) (b : List Event) (i : Nat)
    (ho : HeapOrdered a) (hds : DistinctStarts a) (hrt : RoundTrip a e b i) (hi₀ : i ≠ 0)
    (_hgt : start_at b ((i - 1) / 2) > start_at b i) :
    RoundTrip a e (swap b i ((i - 1) / 2)) ((i - 1) / 2) := by
  obtain ⟨hlen, hin, hbi, hids, hify, hlow, hrest⟩ := hrt
  have hpi : (i - 1) / 2 < i := by omega
  have hib : i < b.length := by omega
  have hpb : (i - 1) / 2 < b.length := by omega
  have hlen' : (swap b i ((i - 1) / 2)).length = a.length + 1 := by rw [swap_length, hlen]
  have hsw : ∀ k, (swap b i ((i - 1) / 2)).getD k default =
      if k = (i - 1) / 2 then b.getD i default
      else if k = i then b.getD ((i - 1) / 2) default else b.getD k default :=
    fun k => swap_getD b i _ k hib hpb
  have hbp : b.getD ((i - 1) / 2) default = a.getD ((i - 1) / 2) default :=
    hlow _ hpi (by omega)
  refine ⟨hlen', by omega, ?_, ?_, ?_, ?_, ?_⟩
  · rw [hsw, if_pos rfl, hbi]
  · intro k hk hkp
    rw [hsw, if_neg hkp]
    by_cases hki : k = i
    · rw [if_pos hki]
      exact hids _ (by omega) (by omega)
    · rw [if_neg hki]
      exact hids k hk hki
  · by_cases hn : i = a.length
    · -- first iteration: the hole is filled with the parent itself
      have : hole (swap b i ((i - 1) / 2)) ((i - 1) / 2) a.length = a := by
        apply ext_getD _ _ default (hole_length _ _ _ hlen')
        intro k hk
        rw [hole_length _ _ _ hlen'] at hk
        rw [hole_getD _ _ _ _ hlen' (by omega) hk]
        by_cases hkp : k = (i - 1) / 2
        · rw [if_pos hkp, hsw, if_neg (by omega), if_pos hn.symm, hbp, hkp]
        · rw [if_neg hkp, hsw, if_neg hkp, if_neg (by omega)]
          exact hlow k (by omega) hk
      rw [this]
      exact heap_ify_of_heapOrdered a _ ho
    · have hia : i < a.length := by omega
      obtain ⟨hsib, hpar⟩ := hrest hia
      have hc'len := hole_length (swap b i ((i - 1) / 2)) ((i - 1) / 2) a.length hlen'
      have hc' : ∀ k, k < a.length →
          (hole (swap b i ((i - 1) / 2)) ((i - 1) / 2) a.length).getD k default =
            if k = (i - 1) / 2 then b.getD a.length default
            else if k = i then a.getD ((i - 1) / 2) default else b.getD k default := by
        intro k hk
        rw [hole_getD _ _ _ _ hlen' (by omega) hk]
        by_cases hkp : k = (i - 1) / 2
        · rw [if_pos hkp, if_pos hkp, hsw, if_neg (by omega), if_neg (by omega)]
        · rw [if_neg hkp, if_neg hkp, hsw, if_neg hkp, hbp]
      have hs' : ∀ k, k < a.length →
          start_at (hole (swap b i ((i - 1) / 2)) ((i - 1) / 2) a.length) k =
            if k = (i - 1) / 2 then start_at b a.length
            else if k = i then start_at a ((i - 1) / 2) else start_at b k := by
        intro k hk
        unfold start_at
        rw [hc' k hk]
        split
        · rfl
        · split <;> rfl
      have hswap : swap (hole (swap b i ((i - 1) / 2)) ((i - 1) / 2) a.length) i ((i - 1) / 2) =
          hole b i a.length := by
        apply ext_getD _ _ default
        · rw [swap_length, hc'len, hole_length _ _ _ hlen]
        · intro k hk
          rw [swap_length, hc'len] at hk
          rw [swap_getD _ _ _ _ (by omega) (by omega), hole_getD _ _ _ _ hlen hin hk]
          by_cases hkp : k = (i - 1) / 2
          · rw [if_pos hkp, if_neg (by omega), hc' i hia, if_neg (by omega), if_pos rfl, hkp,
              hbp]
          · rw [if_neg hkp]
            by_cases hki : k = i
            · rw [if_pos hki, if_pos hki, hc' _ (by omega), if_pos rfl]
            · rw [if_neg hki, if_neg hki, hc' k hk, if_neg hkp, if_neg hki]
      have hpar' := hpar (by omega)
      have hsmall : smallest_of (hole (swap b i ((i - 1) / 2)) ((i - 1) / 2) a.length)
          ((i - 1) / 2) = i := by
        rcases Nat.even_or_odd i with hev | hodd
        · -- `i` is the right child of its parent
          have hi2 : i = 2 * ((i - 1) / 2) + 2 := by
            obtain ⟨m, hm⟩ := hev
            omega
          have hleft : b.getD (i - 1) default = a.getD (i - 1) default :=
            hlow (i - 1) (by omega) (by omega)
          have h₁ := ho (i - 1) (by omega) (by omega)
          have h₂ := hds ((i - 1) / 2) (i - 1) (by omega) (by omega) (by omega)
          have e₁ : (i - 1 - 1) / 2 = (i - 1) / 2 := by omega
          rw [e₁] at h₁
          have hr := smallest_of_eq_right
            (hole (swap b i ((i - 1) / 2)) ((i - 1) / 2) a.length) ((i - 1) / 2)
            (by rw [hc'len]; omega)
            (by
              rw [← hi2, hs' i hia, hs' _ (by omega), if_neg (by omega), if_pos rfl, if_pos rfl]
              exact hpar')
            (by
              rw [← hi2, hs' i hia, if_neg (by omega), if_pos rfl]
              have e₂ : 2 * ((i - 1) / 2) + 1 = i - 1 := by omega
              rw [e₂, hs' _ (by omega), if_neg (by omega), if_neg (by omega)]
              have : start_at b (i - 1) = start_at a (i - 1) := by
                unfold start_at; rw [hleft]
              rw [this]
              omega)
          rw [hr, ← hi2]
        · -- `i` is the left child of its parent
          have hi2 : i = 2 * ((i - 1) / 2) + 1 := by
            obtain ⟨m, hm⟩ := hodd
            omega
          have hl := smallest_of_eq_left
            (hole (swap b i ((i - 1) / 2)) ((i - 1) / 2) a.length) ((i - 1) / 2)
            (by rw [hc'len]; omega)
            (by
              rw [← hi2, hs' i hia, hs' _ (by omega), if_neg (by omega), if_pos rfl, if_pos rfl]
              exact hpar')
            (by
              intro hlt
              rw [hc'len] at hlt
              have e₂ : 2 * ((i - 1) / 2) + 2 = i + 1 := by omega
              rw [← hi2, hs' i hia, if_neg (by omega), if_pos rfl, e₂,
                hs' _ (by omega), if_neg (by omega), if_neg (by omega)]
              have : start_at b (i + 1) = start_at a (i + 1) := by
                unfold start_at; rw [hsib (by omega) (by omega)]
              rw [this]
              have h₁ := ho (i + 1) (by omega) (by omega)
              have e₁ : (i + 1 - 1) / 2 = (i - 1) / 2 := by omega
              rw [e₁] at h₁
              exact h₁)
          rw [hl, ← hi2]
      rw [heap_ify_unfold, hsmall, if_pos (by omega), hswap]
      exact hify
  · intro k hk hka
    rw [hsw, if_neg (by omega), if_neg (by omega)]
    exact hlow k (by omega) hka
  · intro hpa
    constructor
    · intro hp₀ hp₁
      rw [hsw, if_neg (by omega), if_neg (by omega)]
      exact hlow _ (by omega) hp₁
    · intro hp₀
      have h₁ := ho ((i - 1) / 2) hp₀ hpa
      by_cases hn : i = a.length
      · have : start_at (swap b i ((i - 1) / 2)) a.length = start_at a ((i - 1) / 2) := by
          unfold start_at
          rw [hsw, if_neg (by omega), if_pos hn.symm, hbp]
        rw [this]
        have h₂ := hds (((i - 1) / 2 - 1) / 2) ((i - 1) / 2) (by omega) hpa (by omega)
        omega
      · have hia : i < a.length := by omega
        have : start_at (swap b i ((i - 1) / 2)) a.length = start_at b a.length := by
          unfold start_at
          rw [hsw, if_neg (by omega), if_neg (by omega)]
        rw [this]
        have := (hrest hia).2 (by omega)
        omega

theorem roundTrip_loop (a : List Event) (e : Event) (ho : HeapOrdered a)
    (hds : DistinctStarts a) (fuel : Nat) (b : List Event) (i : Nat)
    (hrt : RoundTrip a e b i) (hf : i < fuel) :
    ∃ i', RoundTrip a e (heap_insert_loop fuel b i) i' := by
  induction fuel generalizing b i with
  | zero => omega
  | succ fuel ih =>
    simp only [heap_insert_loop]
    split
    · rename_i hc
      exact ih _ _ (roundTrip_step a e b i ho hds hrt hc.1 hc.2) (by omega)
    · exact ⟨i, hrt⟩

theorem heap_remove_of_roundTrip (a : List Event) (e : Event) (b : List Event) (i : Nat)
    (hrt : RoundTrip a e b i) : heap_remove b e.id = a := by
  obtain ⟨hlen, hin, hbi, hids, hify, _, _⟩ := hrt
  have hib : i < b.length := by omega
  have hfind : b.findIdx (fun x => decide (x.id = e.id)) = i := by
    rw [List.findIdx_eq hib]
    constructor
    · rw [← List.getD_eq_getElem b default hib, hbi]
      simp
    · intro j hj
      have := hids j (by omega) (by omega)
      rw [List.getD_eq_getElem b default (by omega)] at this
      simpa using this
  unfold heap_remove
  simp only []
  rw [hfind, if_neg (by omega)]
  have : b.length - 1 = a.length := by omega
  rw [this]
  exact hify

/-- Undo-add on the heap array: when the heap satisfies the min-heap property, its start
times are pairwise distinct and no event carries the id of `e`, inserting `e` and at once
removing it by id gives back the same array. -/
theorem heap_remove_heap_insert (a : List Event) (e : Event) (ho : HeapOrdered a)
    (hds : DistinctStarts a) (hid : ∀ x ∈ a, x.id ≠ e.id)
    (hlen : a.length < MAX_EVENTS_TOTAL) :
    heap_remove (heap_insert a e) e.id = a := by
  unfold heap_insert
  rw [if_neg (by omega)]
  obtain ⟨i', hrt⟩ := roundTrip_loop a e ho hds (a.length + 1) (a ++ [e]) a.length
    (roundTrip_init a e ho hid) (by omega)
  exact heap_remove_of_roundTrip a e _ i' hrt

theorem distinctStarts_of_nonOverlap (a : List Event) (hpw : a.Pairwise NonOverlap)
    (hpos : ∀ x ∈ a, x.start_time < x.end_time) : DistinctStarts a := by
  intro i j hi hj hij
  rw [List.pairwise_iff_getElem] at hpw
  unfold start_at
  rw [List.getD_eq_getElem a default hi, List.getD_eq_getElem a default hj]
  have h₁ := hpos a[i] (List.getElem_mem _)
  have h₂ := hpos a[j] (List.getElem_mem _)
  rcases Nat.lt_or_gt_of_ne hij with hlt | hgt
  · have := hpw i j hi hj hlt
    unfold NonOverlap at this
    omega
  · have := hpw j i hj hi hgt
    unfold NonOverlap at this
    omega


/-! ## Case analysis of `add_event` and `undo_last` -/

theorem add_event_cases (s : SchedulerState) (d start duration type break_type : Int)
    (desc : List Char) :
    ((s.upcoming_heaps d).length ≥ MAX_EVENTS_TOTAL ∧
      add_event s d start duration type break_type desc = ⟨2, none, none, s⟩) ∨
    ((s.upcoming_heaps d).length < MAX_EVENTS_TOTAL ∧
      count_events_on_day s d (day_start_of start) (day_end_of start) ≥ MAX_EVENTS_DAILY_LIMIT ∧
      add_event s d start duration type break_type desc = ⟨2, none, none, s⟩) ∨
    ((s.upcoming_heaps d).length < MAX_EVENTS_TOTAL ∧
      count_events_on_day s d (day_start_of start) (day_end_of start) < MAX_EVENTS_DAILY_LIMIT ∧
      ∃ ev mx l r, check_collision (s.interval_trees d) start (wrap32 (start + duration)) =
          some (ITNode.node ev mx l r) ∧
        add_event s d start duration type break_type desc =
          ⟨1, some ev.start_time, some ev.end_time, s⟩) ∨
    ((s.upcoming_heaps d).length < MAX_EVENTS_TOTAL ∧
      count_events_on_day s d (day_start_of start) (day_end_of start) < MAX_EVENTS_DAILY_LIMIT ∧
      check_collision (s.interval_trees d) start (wrap32 (start + duration)) = none ∧
      add_event s d start duration type break_type desc =
        ⟨0, none, none, added s d (new_event s d start duration type break_type desc)⟩) := by
  by_cases h₁ : (s.upcoming_heaps d).length ≥ MAX_EVENTS_TOTAL
  · left
    exact ⟨h₁, by simp [add_event, h₁]⟩
  · right
    have h₁' : (s.upcoming_heaps d).length < MAX_EVENTS_TOTAL := by omega
    by_cases h₂ : count_events_on_day s d (day_start_of start) (day_end_of start) ≥
        MAX_EVENTS_DAILY_LIMIT
    · left
      refine ⟨h₁', h₂, ?_⟩
      unfold day_end_of day_start_of at h₂
      simp [add_event, h₁, h₂]
    · right
      have h₂' : count_events_on_day s d (day_start_of start) (day_end_of start) <
          MAX_EVENTS_DAILY_LIMIT := by omega
      unfold day_end_of day_start_of at h₂
      cases hc : check_collision (s.interval_trees d) start (wrap32 (start + duration)) with
      | none =>
        right
        refine ⟨h₁', h₂', rfl, ?_⟩
        simp only [add_event, h₁, h₂, if_false, hc]
        rfl
      | some n =>
        left
        obtain ⟨ev, mx, l, r, hn, _, _⟩ := check_collision_some _ _ _ _ hc
        subst hn
        refine ⟨h₁', h₂', ev, mx, l, r, rfl, ?_⟩
        simp only [add_event, h₁, h₂, if_false, hc]

theorem undo_last_cases (s : SchedulerState) (d : Int) :
    (s.undo_stacks d = [] ∧ undo_last s d = s) ∨
    (∃ id rest, s.undo_stacks d = id :: rest ∧
      (undo_last s d = popped_only s d rest ∨
        (id ≠ -1 ∧ (∃ e, hash_get s.event_hash_map d id = some e) ∧
          undo_last s d = undone s d id rest))) := by
  cases hs : s.undo_stacks d with
  | nil =>
    left
    refine ⟨rfl, ?_⟩
    simp [undo_last, stack_pop, hs]
  | cons id rest =>
    right
    refine ⟨id, rest, rfl, ?_⟩
    by_cases hid : id = -1
    · left
      simp [undo_last, stack_pop, hs, hid, popped_only]
    · cases hg : hash_get s.event_hash_map d id with
      | none =>
        left
        simp [undo_last, stack_pop, hs, hid, hg, popped_only]
      | some e =>
        right
        refine ⟨hid, ⟨e, rfl⟩, ?_⟩
        simp [undo_last, stack_pop, hs, hid, hg, undone]

/-- The code `add_event` returns, as a function of the heap and of the answer of
`check_collision`. -/
theorem add_event_ret (s : SchedulerState) (d start duration type break_type : Int)
    (desc : List Char) :
    (add_event s d start duration type break_type desc).ret =
      if (s.upcoming_heaps d).length ≥ MAX_EVENTS_TOTAL then 2
      else if (s.upcoming_heaps d).countP (fun e => decide (e.start_time ≥ day_start_of start ∧
          e.start_time < day_end_of start)) ≥ MAX_EVENTS_DAILY_LIMIT then 2
      else if check_collision (s.interval_trees d) start (wrap32 (start + duration)) = none
        then 0
      else 1 := by
  rcases add_event_cases s d start duration type break_type desc with
    ⟨h₁, he⟩ | ⟨h₁, h₂, he⟩ | ⟨h₁, h₂, _, _, _, _, hc, he⟩ | ⟨h₁, h₂, hc, he⟩
  · rw [he, if_pos h₁]
  · unfold count_events_on_day at h₂
    rw [he, if_neg (by omega), if_pos h₂]
  · unfold count_events_on_day at h₂
    rw [he, if_neg (by omega), if_neg (by omega), hc]
    simp
  · unfold count_events_on_day at h₂
    rw [he, if_neg (by omega), if_neg (by omega), if_pos hc]


/-! ## The basic invariant -/

theorem nonOverlap_symm {a b : Event} (h : NonOverlap a b) : NonOverlap b a := by
  unfold NonOverlap at h ⊢
  omega

theorem basicInv_initial : BasicInv initial := by
  intro d
  simp only [initial, init_scheduler, static_init, ite_self]
  exact ⟨trivial, List.Perm.refl _, List.Pairwise.nil, by simp⟩

theorem basicInv_added (s : SchedulerState) (d : Int) (e : Event) (h : BasicInv s)
    (hlen : (s.upcoming_heaps d).length < MAX_EVENTS_TOTAL)
    (hc : check_collision (s.interval_trees d) e.start_time e.end_time = none) :
    BasicInv (added s d e) := by
  intro d'
  by_cases hd : d' = d
  · subst hd
    obtain ⟨hwf, hperm, hpw, _⟩ := h d'
    simp only [added, Function.update_same]
    refine ⟨it_insert_WF _ _ hwf, ?_, ?_, ?_⟩
    · exact (it_insert_events_perm _ _).trans
        ((List.Perm.cons e hperm).trans (heap_insert_perm _ _ hlen).symm)
    · refine List.Pairwise.perm ?_ (heap_insert_perm _ _ hlen).symm nonOverlap_symm
      refine List.Pairwise.cons ?_ hpw
      intro x hx
      have hx' : x ∈ (s.interval_trees d').events := hperm.mem_iff.2 hx
      have := check_collision_none _ _ _ hwf hc x hx'
      unfold Overlaps at this
      unfold NonOverlap
      omega
    · rw [heap_insert_length _ _ hlen]; omega
  · have := h d'
    simpa only [added, Function.update_noteq hd] using this

theorem basicInv_popped_only (s : SchedulerState) (d : Int) (rest : List Int)
    (h : BasicInv s) : BasicInv (popped_only s d rest) := h

theorem pairwise_of_cons_perm {x : Event} {h' h : List Event}
    (hp : (x :: h').Perm h) (hpw : h.Pairwise NonOverlap) : h'.Pairwise NonOverlap := by
  have := List.Pairwise.perm hpw hp.symm nonOverlap_symm
  exact (List.pairwise_cons.1 this).2

theorem basicInv_undone (s : SchedulerState) (d id : Int) (rest : List Int)
    (h : BasicInv s) : BasicInv (undone s d id rest) := by
  intro d'
  by_cases hd : d' = d
  · subst hd
    obtain ⟨_, _, hpw, hlen⟩ := h d'
    simp only [undone, Function.update_same]
    refine ⟨foldl_it_insert_WF _ _ trivial, ?_, ?_, ?_⟩
    · simpa [ITNode.events] using foldl_it_insert_perm
        (heap_remove (s.upcoming_heaps d') id) ITNode.null
    · by_cases hf : (s.upcoming_heaps d').findIdx (fun e => decide (e.id = id)) =
          (s.upcoming_heaps d').length
      · rw [heap_remove_not_found _ _ hf]; exact hpw
      · have hlt : (s.upcoming_heaps d').findIdx (fun e => decide (e.id = id)) <
            (s.upcoming_heaps d').length :=
          lt_of_le_of_ne (List.findIdx_le_length _) hf
        exact pairwise_of_cons_perm (heap_remove_perm _ _ hlt) hpw
    · by_cases hf : (s.upcoming_heaps d').findIdx (fun e => decide (e.id = id)) =
          (s.upcoming_heaps d').length
      · rw [heap_remove_not_found _ _ hf]; exact hlen
      · have hlt : (s.upcoming_heaps d').findIdx (fun e => decide (e.id = id)) <
            (s.upcoming_heaps d').length :=
          lt_of_le_of_ne (List.findIdx_le_length _) hf
        have := (heap_remove_perm _ _ hlt).length_eq
        simp only [List.length_cons] at this
        omega
  · have := h d'
    simpa only [undone, Function.update_noteq hd] using this

theorem basicInv_add_event (s : SchedulerState) (d start duration type break_type : Int)
    (desc : List Char) (h : BasicInv s) :
    BasicInv (add_event s d start duration type break_type desc).state := by
  rcases add_event_cases s d start duration type break_type desc with
    ⟨_, he⟩ | ⟨_, _, he⟩ | ⟨_, _, _, _, _, _, _, he⟩ | ⟨hlen, _, hc, he⟩
  · rw [he]; exact h
  · rw [he]; exact h
  · rw [he]; exact h
  · rw [he]; exact basicInv_added s d _ h hlen hc

theorem basicInv_undo_last (s : SchedulerState) (d : Int) (h : BasicInv s) :
    BasicInv (undo_last s d) := by
  rcases undo_last_cases s d with ⟨_, he⟩ | ⟨id, rest, _, he | ⟨_, _, he⟩⟩
  · rw [he]; exact h
  · rw [he]; exact basicInv_popped_only s d rest h
  · rw [he]; exact basicInv_undone s d id rest h

theorem basicInv_of_reachableBy (V : SchedulerState → Int → Int → Int → Prop)
    (s : SchedulerState) (h : ReachableBy V s) : BasicInv s := by
  induction h with
  | init => exact basicInv_initial
  | add s d start duration type break_type desc _ _ ih =>
    exact basicInv_add_event s d start duration type break_type desc ih
  | undo s d _ _ _ ih => exact basicInv_undo_last s d ih


/-! ## Day windows -/

theorem day_start_of_eq (start : Int) (h₀ : 0 ≤ start) (h₁ : start ≤ INT_MAX) :
    day_start_of start = start / 1440 * 1440 := by
  unfold day_start_of
  rw [Int.tdiv_eq_ediv h₀ (by norm_num)]
  apply wrap32_of_range
  · unfold INT_MIN; omega
  · unfold INT_MAX at h₁ ⊢; omega

theorem day_end_of_eq (start : Int) (h₀ : 0 ≤ start) (h₁ : start < LAST_DAY_START) :
    day_end_of start = start / 1440 * 1440 + 1440 := by
  unfold LAST_DAY_START at h₁
  unfold day_end_of
  rw [day_start_of_eq start h₀ (by unfold INT_MAX; omega)]
  apply wrap32_of_range
  · unfold INT_MIN; omega
  · unfold INT_MAX; omega

theorem day_end_of_overflow (start : Int) (h₀ : LAST_DAY_START ≤ start) (h₁ : start ≤ INT_MAX) :
    day_end_of start < 0 := by
  unfold LAST_DAY_START at h₀
  unfold day_end_of
  rw [day_start_of_eq start (by omega) h₁]
  unfold INT_MAX at h₁
  unfold wrap32
  omega

/-- While the end of the day is within `int` range, the window `add_event` counts is
the calendar day of `start`. -/
theorem count_events_on_day_eq (s : SchedulerState) (d start : Int) (h₀ : 0 ≤ start)
    (h₁ : start < LAST_DAY_START) :
    count_events_on_day s d (day_start_of start) (day_end_of start) =
      count_on_day (s.upcoming_heaps d) (start / 1440) := by
  unfold count_events_on_day count_on_day
  rw [day_end_of_eq start h₀ h₁, day_start_of_eq start h₀
    (by unfold LAST_DAY_START at h₁; unfold INT_MAX; omega)]
  apply List.countP_congr
  intro x _
  simp only [decide_eq_true_eq]
  omega

/-- The window `add_event` counts never holds more events than the calendar day of
`start`. -/
theorem count_events_on_day_le (s : SchedulerState) (d start : Int) (h₀ : 0 ≤ start)
    (h₁ : start ≤ INT_MAX) :
    count_events_on_day s d (day_start_of start) (day_end_of start) ≤
      count_on_day (s.upcoming_heaps d) (start / 1440) := by
  by_cases h : start < LAST_DAY_START
  · exact le_of_eq (count_events_on_day_eq s d start h₀ h)
  · have hneg := day_end_of_overflow start (by omega) h₁
    have hds := day_start_of_eq start h₀ h₁
    unfold count_events_on_day count_on_day
    apply List.countP_mono_left
    intro x _ hx
    simp only [decide_eq_true_eq] at hx ⊢
    omega

theorem count_on_day_cons (x : Event) (h : List Event) (k : Int) :
    count_on_day (x :: h) k = count_on_day h k + if x.start_time / 1440 = k then 1 else 0 := by
  unfold count_on_day
  rw [List.countP_cons]
  simp

theorem count_on_day_perm {h h' : List Event} (hp : h.Perm h') (k : Int) :
    count_on_day h k = count_on_day h' k := hp.countP_eq _

/-! ## The daily limit -/

theorem dailyInv_initial : DailyInv initial := by
  intro d k _ _
  simp [initial, init_scheduler, static_init, count_on_day]

theorem dailyInv_add_event (s : SchedulerState) (d start duration type break_type : Int)
    (desc : List Char) (h : DailyInv s) (hv : WeakArgs d start duration) :
    DailyInv (add_event s d start duration type break_type desc).state := by
  rcases add_event_cases s d start duration type break_type desc with
    ⟨_, he⟩ | ⟨_, _, he⟩ | ⟨_, _, _, _, _, _, _, he⟩ | ⟨hlen, hcount, _, he⟩
  · rw [he]; exact h
  · rw [he]; exact h
  · rw [he]; exact h
  · rw [he]
    intro d' k hk₀ hk₁
    by_cases hd : d' = d
    · subst hd
      simp only [added, Function.update_same]
      rw [count_on_day_perm (heap_insert_perm _ _ hlen), count_on_day_cons]
      have hold := h d' k hk₀ hk₁
      split
      · rename_i hk
        simp only [new_event] at hk
        obtain ⟨_, _, hs₀, _, _, _⟩ := hv
        have hlast : start < LAST_DAY_START := by unfold LAST_DAY_START; omega
        rw [count_events_on_day_eq s d' start hs₀ hlast, hk] at hcount
        omega
      · omega
    · have := h d' k hk₀ hk₁
      simpa only [added, Function.update_noteq hd] using this

theorem dailyInv_undo_last (s : SchedulerState) (d : Int) (h : DailyInv s) :
    DailyInv (undo_last s d) := by
  rcases undo_last_cases s d with ⟨_, he⟩ | ⟨id, rest, _, he | ⟨_, _, he⟩⟩
  · rw [he]; exact h
  · rw [he]; exact h
  · rw [he]
    intro d' k hk₀ hk₁
    by_cases hd : d' = d
    · subst hd
      simp only [undone, Function.update_same]
      have hold := h d' k hk₀ hk₁
      by_cases hf : (s.upcoming_heaps d').findIdx (fun e => decide (e.id = id)) =
          (s.upcoming_heaps d').length
      · rw [heap_remove_not_found _ _ hf]; exact hold
      · have hlt : (s.upcoming_heaps d').findIdx (fun e => decide (e.id = id)) <
            (s.upcoming_heaps d').length :=
          lt_of_le_of_ne (List.findIdx_le_length _) hf
        rw [← count_on_day_perm (heap_remove_perm _ _ hlt) k, count_on_day_cons] at hold
        omega
    · have := h d' k hk₀ hk₁
      simpa only [undone, Function.update_noteq hd] using this

theorem dailyInv_of_reachableWeak (s : SchedulerState) (h : ReachableWeak s) : DailyInv s := by
  induction h with
  | init => exact dailyInv_initial
  | add s d start duration type break_type desc _ hv ih =>
    exact dailyInv_add_event s d start duration type break_type desc ih hv
  | undo s d _ _ _ ih => exact dailyInv_undo_last s d ih

theorem reachableBy_mono {V W : SchedulerState → Int → Int → Int → Prop}
    (hVW : ∀ s d start duration, V s d start duration → W s d start duration)
    (s : SchedulerState) (h : ReachableBy V s) : ReachableBy W s := by
  induction h with
  | init => exact ReachableBy.init
  | add s d start duration type break_type desc _ hv ih =>
    exact ReachableBy.add s d start duration type break_type desc ih (hVW _ _ _ _ hv)
  | undo s d _ h₀ h₁ ih => exact ReachableBy.undo s d ih h₀ h₁

theorem weakArgs_of_validArgs {d start duration : Int} (h : ValidArgs d start duration) :
    WeakArgs d start duration := by
  unfold ValidArgs at h
  unfold WeakArgs
  omega

theorem reachableWeak_of_reachable (s : SchedulerState) (h : Reachable s) : ReachableWeak s :=
  reachableBy_mono (fun _ _ _ _ hv => weakArgs_of_validArgs hv) s h


/-! ## Timelines as insertion histories -/

theorem build_heap_append (es : List Event) (e : Event) :
    build_heap (es ++ [e]) = heap_insert (build_heap es) e := by
  simp [build_heap, List.foldl_append]

theorem build_heap_spec (es : List Event) (hlen : es.length ≤ MAX_EVENTS_TOTAL) :
    (build_heap es).Perm es ∧ HeapOrdered (build_heap es) := by
  induction es using List.reverseRecOn with
  | nil =>
    refine ⟨by simp [build_heap], ?_⟩
    intro i _ hi
    simp [build_heap] at hi
  | append_singleton es e ih =>
    simp only [List.length_append, List.length_singleton] at hlen
    obtain ⟨hp, ho⟩ := ih (by omega)
    have hl : (build_heap es).length < MAX_EVENTS_TOTAL := by
      rw [hp.length_eq]; omega
    rw [build_heap_append]
    refine ⟨?_, heap_insert_heapOrdered _ _ ho⟩
    exact (heap_insert_perm _ _ hl).trans
      ((List.Perm.cons e hp).trans
        (List.perm_append_comm : ([e] ++ es).Perm (es ++ [e])))

theorem chain_get_of_unique (c : List Event) (x : Event) (hx : x ∈ c)
    (hu : ∀ y ∈ c, y.id = x.id → y = x) : chain_get x.id c = some x := by
  induction c with
  | nil => simp at hx
  | cons y ys ih =>
    unfold chain_get
    by_cases hy : y.id = x.id
    · rw [if_pos hy, hu y (List.mem_cons_self _ _) hy]
    · rw [if_neg hy]
      apply ih
      · rcases List.mem_cons.1 hx with rfl | h
        · exact absurd rfl hy
        · exact h
      · intro z hz hzx
        exact hu z (List.mem_cons_of_mem _ hz) hzx

theorem chain_get_none (c : List Event) (id : Int) (h : ∀ y ∈ c, y.id ≠ id) :
    chain_get id c = none := by
  induction c with
  | nil => rfl
  | cons y ys ih =>
    unfold chain_get
    rw [if_neg (h y (List.mem_cons_self _ _))]
    exact ih (fun z hz => h z (List.mem_cons_of_mem _ hz))

theorem timeline_ids_unique (s : SchedulerState) (d : Int) (es : List Event)
    (ht : Timeline s d es) (x y : Event) (hx : x ∈ es) (hy : y ∈ es) (hxy : y.id = x.id) :
    y = x := by
  obtain ⟨_, _, _, _, hpw, _⟩ := ht
  by_contra hne
  have := List.Pairwise.forall_of_forall_of_flip (R := fun a b : Event => a ≠ b → a.id ≠ b.id)
    (fun a _ h => absurd rfl h)
    (hpw.imp (fun {a b} (h : a.id < b.id) _ => ne_of_lt h))
    (hpw.imp (fun {a b} (h : a.id < b.id) _ => ne_of_gt h))
    hy hx hne
  exact this hxy

/-- In a timeline `hash_get` resolves the id of every live event. -/
theorem timeline_hash_get (s : SchedulerState) (d : Int) (es : List Event)
    (ht : Timeline s d es) (x : Event) (hx : x ∈ es) :
    hash_get s.event_hash_map d x.id = some x := by
  unfold hash_get
  simp only []
  rw [ht.2.2.2.1]
  apply chain_get_of_unique
  · simp [hx]
  · intro y hy hyx
    simp only [List.mem_reverse, List.mem_filter] at hy
    exact timeline_ids_unique s d es ht x y hx hy.1 hyx

/-- In a timeline `hash_get` returns `NULL` for an id no live event carries. -/
theorem timeline_hash_get_none (s : SchedulerState) (d : Int) (es : List Event)
    (ht : Timeline s d es) (id : Int) (hid : ∀ x ∈ es, x.id ≠ id) :
    hash_get s.event_hash_map d id = none := by
  unfold hash_get
  simp only []
  rw [ht.2.2.2.1]
  apply chain_get_none
  intro y hy
  simp only [List.mem_reverse, List.mem_filter] at hy
  exact hid y hy.1

theorem timeline_heap_perm (s : SchedulerState) (d : Int) (es : List Event)
    (ht : Timeline s d es) : (s.upcoming_heaps d).Perm es := by
  rw [ht.1]
  exact (build_heap_spec es ht.2.1).1

theorem undo_last_found (s : SchedulerState) (d id : Int) (rest : List Int) (e : Event)
    (hs : s.undo_stacks d = id :: rest) (hid : id ≠ -1)
    (hg : hash_get s.event_hash_map d id = some e) :
    undo_last s d = undone s d id rest := by
  simp [undo_last, stack_pop, hs, hid, hg, undone]

theorem histInv_initial : HistInv initial := by
  refine ⟨by decide, fun d => ⟨[], ?_⟩⟩
  refine ⟨?_, by simp, ?_, ?_, List.Pairwise.nil, by simp⟩
  · simp [initial, init_scheduler, static_init, build_heap]
  · simp [initial, init_scheduler, static_init]
  · intro key
    simp [initial, init_scheduler, static_init]

theorem timeline_added_same (s : SchedulerState) (d start duration type break_type : Int)
    (desc : List Char) (es : List Event) (ht : Timeline s d es)
    (hg₀ : 1 ≤ s.global_event_id) (hg₁ : s.global_event_id < INT_MAX)
    (hv : ValidArgs d start duration)
    (hlen : (s.upcoming_heaps d).length < MAX_EVENTS_TOTAL) :
    Timeline (added s d (new_event s d start duration type break_type desc)) d
      (es ++ [new_event s d start duration type break_type desc]) := by
  have hperm := timeline_heap_perm s d es ht
  obtain ⟨hheap, hl, hstack, hhash, hpw, hprops⟩ := ht
  have hgid : wrap32 (s.global_event_id + 1) = s.global_event_id + 1 :=
    wrap32_of_range (by unfold INT_MIN; omega) (by omega)
  refine ⟨?_, ?_, ?_, ?_, ?_, ?_⟩
  · simp only [added, Function.update_same]
    rw [build_heap_append, hheap]
  · rw [hperm.length_eq] at hlen
    simp only [List.length_append, List.length_singleton]
    omega
  · simp only [added, stack_push, Function.update_same, hstack]
    simp
  · intro key
    simp only [added, hash_insert]
    have hd : (new_event s d start duration type break_type desc).doctor_id = d := rfl
    rw [hd, Function.update_same]
    by_cases hk : key = Int.tmod (new_event s d start duration type break_type desc).id HASH_SIZE
    · subst hk
      rw [Function.update_same, hhash]
      simp [List.filter_append, List.filter_cons]
    · rw [Function.update_noteq hk, hhash]
      have : ¬ (Int.tmod (new_event s d start duration type break_type desc).id HASH_SIZE = key) :=
        fun h => hk h.symm
      simp [List.filter_append, List.filter_cons, this]
  · rw [List.pairwise_append]
    refine ⟨hpw, by simp, ?_⟩
    intro a ha b hb
    simp only [List.mem_singleton] at hb
    subst hb
    exact (hprops a ha).2.1
  · intro e he
    simp only [added]
    rw [hgid]
    rcases List.mem_append.1 he with he | he
    · obtain ⟨h₁, h₂, h₃, h₄⟩ := hprops e he
      exact ⟨h₁, by omega, h₃, h₄⟩
    · simp only [List.mem_singleton] at he
      subst he
      obtain ⟨_, _, _, hdur, hsum⟩ := hv
      refine ⟨hg₀, by simp only [new_event]; omega, rfl, ?_⟩
      simp only [new_event]
      rw [wrap32_of_range (by unfold INT_MIN; omega) hsum]
      omega

theorem timeline_added_other (s : SchedulerState) (d d' : Int) (e : Event)
    (es : List Event) (ht : Timeline s d' es) (hd : d' ≠ d) (hed : e.doctor_id = d)
    (hg₀ : 1 ≤ s.global_event_id) (hg₁ : s.global_event_id < INT_MAX) :
    Timeline (added s d e) d' es := by
  obtain ⟨hheap, hl, hstack, hhash, hpw, hprops⟩ := ht
  have hgid : wrap32 (s.global_event_id + 1) = s.global_event_id + 1 :=
    wrap32_of_range (by unfold INT_MIN; omega) (by omega)
  refine ⟨?_, hl, ?_, ?_, hpw, ?_⟩
  · simp only [added, Function.update_noteq hd]; exact hheap
  · simp only [added, stack_push, Function.update_noteq hd]; exact hstack
  · intro key
    simp only [added, hash_insert, hed, Function.update_noteq hd]
    exact hhash key
  · intro x hx
    simp only [added]
    rw [hgid]
    obtain ⟨h₁, h₂, h₃, h₄⟩ := hprops x hx
    exact ⟨h₁, by omega, h₃, h₄⟩

theorem histInv_add_event (s : SchedulerState) (d start duration type break_type : Int)
    (desc : List Char) (h : HistInv s) (hv : ValidArgs d start duration)
    (hg₁ : s.global_event_id < INT_MAX) :
    HistInv (add_event s d start duration type break_type desc).state := by
  rcases add_event_cases s d start duration type break_type desc with
    ⟨_, he⟩ | ⟨_, _, he⟩ | ⟨_, _, _, _, _, _, _, he⟩ | ⟨hlen, _, _, he⟩
  · rw [he]; exact h
  · rw [he]; exact h
  · rw [he]; exact h
  · rw [he]
    obtain ⟨hg₀, htl⟩ := h
    refine ⟨?_, ?_⟩
    · simp only [added]
      rw [wrap32_of_range (by unfold INT_MIN; omega) (by omega)]
      omega
    · intro d'
      obtain ⟨es, ht⟩ := htl d'
      by_cases hd : d' = d
      · subst hd
        exact ⟨_, timeline_added_same s d' start duration type break_type desc es ht hg₀ hg₁ hv
          hlen⟩
      · exact ⟨es, timeline_added_other s d d' _ es ht hd rfl hg₀ hg₁⟩

/-- What `undo_last` does on a timeline that holds at least one event: it takes the
`undone` path for the id of the event added last, and the heap array, the hash buckets
and the undo stack it leaves are those of the timeline without that event. -/
theorem undo_last_timeline (s : SchedulerState) (d : Int) (es : List Event) (e : Event)
    (ht : Timeline s d (es ++ [e])) (hno : (s.upcoming_heaps d).Pairwise NonOverlap) :
    undo_last s d = undone s d e.id (es.map Event.id).reverse ∧
      Timeline (undone s d e.id (es.map Event.id).reverse) d es := by
  have hperm := timeline_heap_perm s d _ ht
  have hget := timeline_hash_get s d _ ht e (by simp)
  obtain ⟨hheap, hl, hstack, hhash, hpw, hprops⟩ := ht
  simp only [List.length_append, List.length_singleton] at hl
  have hstack' : s.undo_stacks d = e.id :: (es.map Event.id).reverse := by
    rw [hstack]; simp
  have he := hprops e (by simp)
  have hundo := undo_last_found s d e.id _ e hstack' (by omega) hget
  refine ⟨hundo, ?_⟩
  obtain ⟨hp₀, ho₀⟩ := build_heap_spec es (by omega)
  rw [List.pairwise_append] at hpw
  obtain ⟨hpw₁, _, hpw₂⟩ := hpw
  have hheap' : heap_remove (s.upcoming_heaps d) e.id = build_heap es := by
    rw [hheap, build_heap_append]
    apply heap_remove_heap_insert _ _ ho₀
    · apply distinctStarts_of_nonOverlap
      · rw [hheap, build_heap_append] at hno
        have hl' : (build_heap es).length < MAX_EVENTS_TOTAL := by
          rw [hp₀.length_eq]; omega
        exact pairwise_of_cons_perm (heap_insert_perm _ _ hl').symm hno
      · intro x hx
        exact (hprops x (List.mem_append_left _ (hp₀.mem_iff.1 hx))).2.2.2
    · intro x hx
      exact ne_of_lt (hpw₂ x (hp₀.mem_iff.1 hx) e (by simp))
    · rw [hp₀.length_eq]; omega
  refine ⟨?_, by omega, ?_, ?_, hpw₁, ?_⟩
  · simp only [undone, Function.update_same]
    exact hheap'
  · simp only [undone, Function.update_same]
  · intro key
    simp only [undone, hash_remove, Function.update_same]
    by_cases hk : key = Int.tmod e.id HASH_SIZE
    · subst hk
      rw [Function.update_same, hhash]
      simp [List.filter_append, List.filter_cons, chain_remove]
    · rw [Function.update_noteq hk, hhash]
      have : ¬ (Int.tmod e.id HASH_SIZE = key) := fun h => hk h.symm
      simp [List.filter_append, List.filter_cons, this]
  · intro x hx
    exact hprops x (List.mem_append_left _ hx)

theorem timeline_undone_other (s : SchedulerState) (d d' id : Int) (rest : List Int)
    (es : List Event) (ht : Timeline s d' es) (hd : d' ≠ d) :
    Timeline (undone s d id rest) d' es := by
  obtain ⟨hheap, hl, hstack, hhash, hpw, hprops⟩ := ht
  refine ⟨?_, hl, ?_, ?_, hpw, hprops⟩
  · simp only [undone, Function.update_noteq hd]; exact hheap
  · simp only [undone, Function.update_noteq hd]; exact hstack
  · intro key
    simp only [undone, hash_remove, Function.update_noteq hd]
    exact hhash key

theorem histInv_undo_last (s : SchedulerState) (d : Int) (h : HistInv s) (hb : BasicInv s) :
    HistInv (undo_last s d) := by
  obtain ⟨hg₀, htl⟩ := h
  obtain ⟨es, ht⟩ := htl d
  rcases List.eq_nil_or_concat es with rfl | ⟨es₀, e, rfl⟩
  · have : s.undo_stacks d = [] := by rw [ht.2.2.1]; rfl
    rcases undo_last_cases s d with ⟨_, he⟩ | ⟨id, rest, hs, _⟩
    · rw [he]; exact ⟨hg₀, htl⟩
    · rw [this] at hs; exact absurd hs (by simp)
  · rw [List.concat_eq_append] at ht
    obtain ⟨hu, ht'⟩ := undo_last_timeline s d es₀ e ht (hb d).2.2.1
    rw [hu]
    refine ⟨hg₀, fun d' => ?_⟩
    by_cases hd : d' = d
    · subst hd; exact ⟨es₀, ht'⟩
    · obtain ⟨es', ht''⟩ := htl d'
      exact ⟨es', timeline_undone_other s d d' _ _ es' ht'' hd⟩

theorem histInv_of_reachableNoOverflow (s : SchedulerState) (h : ReachableNoOverflow s) :
    HistInv s := by
  induction h with
  | init => exact histInv_initial
  | add s d start duration type break_type desc _ hv ih =>
    exact histInv_add_event s d start duration type break_type desc ih hv.1 hv.2
  | undo s d hs _ _ ih =>
    exact histInv_undo_last s d ih (basicInv_of_reachableBy _ s hs)


/-! ## The concrete scenarios of the specification -/

/-- Scenario 1, basic add: `ADD 0 600 30 0 3 checkup` returns 0 and `GET 0` then shows
the single event with id 1. -/
theorem scenario_basic_add :
    (add_event initial 0 600 30 0 3 "checkup".toList).ret = 0 ∧
      after_checkup.upcoming_heaps 0 = [⟨1, 0, 600, 30, 630, 0, 3, "checkup".toList⟩] := by
  decide

/-- Scenario 2, collision: after scenario 1, `ADD 0 610 30 0 3 other` returns 1 and
reports the bounds `600 630`. -/
theorem scenario_collision :
    (add_event after_checkup 0 610 30 0 3 "other".toList).ret = 1 ∧
      (add_event after_checkup 0 610 30 0 3 "other".toList).collision_start = some 600 ∧
      (add_event after_checkup 0 610 30 0 3 "other".toList).collision_end = some 630 := by
  decide

/-- Scenario 3, touching at a boundary is allowed: after scenario 1,
`ADD 0 630 30 0 3 next` returns 0. -/
theorem scenario_touch_boundary :
    (add_event after_checkup 0 630 30 0 3 "next".toList).ret = 0 := by
  decide

/-- Scenario 4, daily limit: after seven adds on day 0 an eighth add on day 0 returns 2
and an add at minute 1440 returns 0. -/
theorem scenario_daily_limit :
    ((add_minutes 7 initial 0).upcoming_heaps 0).length = 7 ∧
      (add_event (add_minutes 7 initial 0) 0 100 1 0 3 []).ret = 2 ∧
      (add_event (add_minutes 7 initial 0) 0 1440 1 0 3 []).ret = 0 := by
  decide

/-- Scenario 5, undo: after scenario 1, `UNDO 0` empties the heap and the next add gets
id 2. -/
theorem scenario_undo :
    (undo_last after_checkup 0).upcoming_heaps 0 = [] ∧
      (add_event (undo_last after_checkup 0) 0 600 30 0 3 "checkup".toList).state.upcoming_heaps
        0 = [⟨2, 0, 600, 30, 630, 0, 3, "checkup".toList⟩] := by
  decide


/-! ## Reachability of the example states -/

theorem reachable_after_checkup : Reachable after_checkup :=
  ReachableBy.add initial 0 600 30 0 3 _ ReachableBy.init (by decide)

theorem reachable_after_next : Reachable after_next :=
  ReachableBy.add after_checkup 0 630 30 0 3 _ reachable_after_checkup (by decide)

theorem reachable_add_minutes (n : Nat) (s : SchedulerState) (start : Int) (hs : Reachable s)
    (h₀ : 0 ≤ start) (h₁ : start + n ≤ INT_MAX) : Reachable (add_minutes n s start) := by
  induction n generalizing s start with
  | zero => exact hs
  | succ n ih =>
    unfold add_minutes
    apply ih
    · refine ReachableBy.add s 0 start 1 0 3 [] hs ?_
      unfold ValidArgs MAX_DOCTORS
      push_cast at h₁
      omega
    · omega
    · push_cast at h₁ ⊢
      omega

/-! ## C1 -/

theorem count_window_eq (h : List Event) (start : Int) :
    h.countP (fun x => decide (start / 1440 * 1440 ≤ x.start_time ∧
      x.start_time < start / 1440 * 1440 + 1440)) = count_on_day h (start / 1440) := by
  unfold count_on_day
  apply List.countP_congr
  intro x _
  simp only [decide_eq_true_eq]
  omega

/-- C4 (amended). `add_event` does not check `duration > 0` or `start >= 0`: a call with
`0 <= d < MAX_DOCTORS` and `duration <= 0` or `start < 0` goes through the same capacity
and collision checks as any other call. Its result is 2 when `d`'s heap holds
`MAX_EVENTS_TOTAL` events or the day window of `start` holds `MAX_EVENTS_DAILY_LIMIT`
events of `d`, otherwise 1 when `check_collision` on `d`'s tree with `start` and the
`int` sum `start + duration` returns a node, otherwise 0. When it returns 1 or 2 it leaves
every doctor's heap, interval tree, hash map and undo stack and the id counter unchanged;
when it returns 0 it inserts the event as for any other call, so that `d`'s heap then
holds an event with the given `start` and `duration`, one of them out of range; and on a
doctor whose heap and interval tree are empty it returns 0. -/
theorem add_event_unchecked_preconditions (s : SchedulerState)
    (d start duration type break_type : Int) (desc : List Char)
    (_hd₀ : 0 ≤ d) (_hd₁ : d < MAX_DOCTORS) (hbad : duration ≤ 0 ∨ start < 0) :
    let r := add_event s d start duration type break_type desc
    (r.ret =
      if (s.upcoming_heaps d).length ≥ MAX_EVENTS_TOTAL then 2
      else if (s.upcoming_heaps d).countP (fun e => decide (e.start_time ≥ day_start_of start ∧
          e.start_time < day_end_of start)) ≥ MAX_EVENTS_DAILY_LIMIT then 2
      else if check_collision (s.interval_trees d) start (wrap32 (start + duration)) = none
        then 0
      else 1) ∧
    (r.ret = 0 ∨ r.ret = 1 ∨ r.ret = 2) ∧
    (r.ret ≠ 0 → r.state = s) ∧
    (r.ret = 0 →
      r.state = added s d (new_event s d start duration type break_type desc) ∧
      ∃ e ∈ r.state.upcoming_heaps d, e.id = s.global_event_id ∧ e.start_time = start ∧
        e.duration = duration ∧ (e.duration ≤ 0 ∨ e.start_time < 0)) ∧
    (s.upcoming_heaps d = [] → s.interval_trees d = ITNode.null → r.ret = 0) := by
  intro r
  refine ⟨add_event_ret s d start duration type break_type desc, ?_⟩
  rcases add_event_cases s d start duration type break_type desc with
    ⟨h₁, he⟩ | ⟨_, h₂, he⟩ | ⟨_, _, _, _, _, _, hc, he⟩ | ⟨hlen, _, _, he⟩
  · refine ⟨by simp only [r, he]; decide, fun _ => by simp only [r, he], ?_, ?_⟩
    · intro h
      simp only [r, he] at h
      exact absurd h (by decide)
    · intro hh _
      rw [hh] at h₁
      exact absurd h₁ (by decide)
  · refine ⟨by simp only [r, he]; decide, fun _ => by simp only [r, he], ?_, ?_⟩
    · intro h
      simp only [r, he] at h
      exact absurd h (by decide)
    · intro hh _
      unfold count_events_on_day at h₂
      rw [hh] at h₂
      simp [MAX_EVENTS_DAILY_LIMIT] at h₂
  · refine ⟨by simp only [r, he]; decide, fun _ => by simp only [r, he], ?_, ?_⟩
    · intro h
      simp only [r, he] at h
      exact absurd h (by decide)
    · intro _ ht
      rw [ht] at hc
      simp [check_collision] at hc
  · refine ⟨by simp only [r, he]; decide, fun h => ?_, fun _ => ?_, fun _ _ => by simp only [r, he]⟩
    · simp only [r, he] at h
      exact absurd rfl h
    · refine ⟨by simp only [r, he], new_event s d start duration type break_type desc, ?_,
        rfl, rfl, rfl, hbad⟩
      simp only [r, he, added, Function.update_same]
      exact (heap_insert_perm _ _ hlen).mem_iff.2 (List.mem_cons_self _ _)

/-- Witness for C4 (amended): a request for the full slot `[600, 630)` with a
non-positive duration is rejected as a collision and changes nothing. -/
theorem add_event_unchecked_preconditions_witness :
    (0 : Int) ≤ 0 ∧ (0 : Int) < MAX_DOCTORS ∧ ((-5 : Int) ≤ 0 ∨ (620 : Int) < 0) ∧
      (add_event after_checkup 0 620 (-5) 0 3 []).ret ≠ 0 ∧
      (add_event after_checkup 0 620 (-5) 0 3 []).state = after_checkup :=
  ⟨by decide, by decide, by decide, by decide,
    (add_event_unchecked_preconditions after_checkup 0 620 (-5) 0 3 []
      (by decide) (by decide) (by decide)).2.2.1 (by decide)⟩

/-- Counterexample to C4 as stated: on the initial state `add_event(0, -5, 10, ...)`
(negative start) and `add_event(0, 600, -30, ...)` (negative duration) both return 0 and
insert the event. -/
theorem add_event_accepts_invalid_arguments :
    (0 : Int) ≤ 0 ∧ (0 : Int) < MAX_DOCTORS ∧
      (add_event initial 0 (-5) 10 0 3 []).ret = 0 ∧
      ((add_event initial 0 (-5) 10 0 3 []).state.upcoming_heaps 0) =
        [⟨1, 0, -5, 10, 5, 0, 3, []⟩] ∧
      (add_event initial 0 600 (-30) 0 3 []).ret = 0 ∧
      ((add_event initial 0 600 (-30) 0 3 []).state.upcoming_heaps 0) =
        [⟨1, 0, 600, -30, 570, 0, 3, []⟩] ∧
      initial.upcoming_heaps 0 = [] := by
  decide

/-! ## C5 -/

/-- C5. Failure atomicity of `add_event`: for every state and every call, if the call
returns 1 (collision) or 2 (capacity), the globals after the call (every doctor's heap,
interval tree, hash buckets and undo stack, and `global_event_id`) are exactly those
before the call. -/
theorem add_event_failure_atomic (s : SchedulerState)
    (d start duration type break_type : Int) (desc : List Char)
    (h : (add_event s d start duration type break_type desc).ret = 1 ∨
      (add_event s d start duration type break_type desc).ret = 2) :
    (add_event s d start duration type break_type desc).state = s := by
  rcases add_event_cases s d start duration type break_type desc with
    ⟨_, he⟩ | ⟨_, _, he⟩ | ⟨_, _, _, _, _, _, _, he⟩ | ⟨_, _, _, he⟩
  · rw [he]
  · rw [he]
  · rw [he]
  · rw [he] at h
    rcases h with h | h <;> simp at h

/-- Witness for C5: the colliding request `ADD 0 610 30` after `ADD 0 600 30`. -/
theorem add_event_failure_atomic_witness :
    ((add_event after_checkup 0 610 30 0 3 "other".toList).ret = 1 ∨
      (add_event after_checkup 0 610 30 0 3 "other".toList).ret = 2) ∧
      (add_event after_checkup 0 610 30 0 3 "other".toList).state = after_checkup :=
  ⟨by decide,
    add_event_failure_atomic after_checkup 0 610 30 0 3 "other".toList (by decide)⟩


/-! ## Hash map and stack after an insertion -/

theorem hash_get_hash_insert (m : Int → Int → List Event) (e : Event) :
    hash_get (hash_insert m e) e.doctor_id e.id = some e := by
  simp [hash_get, hash_insert, chain_get]

theorem hash_remove_hash_insert (m : Int → Int → List Event) (e : Event) :
    hash_remove (hash_insert m e) e.doctor_id e.id = m := by
  simp [hash_remove, hash_insert, chain_remove]

theorem global_event_id_undo_last (s : SchedulerState) (d : Int) :
    (undo_last s d).global_event_id = s.global_event_id := by
  rcases undo_last_cases s d with ⟨_, he⟩ | ⟨id, rest, _, he | ⟨_, _, he⟩⟩ <;> rw [he] <;> rfl

/-! ## C6 -/

/-- C6 (amended). Postcondition of a successful add: whenever `add_event(d, start,
duration, type, break_type, desc)` returns 0, doctor `d`'s heap afterwards holds exactly
the events it held before plus one new event `e` with `e.id` the value of
`global_event_id` before the call, `doctor_id = d`, `start_time = start`,
`duration = duration`, `end_time = start + duration` provided that sum is within `int`
range (in general `end_time` is the sum as the 32-bit addition computes it), `type` and
`break_type` as passed and `description` the first 99 characters of `desc`; `e.id` is on
top of `d`'s undo stack and `hash_get(d, e.id)` returns `e`. In the initial state that id
is 1. -/
theorem add_event_success_post (s : SchedulerState)
    (d start duration type break_type : Int) (desc : List Char)
    (h : (add_event s d start duration type break_type desc).ret = 0) :
    ∃ e : Event,
      ((add_event s d start duration type break_type desc).state.upcoming_heaps d).Perm
        (e :: s.upcoming_heaps d) ∧
      e.id = s.global_event_id ∧ e.doctor_id = d ∧ e.start_time = start ∧
      e.duration = duration ∧ e.end_time = wrap32 (start + duration) ∧
      (INT_MIN ≤ start + duration → start + duration ≤ INT_MAX →
        e.end_time = start + duration) ∧
      e.type = type ∧ e.break_type = break_type ∧ e.description = desc.take 99 ∧
      ((add_event s d start duration type break_type desc).state.undo_stacks d).head? =
        some e.id ∧
      hash_get (add_event s d start duration type break_type desc).state.event_hash_map
        d e.id = some e ∧
      (s = initial → e.id = 1) := by
  rcases add_event_cases s d start duration type break_type desc with
    ⟨_, he⟩ | ⟨_, _, he⟩ | ⟨_, _, _, _, _, _, _, he⟩ | ⟨hlen, _, _, he⟩
  · rw [he] at h; simp at h
  · rw [he] at h; simp at h
  · rw [he] at h; simp at h
  · refine ⟨new_event s d start duration type break_type desc, ?_, rfl, rfl, rfl, rfl, rfl,
      fun h₁ h₂ => wrap32_of_range h₁ h₂, rfl, rfl, rfl, ?_, ?_, ?_⟩
    · rw [he]
      simp only [added, Function.update_same]
      exact heap_insert_perm _ _ hlen
    · rw [he]
      simp [added, stack_push]
    · rw [he]
      exact hash_get_hash_insert s.event_hash_map
        (new_event s d start duration type break_type desc)
    · rintro rfl
      rfl

/-- Witness for C6 (amended): `ADD 0 600 30 0 3 checkup` on the initial state. -/
theorem add_event_success_post_witness :
    (add_event initial 0 600 30 0 3 "checkup".toList).ret = 0 ∧
    ∃ e : Event,
      ((add_event initial 0 600 30 0 3 "checkup".toList).state.upcoming_heaps 0).Perm
        (e :: initial.upcoming_heaps 0) ∧
      e.id = initial.global_event_id ∧ e.doctor_id = 0 ∧ e.start_time = 600 ∧
      e.duration = 30 ∧ e.end_time = wrap32 (600 + 30) ∧
      (INT_MIN ≤ (600 : Int) + 30 → (600 : Int) + 30 ≤ INT_MAX → e.end_time = 600 + 30) ∧
      e.type = 0 ∧ e.break_type = 3 ∧ e.description = "checkup".toList.take 99 ∧
      ((add_event initial 0 600 30 0 3 "checkup".toList).state.undo_stacks 0).head? =
        some e.id ∧
      hash_get (add_event initial 0 600 30 0 3 "checkup".toList).state.event_hash_map
        0 e.id = some e ∧
      (initial = initial → e.id = 1) :=
  ⟨by decide, add_event_success_post initial 0 600 30 0 3 "checkup".toList (by decide)⟩

/-- Counterexample to C6 as stated: on the initial state `add_event(0, 2147483647, 1,
...)` returns 0 and the heap then holds the single new event, whose `end_time` is
`-2147483648`, not `start + duration = 2147483648`. -/
theorem add_event_end_time_wraps :
    (add_event initial 0 2147483647 1 0 3 []).ret = 0 ∧
      initial.upcoming_heaps 0 = [] ∧
      (add_event initial 0 2147483647 1 0 3 []).state.upcoming_heaps 0 =
        [⟨1, 0, 2147483647, 1, -2147483648, 0, 3, []⟩] ∧
      (-2147483648 : Int) ≠ 2147483647 + 1 := by
  decide

/-! ## C7 -/

theorem assigned_ids_bounds (calls : List Call) (s : SchedulerState)
    (hlo : INT_MIN ≤ s.global_event_id)
    (hhi : s.global_event_id + calls.length ≤ INT_MAX) :
    (∀ x ∈ assigned_ids s calls, s.global_event_id ≤ x) ∧
      (assigned_ids s calls).Pairwise (fun a b => a < b) := by
  induction calls generalizing s with
  | nil => simp [assigned_ids]
  | cons c calls ih =>
    simp only [List.length_cons] at hhi
    push_cast at hhi
    cases c with
    | undo d =>
      simp only [assigned_ids]
      have hg := global_event_id_undo_last s d
      have := ih (undo_last s d) (by rw [hg]; exact hlo) (by rw [hg]; omega)
      rw [hg] at this
      exact this
    | add d start duration type break_type desc =>
      simp only [assigned_ids]
      rcases add_event_cases s d start duration type break_type desc with
        ⟨_, he⟩ | ⟨_, _, he⟩ | ⟨_, _, _, _, _, _, _, he⟩ | ⟨_, _, _, he⟩
      · rw [he]
        simp only [show ¬ ((2 : Int) = 0) by decide, if_false]
        exact ih s hlo (by omega)
      · rw [he]
        simp only [show ¬ ((2 : Int) = 0) by decide, if_false]
        exact ih s hlo (by omega)
      · rw [he]
        simp only [show ¬ ((1 : Int) = 0) by decide, if_false]
        exact ih s hlo (by omega)
      · rw [he]
        simp only [if_true]
        have hg : (added s d (new_event s d start duration type break_type desc)).global_event_id
            = s.global_event_id + 1 := by
          simp only [added]
          exact wrap32_of_range (by omega) (by omega)
        have := ih (added s d (new_event s d start duration type break_type desc))
          (by rw [hg]; omega) (by rw [hg]; omega)
        rw [hg] at this
        refine ⟨?_, ?_⟩
        · intro x hx
          rcases List.mem_cons.1 hx with rfl | hx
          · exact le_refl _
          · have := this.1 x hx
            omega
        · refine List.Pairwise.cons ?_ this.2
          intro x hx
          have := this.1 x hx
          show s.global_event_id < x
          omega

/-- C7. Id monotonicity: short of `int` overflow of the counter, a successful
`add_event` increases `global_event_id` by exactly 1 and stamps the new event with the
previous value; a failed `add_event` and every `undo_last` leave `global_event_id`
unchanged. Hence the ids assigned by the successive successful adds of any run are
strictly increasing and no id is assigned twice; add, undo, add from the initial state
yields the ids 1 then 2. -/
theorem id_monotonic (s : SchedulerState) (d start duration type break_type d' : Int)
    (desc : List Char) (calls : List Call)
    (hlo : INT_MIN ≤ s.global_event_id)
    (hhi : s.global_event_id + calls.length < INT_MAX) :
    ((add_event s d start duration type break_type desc).ret = 0 →
      (add_event s d start duration type break_type desc).state.global_event_id =
        s.global_event_id + 1 ∧
      ∃ e : Event, e.id = s.global_event_id ∧
        ((add_event s d start duration type break_type desc).state.upcoming_heaps d).Perm
          (e :: s.upcoming_heaps d)) ∧
    ((add_event s d start duration type break_type desc).ret ≠ 0 →
      (add_event s d start duration type break_type desc).state.global_event_id =
        s.global_event_id) ∧
    (undo_last s d').global_event_id = s.global_event_id ∧
    (assigned_ids s calls).Pairwise (fun a b => a < b) ∧
    (assigned_ids s calls).Nodup ∧
    assigned_ids initial [Call.add 0 600 30 0 3 "checkup".toList, Call.undo 0,
      Call.add 0 600 30 0 3 "checkup".toList] = [1, 2] := by
  have hpw := (assigned_ids_bounds calls s hlo (by omega)).2
  refine ⟨?_, ?_, global_event_id_undo_last s d', hpw, ?_, by decide⟩
  · intro h
    rcases add_event_cases s d start duration type break_type desc with
      ⟨_, he⟩ | ⟨_, _, he⟩ | ⟨_, _, _, _, _, _, _, he⟩ | ⟨hlen, _, _, he⟩
    · rw [he] at h; simp at h
    · rw [he] at h; simp at h
    · rw [he] at h; simp at h
    · rw [he]
      refine ⟨?_, new_event s d start duration type break_type desc, rfl, ?_⟩
      · simp only [added]
        exact wrap32_of_range (by omega) (by omega)
      · simp only [added, Function.update_same]
        exact heap_insert_perm _ _ hlen
  · intro h
    rcases add_event_cases s d start duration type break_type desc with
      ⟨_, he⟩ | ⟨_, _, he⟩ | ⟨_, _, _, _, _, _, _, he⟩ | ⟨hlen, _, _, he⟩
    · rw [he]
    · rw [he]
    · rw [he]
    · rw [he] at h; simp at h
  · exact hpw.imp (fun h => ne_of_lt h)

/-- Witness for C7: from `ADD 0 600 30`, a touching add, an undo and another add. -/
theorem id_monotonic_witness :
    INT_MIN ≤ after_checkup.global_event_id ∧
    after_checkup.global_event_id + ([Call.add 0 630 30 0 3 [], Call.undo 0,
      Call.add 0 700 5 0 3 []] : List Call).length < INT_MAX ∧
    (add_event after_checkup 0 630 30 0 3 []).state.global_event_id =
      after_checkup.global_event_id + 1 ∧
    (assigned_ids after_checkup [Call.add 0 630 30 0 3 [], Call.undo 0,
      Call.add 0 700 5 0 3 []]).Pairwise (fun a b => a < b) :=
  ⟨by decide, by decide,
    ((id_monotonic after_checkup 0 630 30 0 3 0 [] [Call.add 0 630 30 0 3 [], Call.undo 0,
      Call.add 0 700 5 0 3 []] (by decide) (by decide)).1 (by decide)).1,
    (id_monotonic after_checkup 0 630 30 0 3 0 [] [Call.add 0 630 30 0 3 [], Call.undo 0,
      Call.add 0 700 5 0 3 []] (by decide) (by decide)).2.2.2.1⟩


/-! ## The id counter after a full turn -/

theorem after_call_add (s : SchedulerState) (d start duration type break_type : Int)
    (desc : List Char) :
    after_call s (Call.add d start duration type break_type desc) =
      (add_event s d start duration type break_type desc).state := rfl

theorem after_call_undo (s : SchedulerState) (d : Int) :
    after_call s (Call.undo d) = undo_last s d := rfl

theorem wrap32_succ (g : Int) (n : Nat) :
    wrap32 (wrap32 (g + (n : Int)) + ((1 : Nat) : Int)) = wrap32 (g + ((n + 1 : Nat) : Int)) := by
  unfold wrap32
  push_cast
  omega

/-- One round of `ADD 1 0 1` and `UNDO 1` on a state in which doctor 1 holds nothing and
the id counter is not -1 only advances the id counter. -/
theorem spin_step (s : SchedulerState) (hh : s.upcoming_heaps 1 = [])
    (ht : s.interval_trees 1 = ITNode.null) (hs : s.undo_stacks 1 = [])
    (hg : s.global_event_id ≠ -1) :
    after_call (after_call s (Call.add 1 0 1 0 3 [])) (Call.undo 1) = advance s 1 := by
  rw [after_call_add, after_call_undo]
  rcases add_event_cases s 1 0 1 0 3 [] with
    ⟨h₁, _⟩ | ⟨_, h₂, _⟩ | ⟨_, _, _, _, _, _, hc, _⟩ | ⟨_, _, _, he⟩
  · rw [hh] at h₁
    exact absurd h₁ (by decide)
  · unfold count_events_on_day at h₂
    rw [hh] at h₂
    simp [MAX_EVENTS_DAILY_LIMIT] at h₂
  · rw [ht] at hc
    simp [check_collision] at hc
  · rw [he]
    have hu : undo_last (added s 1 (new_event s 1 0 1 0 3 [])) 1 =
        undone (added s 1 (new_event s 1 0 1 0 3 [])) 1 s.global_event_id [] := by
      apply undo_last_found _ 1 _ _ (new_event s 1 0 1 0 3 [])
      · simp [added, stack_push, new_event, hs]
      · exact hg
      · exact hash_get_hash_insert s.event_hash_map (new_event s 1 0 1 0 3 [])
    have hheap : heap_remove (heap_insert (s.upcoming_heaps 1) (new_event s 1 0 1 0 3 []))
        s.global_event_id = s.upcoming_heaps 1 := by
      apply heap_remove_heap_insert (s.upcoming_heaps 1) (new_event s 1 0 1 0 3 [])
      · rw [hh]; intro i hi₁ hi₂; simp at hi₂
      · rw [hh]; intro i j hi; simp at hi
      · rw [hh]; intro x hx; simp at hx
      · rw [hh]; decide
    have hhash : hash_remove (hash_insert s.event_hash_map (new_event s 1 0 1 0 3 [])) 1
        s.global_event_id = s.event_hash_map :=
      hash_remove_hash_insert s.event_hash_map (new_event s 1 0 1 0 3 [])
    have e₁ : Function.update s.interval_trees 1 ITNode.null = s.interval_trees := by
      rw [← ht]; exact Function.update_eq_self _ _
    have e₂ : Function.update s.undo_stacks 1 [] = s.undo_stacks := by
      rw [← hs]; exact Function.update_eq_self _ _
    rw [hu]
    simp only [undone, added, advance, Function.update_same, hheap, hhash, stack_push,
      Function.update_idem, Function.update_eq_self, Nat.cast_one]
    rw [hh]
    simp only [List.foldl_nil, e₁, e₂]

/-- While no round stamps the id -1, `n` rounds on a state in which doctor 1 holds nothing
only advance the id counter by `n`. -/
theorem spin_advance (n : Nat) (s : SchedulerState) (hh : s.upcoming_heaps 1 = [])
    (ht : s.interval_trees 1 = ITNode.null) (hs : s.undo_stacks 1 = [])
    (hlo : INT_MIN ≤ s.global_event_id) (hhi : s.global_event_id ≤ INT_MAX)
    (hg : ∀ k : Nat, k < n → wrap32 (s.global_event_id + (k : Int)) ≠ -1) :
    spin n s = advance s n := by
  induction n with
  | zero =>
    simp only [spin, advance, Nat.cast_zero, add_zero, wrap32_of_range hlo hhi]
  | succ n ih =>
    rw [spin, ih (fun k hk => hg k (by omega))]
    rw [spin_step (advance s n) hh ht hs (hg n (by omega))]
    simp only [advance]
    rw [wrap32_succ]

theorem reachable_spin (n : Nat) (s : SchedulerState) (h : Reachable s) :
    Reachable (spin n s) := by
  induction n with
  | zero => exact h
  | succ n ih =>
    rw [spin, after_call_add, after_call_undo]
    exact ReachableBy.undo _ 1 (ReachableBy.add _ 1 0 1 0 3 [] ih (by decide)) (by decide)
      (by decide)

theorem wrapped_eq : wrapped = advance initial 4294967294 := by
  unfold wrapped
  apply spin_advance _ _ (by decide) (by decide) (by decide) (by decide) (by decide)
  intro k hk
  have : initial.global_event_id = 1 := by decide
  rw [this]
  unfold wrap32
  omega

theorem reachable_wrapped : Reachable wrapped := by
  unfold wrapped
  exact reachable_spin _ _ ReachableBy.init

theorem reachable_minus_one : Reachable minus_one := by
  unfold minus_one
  rw [after_call_add]
  exact ReachableBy.add _ 1 0 1 0 3 [] reachable_wrapped (by decide)

theorem reachable_orphan : Reachable orphan := by
  unfold orphan
  rw [after_call_undo]
  exact ReachableBy.undo _ 1 reachable_minus_one (by decide) (by decide)

theorem minus_one_eq :
    minus_one = after_call (advance initial 4294967294) (Call.add 1 0 1 0 3 []) := by
  unfold minus_one
  rw [wrapped_eq]

theorem orphan_eq :
    orphan = after_call (after_call (advance initial 4294967294) (Call.add 1 0 1 0 3 []))
      (Call.undo 1) := by
  unfold orphan
  rw [minus_one_eq]


/-! ## Two events with one id -/

theorem reachable_five_events : Reachable five_events :=
  ReachableBy.add _ 0 12 1 0 3 []
    (ReachableBy.add _ 0 11 1 0 3 []
      (ReachableBy.add _ 0 2 1 0 3 []
        (ReachableBy.add _ 0 10 1 0 3 []
          (ReachableBy.add initial 0 1 1 0 3 [] ReachableBy.init (by decide))
          (by decide)) (by decide)) (by decide)) (by decide)

theorem reachable_full_turn : Reachable full_turn := by
  unfold full_turn
  apply reachable_spin
  rw [after_call_add]
  exact ReachableBy.add _ 2 0 1 0 3 [] (reachable_spin _ _ reachable_five_events) (by decide)

theorem reachable_twin_ids : Reachable twin_ids := by
  unfold twin_ids
  rw [after_call_add]
  exact ReachableBy.add _ 0 3 1 0 3 [] reachable_full_turn (by decide)

theorem reachable_broken_heap : Reachable broken_heap := by
  unfold broken_heap
  rw [after_call_undo]
  exact ReachableBy.undo _ 0 reachable_twin_ids (by decide) (by decide)

theorem full_turn_eq :
    full_turn = spin 5 (after_call (advance five_events 4294967289) (Call.add 2 0 1 0 3 [])) := by
  unfold full_turn
  rw [spin_advance 4294967289 five_events (by decide) (by decide) (by decide) (by decide)
    (by decide)]
  intro k hk
  have : five_events.global_event_id = 6 := by decide
  rw [this]
  unfold wrap32
  omega

theorem twin_ids_eq :
    twin_ids = after_call (spin 5 (after_call (advance five_events 4294967289)
      (Call.add 2 0 1 0 3 []))) (Call.add 0 3 1 0 3 []) := by
  unfold twin_ids
  rw [full_turn_eq]

theorem broken_heap_eq :
    broken_heap = after_call (after_call (spin 5 (after_call (advance five_events 4294967289)
      (Call.add 2 0 1 0 3 []))) (Call.add 0 3 1 0 3 [])) (Call.undo 0) := by
  unfold broken_heap
  rw [twin_ids_eq]


theorem reachableNoOverflow_after_checkup : ReachableNoOverflow after_checkup :=
  ReachableBy.add initial 0 600 30 0 3 _ ReachableBy.init ⟨by decide, by decide⟩

theorem reachableNoOverflow_after_next : ReachableNoOverflow after_next :=
  ReachableBy.add after_checkup 0 630 30 0 3 _ reachableNoOverflow_after_checkup
    ⟨by decide, by decide⟩

/-! ## C8 -/

/-- C9 (amended). Undo removes exactly one event, in LIFO order: in every state reachable
by valid calls, none of them an `add_event` with the id counter at `INT_MAX`, in which
doctor `d` holds at least one event, there is an event `e` of `d`'s heap, the one whose
id is on top of the undo stack and is larger than every other id of the heap, such that
`undo_last(d)` leaves a heap that holds exactly the other events (the old heap is a
permutation of `e` and the new heap, so the size drops by exactly 1), an interval tree
that stores exactly the events of the new heap, and a hash map in which `e` is unlinked
from its bucket, `hash_get(d, e.id)` is `NULL` and every remaining event is still found
under its id. -/
theorem undo_removes_latest (s : SchedulerState) (hR : ReachableNoOverflow s) (d : Int)
    (hne : s.upcoming_heaps d ≠ []) :
    ∃ e : Event, e ∈ s.upcoming_heaps d ∧
      (s.undo_stacks d).head? = some e.id ∧
      hash_get s.event_hash_map d e.id = some e ∧
      (∀ x ∈ (undo_last s d).upcoming_heaps d, x.id < e.id) ∧
      (s.upcoming_heaps d).Perm (e :: (undo_last s d).upcoming_heaps d) ∧
      ((undo_last s d).upcoming_heaps d).length + 1 = (s.upcoming_heaps d).length ∧
      ((undo_last s d).interval_trees d).events.Perm ((undo_last s d).upcoming_heaps d) ∧
      (s.interval_trees d).events.Perm (e :: ((undo_last s d).interval_trees d).events) ∧
      (∀ key : Int, s.event_hash_map d key =
        if Int.tmod e.id HASH_SIZE = key then e :: (undo_last s d).event_hash_map d key
        else (undo_last s d).event_hash_map d key) ∧
      hash_get (undo_last s d).event_hash_map d e.id = none ∧
      (∀ x ∈ (undo_last s d).upcoming_heaps d,
        hash_get (undo_last s d).event_hash_map d x.id = some x) := by
  obtain ⟨hg₀, htl⟩ := histInv_of_reachableNoOverflow s hR
  obtain ⟨es, ht⟩ := htl d
  have hb := basicInv_of_reachableBy _ s hR
  have hb' := basicInv_undo_last s d hb
  rcases List.eq_nil_or_concat es with rfl | ⟨es₀, e, rfl⟩
  · exact absurd ht.1 hne
  · rw [List.concat_eq_append] at ht
    obtain ⟨hu, ht'⟩ := undo_last_timeline s d es₀ e ht (hb d).2.2.1
    have hperm := timeline_heap_perm s d _ ht
    have hperm' := timeline_heap_perm _ d _ ht'
    rw [← hu] at ht' hperm'
    have hpw := ht.2.2.2.2.1
    rw [List.pairwise_append] at hpw
    have hmid : (s.upcoming_heaps d).Perm (e :: (undo_last s d).upcoming_heaps d) :=
      hperm.trans ((List.perm_append_comm : (es₀ ++ [e]).Perm ([e] ++ es₀)).trans
        (List.Perm.cons e hperm'.symm))
    refine ⟨e, hperm.mem_iff.2 (by simp), ?_, timeline_hash_get s d _ ht e (by simp), ?_,
      hmid, ?_, (hb' d).2.1, ?_, ?_, ?_, ?_⟩
    · rw [ht.2.2.1]; simp
    · intro x hx
      exact hpw.2.2 x (hperm'.mem_iff.1 hx) e (by simp)
    · have := hmid.length_eq
      simp only [List.length_cons] at this
      omega
    · exact (hb d).2.1.trans (hmid.trans (List.Perm.cons e (hb' d).2.1.symm))
    · intro key
      rw [ht.2.2.2.1 key, ht'.2.2.2.1 key]
      by_cases hk : Int.tmod e.id HASH_SIZE = key
      · simp [List.filter_append, List.filter_cons, hk]
      · simp [List.filter_append, List.filter_cons, hk]
    · apply timeline_hash_get_none _ d es₀ ht'
      intro x hx
      exact ne_of_lt (hpw.2.2 x hx e (by simp))
    · intro x hx
      exact timeline_hash_get _ d es₀ ht' x (hperm'.mem_iff.1 hx)

/-- Witness for C9: after the appointments `[600, 630)` (id 1) and `[630, 660)` (id 2)
of doctor 0, some event of the heap is removed by `UNDO 0` and the size drops by 1. -/
theorem undo_removes_latest_witness :
    ReachableNoOverflow after_next ∧ after_next.upcoming_heaps 0 ≠ [] ∧
    ∃ e : Event, e ∈ after_next.upcoming_heaps 0 ∧
      (after_next.undo_stacks 0).head? = some e.id ∧
      (after_next.upcoming_heaps 0).Perm (e :: (undo_last after_next 0).upcoming_heaps 0) ∧
      ((undo_last after_next 0).upcoming_heaps 0).length + 1 =
        (after_next.upcoming_heaps 0).length :=
  ⟨reachableNoOverflow_after_next, by decide,
    match undo_removes_latest after_next reachableNoOverflow_after_next 0 (by decide) with
    | ⟨e, h₁, h₂, _, _, h₅, h₆, _⟩ => ⟨e, h₁, h₂, h₅, h₆⟩⟩

/-- Counterexample to C9 as stated: in the state reached by 4294967294 rounds of
`ADD 1 0 1` and `UNDO 1` followed by `ADD 1 0 1`, all valid calls, doctor 1 holds one
live event, whose id is -1. `undo_last(1)` pops that id and returns without removing
anything: the heap and the interval tree of doctor 1 are as before and the heap size is
still 1. -/
theorem undo_keeps_event_after_wrap :
    Reachable minus_one ∧
      minus_one.upcoming_heaps 1 = [⟨-1, 1, 0, 1, 1, 0, 3, []⟩] ∧
      minus_one.undo_stacks 1 = [-1] ∧
      (undo_last minus_one 1).upcoming_heaps 1 = [⟨-1, 1, 0, 1, 1, 0, 3, []⟩] ∧
      ((undo_last minus_one 1).upcoming_heaps 1).length =
        (minus_one.upcoming_heaps 1).length ∧
      (undo_last minus_one 1).interval_trees 1 = minus_one.interval_trees 1 ∧
      hash_get (undo_last minus_one 1).event_hash_map 1 (-1) =
        some ⟨-1, 1, 0, 1, 1, 0, 3, []⟩ := by
  refine ⟨reachable_minus_one, ?_⟩
  rw [minus_one_eq]
  decide


/-! ## C10 -/

/-- C10. Undo on an empty log is a no-op: for every state in which doctor `d`'s undo
stack is empty, `undo_last(d)` leaves the globals (heaps, interval trees, hash map, undo
stacks and `global_event_id`) unchanged. -/
theorem undo_last_empty_noop (s : SchedulerState) (d : Int) (h : s.undo_stacks d = []) :
    undo_last s d = s := by
  rcases undo_last_cases s d with ⟨_, he⟩ | ⟨id, rest, hs, _⟩
  · exact he
  · rw [h] at hs
    exact absurd hs (by simp)

/-- Witness for C10: doctor 1 has an empty undo stack after `ADD 0 600 30`. -/
theorem undo_last_empty_noop_witness :
    after_checkup.undo_stacks 1 = [] ∧ undo_last after_checkup 1 = after_checkup :=
  ⟨by decide, undo_last_empty_noop after_checkup 1 (by decide)⟩


/-! ## Reachability of further example states -/

theorem reachable_two_slots : Reachable two_slots :=
  ReachableBy.add _ 1 540 30 0 3 []
    (ReachableBy.add initial 1 480 30 0 3 [] ReachableBy.init (by decide)) (by decide)

theorem reachableNoOverflow_three_starts : ReachableNoOverflow three_starts :=
  ReachableBy.add _ 0 20 1 0 3 []
    (ReachableBy.add _ 0 30 1 0 3 []
      (ReachableBy.add initial 0 10 1 0 3 [] ReachableBy.init ⟨by decide, by decide⟩)
      ⟨by decide, by decide⟩)
    ⟨by decide, by decide⟩

theorem reachableNoOverflow_late_first : ReachableNoOverflow late_first :=
  ReachableBy.add _ 0 0 10 0 3 []
    (ReachableBy.add initial 0 20 10 0 3 [] ReachableBy.init ⟨by decide, by decide⟩)
    ⟨by decide, by decide⟩

theorem reachable_of_reachableNoOverflow (s : SchedulerState) (h : ReachableNoOverflow s) :
    Reachable s :=
  reachableBy_mono (fun _ _ _ _ hv => hv.1) s h

theorem reachable_far_event : Reachable far_event :=
  ReachableBy.add initial 0 200000 30 0 3 [] ReachableBy.init (by decide)

theorem reachable_one_event : Reachable one_event :=
  ReachableBy.add initial 0 1000 30 0 3 [] ReachableBy.init (by decide)

/-! ## The collision query on a coherent timeline -/

/-- In a state that satisfies the basic invariant, `check_collision` on a doctor's tree
returns `NULL` exactly when no event of the doctor's heap overlaps the query. -/
theorem check_collision_none_iff_heap (s : SchedulerState) (hb : BasicInv s) (d start end_ : Int) :
    check_collision (s.interval_trees d) start end_ = none ↔
      ∀ x ∈ s.upcoming_heaps d, ¬ Overlaps x start end_ := by
  obtain ⟨hwf, hperm, _, _⟩ := hb d
  constructor
  · intro h x hx
    exact check_collision_none _ _ _ hwf h x (hperm.mem_iff.2 hx)
  · intro h
    cases hc : check_collision (s.interval_trees d) start end_ with
    | none => rfl
    | some n =>
      obtain ⟨ev, _, _, _, _, hmem, hov⟩ := check_collision_some _ _ _ _ hc
      exact absurd hov (h ev (hperm.mem_iff.1 hmem))

/-! ## C11 -/

/-- The result of the loop of `suggest_slot` does not depend on the iteration bound once
the bound covers the lattice points from `t` up to 1200. -/
theorem suggest_slot_loop_eq (f₁ f₂ : Nat) (s : SchedulerState) (d duration dsm t : Int)
    (h₁ : 1200 - t < 15 * (f₁ : Int)) (h₂ : 1200 - t < 15 * (f₂ : Int)) :
    suggest_slot_loop f₁ s d duration dsm t = suggest_slot_loop f₂ s d duration dsm t := by
  induction f₁ generalizing f₂ t with
  | zero =>
    cases f₂ with
    | zero => rfl
    | succ f₂ =>
      simp only [suggest_slot_loop]
      rw [if_neg (by omega)]
  | succ f₁ ih =>
    cases f₂ with
    | zero =>
      simp only [suggest_slot_loop]
      rw [if_neg (by omega)]
    | succ f₂ =>
      simp only [suggest_slot_loop]
      split
      · split
        · rfl
        · exact ih f₂ (t + 15) (by push_cast at h₁; omega) (by push_cast at h₂; omega)
      · rfl

theorem suggest_slot_loop_found (s : SchedulerState) (hb : BasicInv s)
    (d duration dsm : Int) (hdur : 0 < duration) (hlo : INT_MIN ≤ dsm + 480)
    (hhi : dsm + 1200 + duration ≤ INT_MAX) (fuel k j : Nat) (hk : k + fuel = 49)
    (hkj : k ≤ j) (hj : j ≤ 48)
    (hfree : ∀ x ∈ s.upcoming_heaps d,
      ¬ Overlaps x (dsm + 480 + 15 * (j : Int)) (dsm + 480 + 15 * (j : Int) + duration))
    (hbusy : ∀ i : Nat, k ≤ i → i < j → ¬ ∀ x ∈ s.upcoming_heaps d,
      ¬ Overlaps x (dsm + 480 + 15 * (i : Int)) (dsm + 480 + 15 * (i : Int) + duration)) :
    suggest_slot_loop fuel s d duration dsm (480 + 15 * (k : Int)) =
      dsm + 480 + 15 * (j : Int) := by
  unfold INT_MIN at hlo
  unfold INT_MAX at hhi
  induction fuel generalizing k with
  | zero => omega
  | succ fuel ih =>
    have hg : wrap32 (dsm + (480 + 15 * (k : Int))) = dsm + 480 + 15 * (k : Int) := by
      rw [wrap32_of_range (by unfold INT_MIN; omega) (by unfold INT_MAX; omega)]
      ring
    have he : wrap32 (dsm + 480 + 15 * (k : Int) + duration) =
        dsm + 480 + 15 * (k : Int) + duration :=
      wrap32_of_range (by unfold INT_MIN; omega) (by unfold INT_MAX; omega)
    simp only [suggest_slot_loop]
    rw [if_pos (by omega), hg, he]
    by_cases hjk : j = k
    · subst hjk
      rw [(check_collision_none_iff_heap s hb d _ _).2 hfree]
    · have hbk := hbusy k (le_refl _) (by omega)
      cases hc : check_collision (s.interval_trees d) (dsm + 480 + 15 * (k : Int))
          (dsm + 480 + 15 * (k : Int) + duration) with
      | none => exact absurd ((check_collision_none_iff_heap s hb d _ _).1 hc) hbk
      | some n =>
        simp only []
        have := ih (k + 1) (by omega) (by omega) (fun i hi => hbusy i (by omega))
        rw [← this]
        congr 1

theorem suggest_slot_loop_none (s : SchedulerState) (hb : BasicInv s)
    (d duration dsm : Int) (hdur : 0 < duration) (hlo : INT_MIN ≤ dsm + 480)
    (hhi : dsm + 1200 + duration ≤ INT_MAX) (fuel k : Nat) (hk : k + fuel = 49)
    (hbusy : ∀ i : Nat, k ≤ i → i ≤ 48 → ¬ ∀ x ∈ s.upcoming_heaps d,
      ¬ Overlaps x (dsm + 480 + 15 * (i : Int)) (dsm + 480 + 15 * (i : Int) + duration)) :
    suggest_slot_loop fuel s d duration dsm (480 + 15 * (k : Int)) = -1 := by
  unfold INT_MIN at hlo
  unfold INT_MAX at hhi
  induction fuel generalizing k with
  | zero => rfl
  | succ fuel ih =>
    have hg : wrap32 (dsm + (480 + 15 * (k : Int))) = dsm + 480 + 15 * (k : Int) := by
      rw [wrap32_of_range (by unfold INT_MIN; omega) (by unfold INT_MAX; omega)]
      ring
    have he : wrap32 (dsm + 480 + 15 * (k : Int) + duration) =
        dsm + 480 + 15 * (k : Int) + duration :=
      wrap32_of_range (by unfold INT_MIN; omega) (by unfold INT_MAX; omega)
    simp only [suggest_slot_loop]
    rw [if_pos (by omega), hg, he]
    have hbk := hbusy k (le_refl _) (by omega)
    cases hc : check_collision (s.interval_trees d) (dsm + 480 + 15 * (k : Int))
        (dsm + 480 + 15 * (k : Int) + duration) with
    | none => exact absurd ((check_collision_none_iff_heap s hb d _ _).1 hc) hbk
    | some n =>
      simp only []
      by_cases hk48 : k = 48
      · subst hk48
        have hf : fuel = 0 := by omega
        subst hf
        rfl
      · have := ih (k + 1) (by omega) (fun i hi hi' => hbusy i (by omega) hi')
        rw [← this]
        congr 1

theorem suggest_slot_loop_free (fuel : Nat) (s : SchedulerState)
    (d duration dsm t : Int) :
    suggest_slot_loop fuel s d duration dsm t = -1 ∨
      check_collision (s.interval_trees d) (suggest_slot_loop fuel s d duration dsm t)
        (wrap32 (suggest_slot_loop fuel s d duration dsm t + duration)) = none := by
  induction fuel generalizing t with
  | zero => exact Or.inl rfl
  | succ fuel ih =>
    simp only [suggest_slot_loop]
    split
    · split
      · rename_i hc
        exact Or.inr hc
      · exact ih _
    · exact Or.inl rfl

/-- C12. Suggest safety: for every state, doctor `d`, `duration` and `day_start_mins`,
if `suggest_slot(d, duration, day_start_mins)` returns `t ≠ -1`, then
`add_event(d, t, duration, ...)` executed in the same state does not return 1; it
returns 0 or 2. -/
theorem suggest_slot_safe (s : SchedulerState) (d duration day_start_mins : Int)
    (type break_type : Int) (desc : List Char)
    (h : suggest_slot s d duration day_start_mins ≠ -1) :
    (add_event s d (suggest_slot s d duration day_start_mins) duration type break_type
      desc).ret ≠ 1 ∧
    ((add_event s d (suggest_slot s d duration day_start_mins) duration type break_type
      desc).ret = 0 ∨
     (add_event s d (suggest_slot s d duration day_start_mins) duration type break_type
      desc).ret = 2) := by
  have hfree : check_collision (s.interval_trees d) (suggest_slot s d duration day_start_mins)
      (wrap32 (suggest_slot s d duration day_start_mins + duration)) = none := by
    rcases suggest_slot_loop_free 49 s d duration day_start_mins 480 with h' | h'
    · exact absurd h' h
    · exact h'
  rcases add_event_cases s d (suggest_slot s d duration day_start_mins) duration type
    break_type desc with ⟨_, he⟩ | ⟨_, _, he⟩ | ⟨_, _, _, _, _, _, hc, _⟩ | ⟨_, _, _, he⟩
  · rw [he]; simp
  · rw [he]; simp
  · rw [hfree] at hc; simp at hc
  · rw [he]; simp

/-- Witness for C12: the slot 510 suggested for doctor 1 holding `[480, 510)` and
`[540, 570)` is accepted. -/
theorem suggest_slot_safe_witness :
    suggest_slot two_slots 1 30 0 ≠ -1 ∧
      (add_event two_slots 1 (suggest_slot two_slots 1 30 0) 30 0 3 []).ret ≠ 1 :=
  ⟨by decide, (suggest_slot_safe two_slots 1 30 0 0 3 [] (by decide)).1⟩


/-! ## A doctor with many events -/

/-- The states `fill j`: doctor 0 holds `j` one-minute events, one per day, and doctor 1
is untouched. -/
theorem fill_spec (j : Nat) (hj : j ≤ 1000) :
    ReachableNoOverflow (fill j) ∧ (fill j).global_event_id = (j : Int) + 1 ∧
      ((fill j).upcoming_heaps 0).length = j ∧
      (∀ x ∈ (fill j).upcoming_heaps 0, ∃ i : Nat, i < j ∧
        x.start_time = 1440 * (i : Int) ∧ x.end_time = x.start_time + 1) ∧
      (fill j).upcoming_heaps 1 = [] ∧ (fill j).interval_trees 1 = ITNode.null := by
  induction j with
  | zero =>
    refine ⟨ReachableBy.init, by decide, by decide, ?_, by decide, by decide⟩
    intro x hx
    have : initial.upcoming_heaps 0 = [] := by decide
    simp [fill, this] at hx
  | succ j ih =>
    obtain ⟨hR, hg, hlen, hev, h₁, ht₁⟩ := ih (by omega)
    have hv : ValidArgs 0 (1440 * (j : Int)) 1 := by
      unfold ValidArgs MAX_DOCTORS INT_MAX
      omega
    have hgi : (fill j).global_event_id < INT_MAX := by
      rw [hg]; unfold INT_MAX; omega
    have hb := basicInv_of_reachableBy _ _ hR
    have hend : wrap32 (1440 * (j : Int) + 1) = 1440 * (j : Int) + 1 :=
      wrap32_of_range (by unfold INT_MIN; omega) (by unfold INT_MAX; omega)
    have hR' : ReachableNoOverflow (fill (j + 1)) :=
      ReachableBy.add (fill j) 0 (1440 * (j : Int)) 1 0 3 [] hR ⟨hv, hgi⟩
    have hstate : fill (j + 1) =
        added (fill j) 0 (new_event (fill j) 0 (1440 * (j : Int)) 1 0 3 []) := by
      show (add_event (fill j) 0 (1440 * (j : Int)) 1 0 3 []).state = _
      rcases add_event_cases (fill j) 0 (1440 * (j : Int)) 1 0 3 [] with
        ⟨h, _⟩ | ⟨_, h, _⟩ | ⟨_, _, ev, mx, l, r, hc, _⟩ | ⟨_, _, _, he⟩
      · exfalso
        rw [hlen] at h
        unfold MAX_EVENTS_TOTAL at h
        omega
      · exfalso
        have hcount : count_events_on_day (fill j) 0 (day_start_of (1440 * (j : Int)))
            (day_end_of (1440 * (j : Int))) = 0 := by
          rw [count_events_on_day_eq _ _ _ (by omega) (by unfold LAST_DAY_START; omega)]
          unfold count_on_day
          rw [List.countP_eq_zero]
          intro x hx
          obtain ⟨i, hi, hs, _⟩ := hev x hx
          simp only [decide_eq_true_eq]
          omega
        rw [hcount] at h
        unfold MAX_EVENTS_DAILY_LIMIT at h
        omega
      · exfalso
        rw [hend] at hc
        obtain ⟨ev', _, _, _, _, hmem, hov⟩ := check_collision_some _ _ _ _ hc
        obtain ⟨i, hi, hs, he⟩ := hev ev' ((hb 0).2.1.mem_iff.1 hmem)
        unfold Overlaps at hov
        omega
      · rw [he]
    have hlen' : ((fill j).upcoming_heaps 0).length < MAX_EVENTS_TOTAL := by
      rw [hlen]; unfold MAX_EVENTS_TOTAL; omega
    refine ⟨hR', ?_, ?_, ?_, ?_, ?_⟩
    · rw [hstate]
      simp only [added]
      rw [hg, wrap32_of_range (by unfold INT_MIN; omega) (by unfold INT_MAX; omega)]
      push_cast
      ring
    · rw [hstate]
      simp only [added, Function.update_same]
      rw [heap_insert_length _ _ hlen', hlen]
    · intro x hx
      rw [hstate] at hx
      simp only [added, Function.update_same] at hx
      rcases List.mem_cons.1 ((heap_insert_perm _ _ hlen').mem_iff.1 hx) with rfl | hx
      · exact ⟨j, by omega, rfl, hend⟩
      · obtain ⟨i, hi, hs, he⟩ := hev x hx
        exact ⟨i, by omega, hs, he⟩
    · rw [hstate]
      simp only [added, Function.update_noteq (show (1 : Int) ≠ 0 by decide)]
      exact h₁
    · rw [hstate]
      simp only [added, Function.update_noteq (show (1 : Int) ≠ 0 by decide)]
      exact ht₁

theorem overfull_eq : overfull = (add_event (fill 1000) 1 0 1 0 3 []).state := by
  unfold overfull
  rw [after_call_add]

theorem overfull_spec :
    ReachableNoOverflow overfull ∧ (overfull.upcoming_heaps 0).length = 1000 ∧
      (overfull.upcoming_heaps 1).length = 1 := by
  obtain ⟨hR, hg, hlen, _, h₁, ht₁⟩ := fill_spec 1000 (le_refl _)
  have hv : ValidArgs 1 0 1 := by decide
  have hgi : (fill 1000).global_event_id < INT_MAX := by
    rw [hg]; unfold INT_MAX; omega
  have hstate : overfull = added (fill 1000) 1 (new_event (fill 1000) 1 0 1 0 3 []) := by
    rw [overfull_eq]
    rcases add_event_cases (fill 1000) 1 0 1 0 3 [] with
      ⟨h, _⟩ | ⟨_, h, _⟩ | ⟨_, _, ev, mx, l, r, hc, _⟩ | ⟨_, _, _, he⟩
    · exfalso
      rw [h₁] at h
      simp [MAX_EVENTS_TOTAL] at h
    · exfalso
      unfold count_events_on_day at h
      rw [h₁] at h
      simp [MAX_EVENTS_DAILY_LIMIT] at h
    · exfalso
      rw [ht₁] at hc
      simp [check_collision] at hc
    · rw [he]
  refine ⟨?_, ?_, ?_⟩
  · rw [overfull_eq]
    exact ReachableBy.add (fill 1000) 1 0 1 0 3 [] hR ⟨hv, hgi⟩
  · rw [hstate]
    simp only [added, Function.update_noteq (show (0 : Int) ≠ 1 by decide)]
    exact hlen
  · rw [hstate]
    simp only [added, Function.update_same]
    rw [heap_insert_length _ _ (by rw [h₁]; simp [MAX_EVENTS_TOTAL]), h₁]
    rfl

theorem total_events_ge (s : SchedulerState) :
    (s.upcoming_heaps 0).length + (s.upcoming_heaps 1).length ≤ total_events s := by
  unfold total_events
  have hr : List.range 100 = 0 :: 1 :: List.range' 2 98 := by decide
  rw [hr]
  simp only [List.map_cons, List.sum_cons, Nat.cast_zero, Nat.cast_one]
  omega


/-! ## The heap property in reachable states -/

theorem heapOrdered_root_le (h : List Event) (ho : HeapOrdered h) (i : Nat)
    (hi : i < h.length) : start_at h 0 ≤ start_at h i := by
  induction i using Nat.strong_induction_on with
  | _ i ih =>
    by_cases h₀ : i = 0
    · subst h₀; exact le_refl _
    · have hp := ih ((i - 1) / 2) (by omega) (by omega)
      have := ho i (by omega) hi
      omega

theorem start_at_of_getElem? (h : List Event) (i : Nat) (e : Event) (he : h[i]? = some e) :
    start_at h i = e.start_time := by
  unfold start_at
  rw [List.getD_eq_getElem?_getD, he]
  rfl

theorem heapOrdered_of_reachableNoOverflow (s : SchedulerState) (hR : ReachableNoOverflow s)
    (d : Int) : HeapOrdered (s.upcoming_heaps d) := by
  obtain ⟨_, htl⟩ := histInv_of_reachableNoOverflow s hR
  obtain ⟨es, ht⟩ := htl d
  rw [ht.1]
  exact (build_heap_spec es ht.2.1).2

theorem heapOrdered_parent_le (h : List Event) (ho : HeapOrdered h) (i : Nat) (a b : Event)
    (hi : 1 ≤ i) (ha : h[(i - 1) / 2]? = some a) (hb : h[i]? = some b) :
    a.start_time ≤ b.start_time := by
  have hlt : i < h.length := (List.getElem?_eq_some.1 hb).1
  have := ho i (by omega) hlt
  rwa [start_at_of_getElem? h _ a ha, start_at_of_getElem? h _ b hb] at this

theorem heapOrdered_first_min (h : List Event) (ho : HeapOrdered h) (e : Event)
    (he : h[0]? = some e) : e ∈ h ∧ ∀ x ∈ h, e.start_time ≤ x.start_time := by
  have he' := List.getElem?_eq_some.1 he
  refine ⟨he'.2 ▸ List.getElem_mem _, ?_⟩
  intro x hx
  obtain ⟨i, hi, hxi⟩ := List.getElem_of_mem hx
  have := heapOrdered_root_le h ho i hi
  rw [start_at_of_getElem? h 0 e he,
    start_at_of_getElem? h i x (by rw [List.getElem?_eq_getElem hi, hxi])] at this
  exact this

/-! ## C13 -/

theorem entry_text_length_ge (e : Event) : 60 ≤ (entry_text e).length := by
  unfold entry_text
  simp only [List.length_append]
  have h₁ : "\x7b\"id\":".toList.length = 6 := by decide
  have h₂ : ", \"start\":".toList.length = 10 := by decide
  have h₃ : ", \"duration\":".toList.length = 13 := by decide
  have h₄ : ", \"type\":".toList.length = 9 := by decide
  have h₅ : ", \"break\":".toList.length = 10 := by decide
  have h₆ : ", \"desc\":\"".toList.length = 10 := by decide
  have h₇ : "\"\x7d".toList.length = 2 := by decide
  omega

theorem json_entries_length_ge (h : List Event) : 60 * h.length ≤ (json_entries h).length := by
  induction h with
  | nil => simp [json_entries]
  | cons e es ih =>
    cases es with
    | nil =>
      have := entry_text_length_ge e
      simpa [json_entries] using this
    | cons e' es =>
      have := entry_text_length_ge e
      simp only [json_entries, List.length_append, List.length_cons] at ih ⊢
      omega

/-- The text of a heap array with 69 events or more does not fit `json_buffer`. -/
theorem not_json_fits_of_length (h : List Event) (hlen : 69 ≤ h.length) : ¬ json_fits h := by
  intro hfit
  have h₁ := hfit.2
  have h₂ := json_entries_length_ge h
  simp only [json_text, List.length_cons, List.length_append, List.length_nil] at h₁
  omega

/-- C13 (amended). Ordered view: in every state reachable by valid `add_event` and
`undo_last` calls, none of them an `add_event` with the id counter at `INT_MAX`, and for
every doctor `d` whose text fits the buffers (every entry in `entry[256]`, the whole text
in `json_buffer[4096]`), `get_events_json(d)` returns the text made of the entries of the
heap array positions `0 .. size-1`, in array order. That array satisfies the min-heap
property, the event emitted at position `i ≥ 1` starts no earlier than the one emitted at
position `(i-1)/2`, so the first emitted event has the smallest `start_time`; the
sequence as a whole need not be ascending. -/
theorem get_events_json_heap_order (s : SchedulerState) (hR : ReachableNoOverflow s)
    (d : Int) (hfit : json_fits (s.upcoming_heaps d)) :
    get_events_json s d = some (json_text (s.upcoming_heaps d)) ∧
    (∀ (i : Nat) (a b : Event), 1 ≤ i → (s.upcoming_heaps d)[(i - 1) / 2]? = some a →
      (s.upcoming_heaps d)[i]? = some b → a.start_time ≤ b.start_time) ∧
    (∀ e : Event, (s.upcoming_heaps d)[0]? = some e →
      ∀ x ∈ s.upcoming_heaps d, e.start_time ≤ x.start_time) := by
  have ho := heapOrdered_of_reachableNoOverflow s hR d
  refine ⟨by unfold get_events_json; rw [if_pos hfit], ?_, ?_⟩
  · intro i a b hi ha hb
    exact heapOrdered_parent_le _ ho i a b hi ha hb
  · intro e he x hx
    exact (heapOrdered_first_min _ ho e he).2 x hx

set_option maxRecDepth 100000 in
/-- Witness for C13 (amended): the appointments starting at 10, 30 and 20 are emitted
in the order 10, 30, 20; the first has the smallest start. -/
theorem get_events_json_heap_order_witness :
    ReachableNoOverflow three_starts ∧ json_fits (three_starts.upcoming_heaps 0) ∧
      get_events_json three_starts 0 = some (json_text (three_starts.upcoming_heaps 0)) ∧
      (three_starts.upcoming_heaps 0)[0]? = some ⟨1, 0, 10, 1, 11, 0, 3, []⟩ ∧
      ∀ x ∈ three_starts.upcoming_heaps 0, (10 : Int) ≤ x.start_time :=
  ⟨reachableNoOverflow_three_starts, by decide,
    (get_events_json_heap_order three_starts reachableNoOverflow_three_starts 0
      (by decide)).1,
    by decide,
    (get_events_json_heap_order three_starts reachableNoOverflow_three_starts 0
      (by decide)).2.2 ⟨1, 0, 10, 1, 11, 0, 3, []⟩ (by decide)⟩

set_option maxRecDepth 100000 in
/-- Counterexample to C13 as stated. After the valid calls `ADD 0 10 1`, `ADD 0 30 1`,
`ADD 0 20 1` the text holds the entries with the starts 10, 30, 20 in this order: the
second event starts after the third. And after 100 valid calls that each add one
appointment of doctor 0 (one per day), the text no longer fits `json_buffer`: the source
writes past the end of the buffer and emits no well-defined sequence. -/
theorem get_events_json_not_sorted :
    Reachable three_starts ∧
      get_events_json three_starts 0 = some
        ("[\x7b\"id\":1, \"start\":10, \"duration\":1, \"type\":0, \"break\":3, \"desc\":\"\"\x7d," ++
          "\x7b\"id\":2, \"start\":30, \"duration\":1, \"type\":0, \"break\":3, \"desc\":\"\"\x7d," ++
          "\x7b\"id\":3, \"start\":20, \"duration\":1, \"type\":0, \"break\":3, \"desc\":\"\"\x7d]").toList ∧
      (three_starts.upcoming_heaps 0).map Event.start_time = [10, 30, 20] ∧
      ¬ ((30 : Int) ≤ 20) ∧
      Reachable (fill 100) ∧ ((fill 100).upcoming_heaps 0).length = 100 ∧
      get_events_json (fill 100) 0 = none := by
  obtain ⟨hR, _, hlen, _⟩ := fill_spec 100 (by decide)
  refine ⟨reachable_of_reachableNoOverflow _ reachableNoOverflow_three_starts, by decide,
    by decide, by decide, reachable_of_reachableNoOverflow _ hR, hlen, ?_⟩
  unfold get_events_json
  rw [if_neg]
  exact not_json_fits_of_length _ (by rw [hlen]; decide)


/-! ## C14 -/

theorem time_step_foldl (cur : Int) (l : List Event) (acc : Int × Bool)
    (hnov : ∀ e ∈ l, INT_MIN ≤ e.start_time - cur ∧ e.start_time - cur ≤ INT_MAX) :
    (l.foldl (time_step cur) acc).1 ≤ acc.1 ∧
    (∀ e ∈ l, 0 ≤ e.start_time - cur → (l.foldl (time_step cur) acc).1 ≤ e.start_time - cur) ∧
    (l.foldl (time_step cur) acc = acc ∨
      ((l.foldl (time_step cur) acc).2 = true ∧
        (l.foldl (time_step cur) acc).1 < acc.1 ∧
        ∃ e ∈ l, (l.foldl (time_step cur) acc).1 = e.start_time - cur ∧
          0 ≤ e.start_time - cur)) ∧
    (acc.2 = true → (l.foldl (time_step cur) acc).2 = true) ∧
    ((∃ e ∈ l, 0 ≤ e.start_time - cur ∧ e.start_time - cur < acc.1) →
      (l.foldl (time_step cur) acc).2 = true) := by
  induction l generalizing acc with
  | nil => simp
  | cons x xs ih =>
    have hx := hnov x (List.mem_cons_self _ _)
    have hw : wrap32 (x.start_time - cur) = x.start_time - cur :=
      wrap32_of_range hx.1 hx.2
    obtain ⟨ih₁, ih₂, ih₃, ih₄, ih₅⟩ :=
      ih (time_step cur acc x) (fun e he => hnov e (List.mem_cons_of_mem _ he))
    simp only [List.foldl_cons]
    by_cases hc : x.start_time - cur ≥ 0 ∧ x.start_time - cur < acc.1
    · have hst : time_step cur acc x = (x.start_time - cur, true) := by
        simp only [time_step, hw, hc, and_self, if_true]
      rw [hst] at ih₁ ih₂ ih₃ ih₄ ih₅ ⊢
      simp only at ih₁ ih₄
      have hfound := ih₄ trivial
      refine ⟨by omega, ?_, Or.inr ⟨hfound, by omega, ?_⟩, fun _ => hfound, fun _ => hfound⟩
      · intro e he hpos
        rcases List.mem_cons.1 he with rfl | he
        · exact ih₁
        · exact ih₂ e he hpos
      · rcases ih₃ with h | ⟨_, _, e, he, h₁, h₂⟩
        · exact ⟨x, List.mem_cons_self _ _, by rw [h], hc.1⟩
        · exact ⟨e, List.mem_cons_of_mem _ he, h₁, h₂⟩
    · have hst : time_step cur acc x = acc := by
        simp only [time_step, hw, hc, if_false]
      rw [hst] at ih₁ ih₂ ih₃ ih₄ ih₅ ⊢
      refine ⟨ih₁, ?_, ?_, ih₄, ?_⟩
      · intro e he hpos
        rcases List.mem_cons.1 he with rfl | he
        · have : ¬ e.start_time - cur < acc.1 := fun h => hc ⟨hpos, h⟩
          omega
        · exact ih₂ e he hpos
      · rcases ih₃ with h | ⟨hf, hlt, e, he, h₁, h₂⟩
        · exact Or.inl h
        · exact Or.inr ⟨hf, hlt, e, List.mem_cons_of_mem _ he, h₁, h₂⟩
      · rintro ⟨e, he, h₁, h₂⟩
        rcases List.mem_cons.1 he with rfl | he
        · exact absurd ⟨h₁, h₂⟩ hc
        · exact ih₅ ⟨e, he, h₁, h₂⟩

/-- What `get_time_to_next_event` computes: with no `int` overflow in the subtractions,
the result is the minimum of `e.start_time - current_time_mins` over the events of the
heap that start at or after `current_time_mins` and less than 100000 minutes after it,
and -1 when the heap holds no such event. Events 100000 minutes or more ahead are not
seen, because `min_diff` starts at 100000. -/
theorem get_time_to_next_event_horizon (s : SchedulerState) (d cur : Int)
    (hnov : ∀ e ∈ s.upcoming_heaps d,
      INT_MIN ≤ e.start_time - cur ∧ e.start_time - cur ≤ INT_MAX) :
    ((∃ e ∈ s.upcoming_heaps d, cur ≤ e.start_time ∧ e.start_time - cur < 100000) →
      (∃ e ∈ s.upcoming_heaps d, cur ≤ e.start_time ∧
        get_time_to_next_event s d cur = e.start_time - cur) ∧
      (∀ e ∈ s.upcoming_heaps d, cur ≤ e.start_time →
        get_time_to_next_event s d cur ≤ e.start_time - cur)) ∧
    ((¬ ∃ e ∈ s.upcoming_heaps d, cur ≤ e.start_time ∧ e.start_time - cur < 100000) →
      get_time_to_next_event s d cur = -1) := by
  obtain ⟨_, h₂, h₃, _, h₅⟩ := time_step_foldl cur (s.upcoming_heaps d) (100000, false) hnov
  constructor
  · rintro ⟨e, he, hge, hlt⟩
    have hne : ¬ (s.upcoming_heaps d).length = 0 := by
      intro h0
      rw [List.length_eq_zero] at h0
      rw [h0] at he
      simp at he
    have hf := h₅ ⟨e, he, by omega, hlt⟩
    have hres : get_time_to_next_event s d cur =
        ((s.upcoming_heaps d).foldl (time_step cur) (100000, false)).1 := by
      simp only [get_time_to_next_event, if_neg hne, hf]
      simp
    rw [hres]
    refine ⟨?_, fun e' he' hge' => h₂ e' he' (by omega)⟩
    rcases h₃ with h | ⟨_, _, e', he', h₁, h₂'⟩
    · rw [h] at hf; simp at hf
    · exact ⟨e', he', by omega, h₁⟩
  · intro hno
    by_cases hlen : (s.upcoming_heaps d).length = 0
    · simp only [get_time_to_next_event, if_pos hlen]
    · simp only [get_time_to_next_event, if_neg hlen]
      rcases h₃ with h | ⟨_, hlt, e', he', h₁, h₂'⟩
      · rw [h]; simp
      · exfalso
        simp only at hlt
        exact hno ⟨e', he', by omega, by omega⟩

/-- C14, the code at the failing input: doctor 0 holds the single appointment
`[200000, 200030)`, reached by one valid call; there is no overflow in
`200000 - 0`, the event starts after `current_time_mins = 0`, the minimum of
`start_time - current_time_mins` is 200000, and `get_time_to_next_event(0, 0)`
returns -1. The examples of the claim hold: a single event at 1000 queried at 950 gives
50, queried at 1000 gives 0, and no events gives -1. -/
theorem get_time_to_next_event_misses_far_event :
    Reachable far_event ∧
      far_event.upcoming_heaps 0 = [⟨1, 0, 200000, 30, 200030, 0, 3, []⟩] ∧
      get_time_to_next_event far_event 0 0 = -1 ∧
      get_time_to_next_event one_event 0 950 = 50 ∧
      get_time_to_next_event one_event 0 1000 = 0 ∧
      get_time_to_next_event initial 0 0 = -1 :=
  ⟨reachable_far_event, by decide, by decide, by decide, by decide, by decide⟩


/-! ## Coherence of the indices -/

theorem ids_unique (es : List Event) (hpw : es.Pairwise (fun a b => a.id < b.id))
    (x y : Event) (hx : x ∈ es) (hy : y ∈ es) (hxy : y.id = x.id) : y = x := by
  by_contra hne
  have := List.Pairwise.forall_of_forall_of_flip (R := fun a b : Event => a ≠ b → a.id ≠ b.id)
    (fun a _ h => absurd rfl h)
    (hpw.imp (fun {a b} (h : a.id < b.id) _ => ne_of_lt h))
    (hpw.imp (fun {a b} (h : a.id < b.id) _ => ne_of_gt h))
    hy hx hne
  exact this hxy

theorem coherent_hash_get (s : SchedulerState) (d : Int) (es : List Event)
    (hc : Coherent s d es) (x : Event) (hx : x ∈ es) :
    hash_get s.event_hash_map d x.id = some x := by
  unfold hash_get
  simp only []
  rw [hc.2.2.1]
  apply chain_get_of_unique
  · simp [hx]
  · intro y hy hyx
    simp only [List.mem_reverse, List.mem_filter] at hy
    exact ids_unique es hc.2.2.2.1 x y hx hy.1 hyx

theorem coherent_hash_get_none (s : SchedulerState) (d : Int) (es : List Event)
    (hc : Coherent s d es) (id : Int) (hid : ∀ x ∈ es, x.id ≠ id) :
    hash_get s.event_hash_map d id = none := by
  unfold hash_get
  simp only []
  rw [hc.2.2.1]
  apply chain_get_none
  intro y hy
  simp only [List.mem_reverse, List.mem_filter] at hy
  exact hid y hy.1

theorem cohInv_initial : CohInv initial := by
  refine ⟨by decide, fun d => ⟨[], ?_⟩⟩
  refine ⟨?_, ?_, ?_, List.Pairwise.nil, by simp⟩
  · simp [initial, init_scheduler, static_init]
  · simp [initial, init_scheduler, static_init]
  · intro key
    simp [initial, init_scheduler, static_init]

theorem coherent_added_same (s : SchedulerState) (d : Int) (e : Event) (es : List Event)
    (hc : Coherent s d es) (hg₀ : 1 ≤ s.global_event_id)
    (hg₁ : s.global_event_id < INT_MAX) (hid : e.id = s.global_event_id)
    (hed : e.doctor_id = d) (hlen : (s.upcoming_heaps d).length < MAX_EVENTS_TOTAL) :
    Coherent (added s d e) d (es ++ [e]) := by
  obtain ⟨hperm, hstack, hhash, hpw, hprops⟩ := hc
  have hgid : wrap32 (s.global_event_id + 1) = s.global_event_id + 1 :=
    wrap32_of_range (by unfold INT_MIN; omega) (by omega)
  refine ⟨?_, ?_, ?_, ?_, ?_⟩
  · simp only [added, Function.update_same]
    exact (heap_insert_perm _ _ hlen).trans ((List.Perm.cons e hperm).trans
      (List.perm_append_comm : ([e] ++ es).Perm (es ++ [e])))
  · simp only [added, stack_push, Function.update_same, hstack]
    simp
  · intro key
    simp only [added, hash_insert]
    rw [hed, Function.update_same]
    by_cases hk : key = Int.tmod e.id HASH_SIZE
    · subst hk
      rw [Function.update_same, hhash]
      simp [List.filter_append, List.filter_cons]
    · rw [Function.update_noteq hk, hhash]
      have : ¬ (Int.tmod e.id HASH_SIZE = key) := fun h => hk h.symm
      simp [List.filter_append, List.filter_cons, this]
  · rw [List.pairwise_append]
    refine ⟨hpw, by simp, ?_⟩
    intro a ha b hb
    simp only [List.mem_singleton] at hb
    subst hb
    rw [hid]
    exact (hprops a ha).2
  · intro x hx
    simp only [added]
    rw [hgid]
    rcases List.mem_append.1 hx with hx | hx
    · have := hprops x hx
      exact ⟨this.1, by omega⟩
    · simp only [List.mem_singleton] at hx
      subst hx
      rw [hid]
      exact ⟨hg₀, by omega⟩

theorem coherent_added_other (s : SchedulerState) (d d' : Int) (e : Event)
    (es : List Event) (hc : Coherent s d' es) (hd : d' ≠ d) (hed : e.doctor_id = d)
    (hg₁ : s.global_event_id < INT_MAX) (hg₀ : 1 ≤ s.global_event_id) :
    Coherent (added s d e) d' es := by
  obtain ⟨hperm, hstack, hhash, hpw, hprops⟩ := hc
  have hgid : wrap32 (s.global_event_id + 1) = s.global_event_id + 1 :=
    wrap32_of_range (by unfold INT_MIN; omega) (by omega)
  refine ⟨?_, ?_, ?_, hpw, ?_⟩
  · simp only [added, Function.update_noteq hd]; exact hperm
  · simp only [added, stack_push, Function.update_noteq hd]; exact hstack
  · intro key
    simp only [added, hash_insert, hed, Function.update_noteq hd]
    exact hhash key
  · intro x hx
    simp only [added]
    rw [hgid]
    have := hprops x hx
    exact ⟨this.1, by omega⟩

theorem cohInv_add_event (s : SchedulerState) (d start duration type break_type : Int)
    (desc : List Char) (h : CohInv s) (hg₁ : s.global_event_id < INT_MAX) :
    CohInv (add_event s d start duration type break_type desc).state := by
  rcases add_event_cases s d start duration type break_type desc with
    ⟨_, he⟩ | ⟨_, _, he⟩ | ⟨_, _, _, _, _, _, _, he⟩ | ⟨hlen, _, _, he⟩
  · rw [he]; exact h
  · rw [he]; exact h
  · rw [he]; exact h
  · rw [he]
    obtain ⟨hg₀, hco⟩ := h
    refine ⟨?_, ?_⟩
    · simp only [added]
      rw [wrap32_of_range (by unfold INT_MIN; omega) (by omega)]
      omega
    · intro d'
      obtain ⟨es, hc⟩ := hco d'
      by_cases hd : d' = d
      · subst hd
        exact ⟨_, coherent_added_same s d' _ es hc hg₀ hg₁ rfl rfl hlen⟩
      · exact ⟨es, coherent_added_other s d d' _ es hc hd rfl hg₁ hg₀⟩

/-- On coherent indices that hold at least one event, `undo_last` takes the `undone`
path for the id of the event added last and leaves coherent indices for the other
events. -/
theorem undo_last_coherent (s : SchedulerState) (d : Int) (es : List Event) (e : Event)
    (hc : Coherent s d (es ++ [e])) :
    undo_last s d = undone s d e.id (es.map Event.id).reverse ∧
      Coherent (undone s d e.id (es.map Event.id).reverse) d es := by
  have hget := coherent_hash_get s d _ hc e (by simp)
  obtain ⟨hperm, hstack, hhash, hpw, hprops⟩ := hc
  have hstack' : s.undo_stacks d = e.id :: (es.map Event.id).reverse := by
    rw [hstack]; simp
  have he := hprops e (by simp)
  have hundo := undo_last_found s d e.id _ e hstack' (by omega) hget
  refine ⟨hundo, ?_⟩
  have hpw' := hpw
  rw [List.pairwise_append] at hpw
  obtain ⟨hpw₁, _, hpw₂⟩ := hpw
  have hmem : e ∈ s.upcoming_heaps d := hperm.mem_iff.2 (by simp)
  have hfound : (s.upcoming_heaps d).findIdx (fun x => decide (x.id = e.id)) <
      (s.upcoming_heaps d).length :=
    List.findIdx_lt_length.2 ⟨e, hmem, by simp⟩
  have hrem := heap_remove_perm (s.upcoming_heaps d) e.id hfound
  have hx : (s.upcoming_heaps d).getD
      ((s.upcoming_heaps d).findIdx (fun x => decide (x.id = e.id))) default = e := by
    have hin := getD_mem (s.upcoming_heaps d) _ default hfound
    have hp : ((s.upcoming_heaps d).getD
        ((s.upcoming_heaps d).findIdx (fun x => decide (x.id = e.id))) default).id = e.id := by
      rw [List.getD_eq_getElem _ _ hfound]
      have := @List.findIdx_getElem _ (fun x : Event => decide (x.id = e.id))
        (s.upcoming_heaps d) hfound
      simpa using this
    exact ids_unique (es ++ [e]) hpw' e _ (by simp) (hperm.mem_iff.1 hin) hp
  rw [hx] at hrem
  have hheap' : (heap_remove (s.upcoming_heaps d) e.id).Perm es :=
    List.Perm.cons_inv (hrem.trans (hperm.trans
      (List.perm_append_comm : (es ++ [e]).Perm ([e] ++ es))))
  refine ⟨?_, ?_, ?_, hpw₁, ?_⟩
  · simp only [undone, Function.update_same]
    exact hheap'
  · simp only [undone, Function.update_same]
  · intro key
    simp only [undone, hash_remove, Function.update_same]
    by_cases hk : key = Int.tmod e.id HASH_SIZE
    · subst hk
      rw [Function.update_same, hhash]
      simp [List.filter_append, List.filter_cons, chain_remove]
    · rw [Function.update_noteq hk, hhash]
      have : ¬ (Int.tmod e.id HASH_SIZE = key) := fun h => hk h.symm
      simp [List.filter_append, List.filter_cons, this]
  · intro x hx
    exact hprops x (List.mem_append_left _ hx)

theorem coherent_undone_other (s : SchedulerState) (d d' id : Int) (rest : List Int)
    (es : List Event) (hc : Coherent s d' es) (hd : d' ≠ d) :
    Coherent (undone s d id rest) d' es := by
  obtain ⟨hperm, hstack, hhash, hpw, hprops⟩ := hc
  refine ⟨?_, ?_, ?_, hpw, hprops⟩
  · simp only [undone, Function.update_noteq hd]; exact hperm
  · simp only [undone, Function.update_noteq hd]; exact hstack
  · intro key
    simp only [undone, hash_remove, Function.update_noteq hd]
    exact hhash key

theorem cohInv_undo_last (s : SchedulerState) (d : Int) (h : CohInv s) :
    CohInv (undo_last s d) := by
  obtain ⟨hg₀, hco⟩ := h
  obtain ⟨es, hc⟩ := hco d
  rcases List.eq_nil_or_concat es with rfl | ⟨es₀, e, rfl⟩
  · have : s.undo_stacks d = [] := by rw [hc.2.1]; rfl
    rcases undo_last_cases s d with ⟨_, he⟩ | ⟨id, rest, hs, _⟩
    · rw [he]; exact ⟨hg₀, hco⟩
    · rw [this] at hs; exact absurd hs (by simp)
  · rw [List.concat_eq_append] at hc
    obtain ⟨hu, hc'⟩ := undo_last_coherent s d es₀ e hc
    rw [hu]
    refine ⟨hg₀, fun d' => ?_⟩
    by_cases hd : d' = d
    · subst hd; exact ⟨es₀, hc'⟩
    · obtain ⟨es', hc''⟩ := hco d'
      exact ⟨es', coherent_undone_other s d d' _ _ es' hc'' hd⟩

theorem cohInv_of_reachableAnyNoOverflow (s : SchedulerState)
    (h : ReachableAnyNoOverflow s) : CohInv s := by
  induction h with
  | init => exact cohInv_initial
  | add s d start duration type break_type desc _ hv ih =>
    exact cohInv_add_event s d start duration type break_type desc ih hv.2.2
  | undo s d _ _ _ ih => exact cohInv_undo_last s d ih

/-! ## C15 -/

/-- C15 (amended). Index coherence: in every state reachable from the initial state by
`add_event` and `undo_last` calls on doctors in range, none of them an `add_event` with
the id counter at `INT_MAX`, for each doctor `d` the heap array holds no event twice and
no id twice, the nodes of the interval tree store exactly the events of the heap, bucket
`key` of the hash map links exactly the events of the heap whose id has remainder `key`,
`hash_get(d, id)` returns the event with that id for every event of the heap and `NULL`
for every other id, and the undo stack lists exactly the ids of the heap's events, each
once, in decreasing order from the top (the most recently added first). -/
theorem index_coherence (s : SchedulerState) (hR : ReachableAnyNoOverflow s) (d : Int) :
    (s.upcoming_heaps d).Nodup ∧
    ((s.upcoming_heaps d).map Event.id).Nodup ∧
    (s.interval_trees d).events.Perm (s.upcoming_heaps d) ∧
    (∀ key : Int, (s.event_hash_map d key).Perm
      ((s.upcoming_heaps d).filter (fun e => decide (Int.tmod e.id HASH_SIZE = key)))) ∧
    (∀ x ∈ s.upcoming_heaps d, hash_get s.event_hash_map d x.id = some x) ∧
    (∀ id : Int, (∀ x ∈ s.upcoming_heaps d, x.id ≠ id) →
      hash_get s.event_hash_map d id = none) ∧
    (s.undo_stacks d).Perm ((s.upcoming_heaps d).map Event.id) ∧
    (s.undo_stacks d).Pairwise (fun a b => a > b) := by
  obtain ⟨_, hco⟩ := cohInv_of_reachableAnyNoOverflow s hR
  obtain ⟨es, hc⟩ := hco d
  have hb := basicInv_of_reachableBy _ s hR d
  obtain ⟨hperm, hstack, hhash, hpw, hprops⟩ := id hc
  have hidpw : (es.map Event.id).Pairwise (fun a b => a < b) :=
    List.pairwise_map.2 hpw
  have hidnd : (es.map Event.id).Nodup := hidpw.imp (fun h => ne_of_lt h)
  have hidnd' : ((s.upcoming_heaps d).map Event.id).Nodup :=
    (List.Perm.nodup_iff (hperm.map Event.id)).2 hidnd
  refine ⟨List.Nodup.of_map Event.id hidnd', hidnd', hb.2.1, ?_, ?_, ?_, ?_, ?_⟩
  · intro key
    rw [hhash key]
    exact (List.reverse_perm _).trans (hperm.symm.filter _)
  · intro x hx
    exact coherent_hash_get s d es hc x (hperm.mem_iff.1 hx)
  · intro id hid
    exact coherent_hash_get_none s d es hc id (fun x hx => hid x (hperm.mem_iff.2 hx))
  · rw [hstack]
    exact (List.reverse_perm _).trans (hperm.symm.map Event.id)
  · rw [hstack, List.pairwise_reverse]
    exact hidpw.imp (fun h => h)

/-- Witness for C15: after the appointments with ids 1 and 2 of doctor 0 the undo
stack is `[2, 1]`. -/
theorem index_coherence_witness :
    ReachableAnyNoOverflow after_next ∧ after_next.undo_stacks 0 = [2, 1] ∧
      (after_next.undo_stacks 0).Perm ((after_next.upcoming_heaps 0).map Event.id) ∧
      (after_next.interval_trees 0).events.Perm (after_next.upcoming_heaps 0) :=
  ⟨reachableBy_mono (fun _ _ _ _ hv => ⟨hv.1.1, hv.1.2.1, hv.2⟩) _
      reachableNoOverflow_after_next,
    by decide,
    (index_coherence after_next
      (reachableBy_mono (fun _ _ _ _ hv => ⟨hv.1.1, hv.1.2.1, hv.2⟩) _
        reachableNoOverflow_after_next) 0).2.2.2.2.2.2.1,
    (index_coherence after_next
      (reachableBy_mono (fun _ _ _ _ hv => ⟨hv.1.1, hv.1.2.1, hv.2⟩) _
        reachableNoOverflow_after_next) 0).2.2.1⟩

/-- Counterexample to C15 as stated: in the state reached by 4294967294 rounds of
`ADD 1 0 1` and `UNDO 1` followed by `ADD 1 0 1` and `UNDO 1`, doctor 1's heap and
interval tree hold the event with the id -1, which the last `undo_last` popped from the
undo stack without removing it: the undo stack is empty and lists no live event. -/
theorem undo_stack_misses_event_after_wrap :
    ReachableAny orphan ∧ Reachable orphan ∧
      orphan.upcoming_heaps 1 = [⟨-1, 1, 0, 1, 1, 0, 3, []⟩] ∧
      (orphan.interval_trees 1).events = [⟨-1, 1, 0, 1, 1, 0, 3, []⟩] ∧
      orphan.undo_stacks 1 = [] ∧
      ¬ (orphan.undo_stacks 1).Perm ((orphan.upcoming_heaps 1).map Event.id) := by
  refine ⟨reachableBy_mono (fun _ _ _ _ hv => ⟨hv.1, hv.2.1⟩) _ reachable_orphan,
    reachable_orphan, ?_⟩
  rw [orphan_eq]
  decide


/-! ## C16 -/

/-- C16 (amended). Engine-wide bound: in every state reachable from the initial state
by `add_event` and `undo_last` calls, each doctor's heap holds at most
`MAX_EVENTS_TOTAL = 1000` events; the number of events summed over the heaps of all 100
doctors is therefore at most `100 * 1000`. -/
theorem per_doctor_bound (s : SchedulerState) (hR : ReachableAny s) :
    (∀ d : Int, (s.upcoming_heaps d).length ≤ MAX_EVENTS_TOTAL) ∧
      total_events s ≤ 100 * MAX_EVENTS_TOTAL := by
  have hb := basicInv_of_reachableBy _ s hR
  refine ⟨fun d => (hb d).2.2.2, ?_⟩
  unfold total_events
  have := List.sum_le_card_nsmul
    ((List.range 100).map (fun d : Nat => (s.upcoming_heaps (d : Int)).length))
    MAX_EVENTS_TOTAL (by
      intro x hx
      obtain ⟨d, _, rfl⟩ := List.mem_map.1 hx
      exact (hb d).2.2.2)
  simpa using this

/-- Witness for C16 (amended): the state after `ADD 0 600 30`. -/
theorem per_doctor_bound_witness :
    ReachableAny after_checkup ∧
      (after_checkup.upcoming_heaps 0).length ≤ MAX_EVENTS_TOTAL ∧
      total_events after_checkup ≤ 100 * MAX_EVENTS_TOTAL :=
  ⟨reachableBy_mono (fun _ _ _ _ hv => ⟨hv.1, hv.2.1⟩) _ reachable_after_checkup,
    (per_doctor_bound after_checkup
      (reachableBy_mono (fun _ _ _ _ hv => ⟨hv.1, hv.2.1⟩) _ reachable_after_checkup)).1 0,
    (per_doctor_bound after_checkup
      (reachableBy_mono (fun _ _ _ _ hv => ⟨hv.1, hv.2.1⟩) _ reachable_after_checkup)).2⟩

/-- Counterexample to C16 as stated: 1000 one-minute appointments of doctor 0, one at
the first minute of each of the days `0 .. 999`, followed by one appointment of doctor 1
are all valid calls that return 0; the state reached holds 1000 events of doctor 0 and
one of doctor 1, so the total over the doctors is larger than 1000. -/
theorem engine_total_exceeds_limit :
    ReachableAny overfull ∧ Reachable overfull ∧
      (overfull.upcoming_heaps 0).length = 1000 ∧
      (overfull.upcoming_heaps 1).length = 1 ∧
      MAX_EVENTS_TOTAL < total_events overfull := by
  obtain ⟨hR, h₀, h₁⟩ := overfull_spec
  refine ⟨reachableBy_mono (fun _ _ _ _ hv => ⟨hv.1.1, hv.1.2.1⟩) _ hR,
    reachable_of_reachableNoOverflow _ hR, h₀, h₁, ?_⟩
  have := total_events_ge overfull
  rw [h₀, h₁] at this
  unfold MAX_EVENTS_TOTAL
  omega


/-! ## C17 -/

/-- C17. Correctness of the single-path overlap query: for every interval tree obtained
from the empty tree by a sequence of `it_insert` calls (any events, in any order) and
every query `(start, end_)`, the tree satisfies the search-tree order on start times
with `max` the largest `end_time` of each subtree, it stores exactly the inserted
events, `check_collision` returns `NULL` if and only if no stored event `x` satisfies
`x.start_time < end_` and `x.end_time > start`, and a node it returns is a node whose
event is stored in the tree and satisfies both inequalities. -/
theorem check_collision_correct (es : List Event) (start end_ : Int) :
    (es.foldl it_insert ITNode.null).WF ∧
    (es.foldl it_insert ITNode.null).events.Perm es ∧
    (check_collision (es.foldl it_insert ITNode.null) start end_ = none ↔
      ∀ x ∈ es, ¬ (x.start_time < end_ ∧ x.end_time > start)) ∧
    (∀ n, check_collision (es.foldl it_insert ITNode.null) start end_ = some n →
      ∃ ev mx l r, n = ITNode.node ev mx l r ∧ ev ∈ es ∧
        ev.start_time < end_ ∧ ev.end_time > start) := by
  have hwf := foldl_it_insert_WF es ITNode.null trivial
  have hperm : (es.foldl it_insert ITNode.null).events.Perm es := by
    simpa [ITNode.events] using foldl_it_insert_perm es ITNode.null
  refine ⟨hwf, hperm, ⟨?_, ?_⟩, ?_⟩
  · intro h x hx
    exact check_collision_none _ _ _ hwf h x (hperm.mem_iff.2 hx)
  · intro h
    cases hc : check_collision (es.foldl it_insert ITNode.null) start end_ with
    | none => rfl
    | some n =>
      obtain ⟨ev, _, _, _, _, hmem, hov⟩ := check_collision_some _ _ _ _ hc
      exact absurd hov (h ev (hperm.mem_iff.1 hmem))
  · intro n hc
    obtain ⟨ev, mx, l, r, hn, hmem, hov⟩ := check_collision_some _ _ _ _ hc
    exact ⟨ev, mx, l, r, hn, hperm.mem_iff.1 hmem, hov.1, hov.2⟩

/-! ## C18 -/

/-- When `add_event` returns 1, the bounds it writes are those of an event of the heap
that overlaps the request. -/
theorem add_event_collision_report (s : SchedulerState) (hb : BasicInv s)
    (d start duration type break_type : Int) (desc : List Char)
    (h : (add_event s d start duration type break_type desc).ret = 1) :
    ∃ x ∈ s.upcoming_heaps d, Overlaps x start (wrap32 (start + duration)) ∧
      (add_event s d start duration type break_type desc).collision_start =
        some x.start_time ∧
      (add_event s d start duration type break_type desc).collision_end =
        some x.end_time := by
  rcases add_event_cases s d start duration type break_type desc with
    ⟨_, he⟩ | ⟨_, _, he⟩ | ⟨_, _, ev, mx, l, r, hc, he⟩ | ⟨_, _, _, he⟩
  · rw [he] at h; simp at h
  · rw [he] at h; simp at h
  · obtain ⟨ev', _, _, _, hn, hmem, hov⟩ := check_collision_some _ _ _ _ hc
    injection hn with hn₁
    subst hn₁
    exact ⟨ev, (hb d).2.1.mem_iff.1 hmem, hov, by rw [he], by rw [he]⟩
  · rw [he] at h; simp at h

theorem add_event_no_report (s : SchedulerState) (d start duration type break_type : Int)
    (desc : List Char) (h : (add_event s d start duration type break_type desc).ret ≠ 1) :
    (add_event s d start duration type break_type desc).collision_start = none ∧
      (add_event s d start duration type break_type desc).collision_end = none := by
  rcases add_event_cases s d start duration type break_type desc with
    ⟨_, he⟩ | ⟨_, _, he⟩ | ⟨_, _, ev, mx, l, r, hc, he⟩ | ⟨_, _, _, he⟩
  · rw [he]; exact ⟨rfl, rfl⟩
  · rw [he]; exact ⟨rfl, rfl⟩
  · rw [he] at h; simp at h
  · rw [he]; exact ⟨rfl, rfl⟩

/-- The heaps after a successful add followed at once by `undo_last` on the same
doctor, in a state reachable without overflow of the id counter, are the heaps from
before the add. -/
theorem heaps_after_add_undo (s : SchedulerState) (hR : ReachableNoOverflow s)
    (d start duration type break_type : Int) (desc : List Char)
    (hret : (add_event s d start duration type break_type desc).ret = 0) :
    (undo_last (add_event s d start duration type break_type desc).state d).upcoming_heaps =
      s.upcoming_heaps := by
  obtain ⟨hg₀, htl⟩ := histInv_of_reachableNoOverflow s hR
  obtain ⟨es, ht⟩ := htl d
  obtain ⟨_, _, hno, _⟩ := basicInv_of_reachableBy _ s hR d
  have hperm := timeline_heap_perm s d es ht
  rcases add_event_cases s d start duration type break_type desc with
    ⟨_, he⟩ | ⟨_, _, he⟩ | ⟨_, _, _, _, _, _, _, he⟩ | ⟨hlen, _, _, he⟩
  · rw [he] at hret; simp at hret
  · rw [he] at hret; simp at hret
  · rw [he] at hret; simp at hret
  · have hs' : undo_last (add_event s d start duration type break_type desc).state d =
        undone (added s d (new_event s d start duration type break_type desc)) d
          s.global_event_id (s.undo_stacks d) := by
      simp only [he]
      apply undo_last_found _ d _ _ (new_event s d start duration type break_type desc)
      · simp [added, stack_push, new_event]
      · omega
      · exact hash_get_hash_insert s.event_hash_map
          (new_event s d start duration type break_type desc)
    have hheap : heap_remove (heap_insert (s.upcoming_heaps d)
        (new_event s d start duration type break_type desc)) s.global_event_id =
        s.upcoming_heaps d := by
      apply heap_remove_heap_insert (s.upcoming_heaps d)
        (new_event s d start duration type break_type desc)
      · rw [ht.1]; exact (build_heap_spec es ht.2.1).2
      · apply distinctStarts_of_nonOverlap _ hno
        intro x hx
        exact (ht.2.2.2.2.2 x (hperm.mem_iff.1 hx)).2.2.2
      · intro x hx
        exact ne_of_lt (ht.2.2.2.2.2 x (hperm.mem_iff.1 hx)).2.1
      · exact hlen
    rw [hs']
    simp only [undone, added, Function.update_same, hheap, Function.update_idem,
      Function.update_eq_self]

/-- C20 (amended). Add-then-undo and later ADD replies: for every state `S` reachable by
valid `add_event` and `undo_last` calls (none overflowing the id counter), every
`add_event` on doctor `d` that returns 0 in `S`, and the state `S'` obtained by
following it at once with `undo_last(d)`, every subsequent call
`add_event(d, start, duration, ...)` returns in `S'` the same result code as in `S`.
When that code is 1, the bounds written in `S` and those written in `S'` are each the
bounds of an event of `d`'s heap that overlaps the request; they are the same bounds
when only one event of the heap overlaps the request, and may differ otherwise, because
the rebuilt tree can have another shape. -/
theorem add_undo_then_add (s : SchedulerState) (hR : ReachableNoOverflow s)
    (d a_start a_duration a_type a_break_type : Int) (a_desc : List Char)
    (hret : (add_event s d a_start a_duration a_type a_break_type a_desc).ret = 0)
    (start duration type break_type : Int) (desc : List Char) :
    let s' := undo_last (add_event s d a_start a_duration a_type a_break_type a_desc).state d
    let r := add_event s d start duration type break_type desc
    let r' := add_event s' d start duration type break_type desc
    r'.ret = r.ret ∧
    (r.ret = 1 → ∃ x ∈ s.upcoming_heaps d, Overlaps x start (wrap32 (start + duration)) ∧
      r.collision_start = some x.start_time ∧ r.collision_end = some x.end_time) ∧
    (r'.ret = 1 → ∃ x ∈ s.upcoming_heaps d, Overlaps x start (wrap32 (start + duration)) ∧
      r'.collision_start = some x.start_time ∧ r'.collision_end = some x.end_time) ∧
    ((∀ x ∈ s.upcoming_heaps d, ∀ y ∈ s.upcoming_heaps d,
        Overlaps x start (wrap32 (start + duration)) →
        Overlaps y start (wrap32 (start + duration)) → x = y) →
      r'.collision_start = r.collision_start ∧ r'.collision_end = r.collision_end) := by
  intro s' r r'
  have hb := basicInv_of_reachableBy _ s hR
  have hb' : BasicInv s' :=
    basicInv_undo_last _ d (basicInv_add_event s d a_start a_duration a_type a_break_type
      a_desc hb)
  have hheaps : s'.upcoming_heaps = s.upcoming_heaps :=
    heaps_after_add_undo s hR d a_start a_duration a_type a_break_type a_desc hret
  have hnone : check_collision (s'.interval_trees d) start (wrap32 (start + duration)) = none ↔
      check_collision (s.interval_trees d) start (wrap32 (start + duration)) = none := by
    rw [check_collision_none_iff_heap s' hb', check_collision_none_iff_heap s hb, hheaps]
  have hret' : r'.ret = r.ret := by
    simp only [r, r', add_event_ret, hheaps]
    by_cases hc : check_collision (s.interval_trees d) start (wrap32 (start + duration)) = none
    · rw [if_pos hc, if_pos (hnone.2 hc)]
    · rw [if_neg hc, if_neg (fun h => hc (hnone.1 h))]
  have hrep : r.ret = 1 → ∃ x ∈ s.upcoming_heaps d,
      Overlaps x start (wrap32 (start + duration)) ∧
      r.collision_start = some x.start_time ∧ r.collision_end = some x.end_time :=
    fun h => add_event_collision_report s hb d start duration type break_type desc h
  have hrep' : r'.ret = 1 → ∃ x ∈ s.upcoming_heaps d,
      Overlaps x start (wrap32 (start + duration)) ∧
      r'.collision_start = some x.start_time ∧ r'.collision_end = some x.end_time := by
    intro h
    have := add_event_collision_report s' hb' d start duration type break_type desc h
    rwa [hheaps] at this
  refine ⟨hret', hrep, hrep', ?_⟩
  intro huniq
  by_cases h₁ : r.ret = 1
  · obtain ⟨x, hx, hox, hxs, hxe⟩ := hrep h₁
    obtain ⟨y, hy, hoy, hys, hye⟩ := hrep' (hret'.trans h₁)
    have := huniq x hx y hy hox hoy
    subst this
    exact ⟨hys.trans hxs.symm, hye.trans hxe.symm⟩
  · have h₂ := add_event_no_report s d start duration type break_type desc h₁
    have h₃ := add_event_no_report s' d start duration type break_type desc
      (fun h => h₁ (hret'.symm.trans h))
    exact ⟨h₃.1.trans h₂.1.symm, h₃.2.trans h₂.2.symm⟩

/-- Witness for C20 (amended): after `[20, 30)` and `[0, 10)`, adding and undoing
`[40, 50)` does not change the result code of the request `[5, 25)`. -/
theorem add_undo_then_add_witness :
    ReachableNoOverflow late_first ∧ (add_event late_first 0 40 10 0 3 []).ret = 0 ∧
      (add_event (undo_last (add_event late_first 0 40 10 0 3 []).state 0) 0 5 20 0 3 []).ret =
        (add_event late_first 0 5 20 0 3 []).ret :=
  ⟨reachableNoOverflow_late_first, by decide,
    (add_undo_then_add late_first reachableNoOverflow_late_first 0 40 10 0 3 [] (by decide)
      5 20 0 3 []).1⟩

/-- Counterexample to C20 as stated: doctor 0 holds `[20, 30)` and `[0, 10)`, added in
this order by valid calls, so the tree has `[20, 30)` at its root. `add_event(0, 40, 10)`
returns 0 and `undo_last(0)` rebuilds the tree from the heap array, whose first event is
`[0, 10)`. The request `add_event(0, 5, 20)` overlaps both events: before the add and
undo it reports `20 30`, after them it reports `0 10`. -/
theorem add_undo_changes_collision_report :
    Reachable late_first ∧ (add_event late_first 0 40 10 0 3 []).ret = 0 ∧
      (add_event late_first 0 5 20 0 3 []).ret = 1 ∧
      (add_event late_first 0 5 20 0 3 []).collision_start = some 20 ∧
      (add_event late_first 0 5 20 0 3 []).collision_end = some 30 ∧
      (add_event (undo_last (add_event late_first 0 40 10 0 3 []).state 0)
        0 5 20 0 3 []).ret = 1 ∧
      (add_event (undo_last (add_event late_first 0 40 10 0 3 []).state 0)
        0 5 20 0 3 []).collision_start = some 0 ∧
      (add_event (undo_last (add_event late_first 0 40 10 0 3 []).state 0)
        0 5 20 0 3 []).collision_end = some 10 :=
  ⟨reachable_of_reachableNoOverflow _ reachableNoOverflow_late_first,
    by decide, by decide, by decide, by decide, by decide, by decide, by decide⟩

end Scheduler
